import Mathlib

/-!
Verification of the PII-Redactor redaction pipeline (src/index.js).

The regexes of `PATTERNS`, the `isValidCreditCard` validator, the
`applyRedaction` helper and the `/redact` endpoint are embedded as
executable Lean functions on `List Char`.  Regular expressions are
translated into continuation-passing backtracking matchers whose
alternation, greediness and laziness follow the JavaScript engine:
alternatives are tried left to right, a greedy quantifier first tries to
consume, a lazy one first tries not to, and failure of the continuation
backtracks into earlier choices.  `String.prototype.replace` with a
global regex corresponds to a left-to-right scan of the original string
that resumes after each consumed match.
-/

namespace PII

/-- A word character in the sense of the JavaScript regex `\b` and `\w`:
`[A-Za-z0-9_]`. -/
def isWordChar (c : Char) : Bool :=
  ('A' ≤ c && c ≤ 'Z') || ('a' ≤ c && c ≤ 'z') || ('0' ≤ c && c ≤ '9') || c = '_'

/-- The regex class `\d` = `[0-9]`. -/
def isDigitChar (c : Char) : Bool :=
  '0' ≤ c && c ≤ '9'

/-- The regex class `\s` (whitespace), restricted to its ASCII members:
space, tab, line feed, vertical tab, form feed, carriage return.
(The Unicode members of the JavaScript class play no role here.) -/
def isSpaceChar (c : Char) : Bool :=
  c = ' ' || c = '\t' || c = '\n' || c = '\r' || c.toNat = 11 || c.toNat = 12

/-- `[A-Za-z]`, the letter class used by the email pattern. -/
def isAlphaChar (c : Char) : Bool :=
  ('A' ≤ c && c ≤ 'Z') || ('a' ≤ c && c ≤ 'z')

/-- `[A-Za-z0-9._%+-]`, the local-part class of the email pattern. -/
def isLocalChar (c : Char) : Bool :=
  isAlphaChar c || isDigitChar c || c = '.' || c = '_' || c = '%' || c = '+' || c = '-'

/-- `[A-Za-z0-9.-]`, the domain class of the email pattern. -/
def isDomainChar (c : Char) : Bool :=
  isAlphaChar c || isDigitChar c || c = '.' || c = '-'

/-- `[-.\s]`, the separator class of the phone pattern. -/
def isPhoneSep (c : Char) : Bool :=
  c = '-' || c = '.' || isSpaceChar c

/-- `[ -]`, the separator class of the credit-card pattern. -/
def isCardSep (c : Char) : Bool :=
  c = ' ' || c = '-'

/-- A continuation receives the last consumed character (for the trailing
`\b`) and the remaining input, and decides whether the rest of the
pattern matches, returning the characters it consumes. -/
abbrev K := Option Char → List Char → Option (List Char)

/-- A matcher fragment: given the last consumed character, the remaining
input and a continuation, return the full list of characters consumed
from here on by the fragment and the continuation. -/
abbrev M := Option Char → List Char → K → Option (List Char)

/-- Ordered alternative: the left operand is preferred, mirroring regex
alternation and the backtracking order of optional quantifiers. -/
def alt (a b : Option (List Char)) : Option (List Char) :=
  match a with
  | some r => some r
  | none => b

/-- Match one character of the class `p`. -/
def chr (p : Char → Bool) : M := fun _ s k =>
  match s with
  | [] => none
  | c :: t => if p c then (k (some c) t).map (fun m => c :: m) else none

/-- Match the literal character `c`. -/
def lit (c : Char) : M :=
  chr (fun d => d = c)

/-- Sequencing of two fragments. -/
def seqM (a b : M) : M := fun last s k =>
  a last s (fun last2 s2 => b last2 s2 k)

/-- A greedy optional fragment (`x?`): try to consume first. -/
def optM (m : M) : M := fun last s k =>
  alt (m last s k) (k last s)

/-- Greedy Kleene star over a character class (`[c]*`): consume as many
characters as possible, giving them back one at a time on failure. -/
def starChr (p : Char → Bool) : M := fun last s k =>
  match s with
  | [] => k last []
  | c :: t =>
    if p c then alt ((starChr p (some c) t k).map (fun m => c :: m)) (k last (c :: t))
    else k last (c :: t)

/-- Greedy plus over a character class (`[c]+`). -/
def plusChr (p : Char → Bool) : M :=
  seqM (chr p) (starChr p)

/-- Lazy Kleene star over a character class (`[c]*?`): try the
continuation first, consume a character only when it fails. -/
def lazyStarChr (p : Char → Bool) : M := fun last s k =>
  match s with
  | [] => k last []
  | c :: t =>
    alt (k last (c :: t))
      (if p c then (lazyStarChr p (some c) t k).map (fun m => c :: m) else none)

/-- Greedy counted repetition `x{lo,lo+hi}` of a fragment: prefer more
repetitions, stop only once at least `lo` have been matched.  `hi` is
the number of repetitions still allowed beyond those taken. -/
def repM (lo hi : Nat) (item : M) : M := fun last s k =>
  match hi with
  | 0 => if lo = 0 then k last s else none
  | hi' + 1 =>
    alt (item last s (fun last2 s2 => repM (lo - 1) hi' item last2 s2 k))
      (if lo = 0 then k last s else none)

/-- Word/non-word status of an optional character; the ends of the string
count as non-word, as in the JavaScript `\b` rule. -/
def isWordOpt : Option Char → Bool
  | some c => isWordChar c
  | none => false

/-- The `\b` assertion between a previous and a next character. -/
def wordBoundary (prev next : Option Char) : Bool :=
  isWordOpt prev != isWordOpt next

/-- Run a pattern of the common shape `\b …body… \b` anchored at the
current position.  `prev` is the character before this position in the
whole input (`none` at the start).  Returns the matched characters. -/
def runPat (body : M) (prev : Option Char) (s : List Char) : Option (List Char) :=
  if wordBoundary prev s.head? then
    body prev s (fun lastc rest => if wordBoundary lastc rest.head? then some [] else none)
  else none

/-! The five patterns of `PATTERNS`, transcribed fragment by fragment.
Each definition below is the part of the regex between the two `\b`
anchors; `runPat` supplies the anchors. -/

/-- One IPv4 octet: `(?:25[0-5]|2[0-4][0-9]|[01]?[0-9][0-9]?)`. -/
def octet : M := fun last s k =>
  alt (seqM (lit '2') (seqM (lit '5') (chr (fun c => '0' ≤ c && c ≤ '5'))) last s k)
    (alt (seqM (lit '2') (seqM (chr (fun c => '0' ≤ c && c ≤ '4')) (chr isDigitChar)) last s k)
      (seqM (optM (chr (fun c => c = '0' || c = '1')))
        (seqM (chr isDigitChar) (optM (chr isDigitChar))) last s k))

/-- `PATTERNS.IPV4` body:
`(?:(?:25[0-5]|2[0-4][0-9]|[01]?[0-9][0-9]?)\.){3}(?:25[0-5]|2[0-4][0-9]|[01]?[0-9][0-9]?)`. -/
def IPV4 : M :=
  seqM octet (seqM (lit '.') (seqM octet (seqM (lit '.') (seqM octet (seqM (lit '.') octet)))))

/-- `PATTERNS.EMAIL` body: `[A-Za-z0-9._%+-]+@[A-Za-z0-9.-]+\.[A-Za-z]{2,}`. -/
def EMAIL : M :=
  seqM (plusChr isLocalChar)
    (seqM (lit '@')
      (seqM (plusChr isDomainChar)
        (seqM (lit '.') (seqM (chr isAlphaChar) (plusChr isAlphaChar)))))

/-- The lookahead alternatives `000|666|9\d{2}` of the SSN pattern,
tested against the upcoming input. -/
def ssnBadArea : List Char → Bool
  | a :: b :: c :: _ =>
    (a = '0' && b = '0' && c = '0') || (a = '6' && b = '6' && c = '6')
      || (a = '9' && isDigitChar b && isDigitChar c)
  | _ => false

/-- The lookahead alternative `00` of the SSN pattern. -/
def ssnBadGroup : List Char → Bool
  | a :: b :: _ => a = '0' && b = '0'
  | _ => false

/-- The lookahead alternative `0000` of the SSN pattern. -/
def ssnBadSerial : List Char → Bool
  | a :: b :: c :: d :: _ => a = '0' && b = '0' && c = '0' && d = '0'
  | _ => false

/-- `PATTERNS.SSN_US` body:
`(?!000|666|9\d{2})-?\d{3}-(?!00)-?\d{2}-(?!0000)-?\d{4}`. -/
def SSN_US : M := fun last s k =>
  if ssnBadArea s then none
  else
    seqM (optM (lit '-'))
      (seqM (chr isDigitChar) (seqM (chr isDigitChar) (seqM (chr isDigitChar)
        (seqM (lit '-') (fun last2 s2 k2 =>
          if ssnBadGroup s2 then none
          else
            seqM (optM (lit '-'))
              (seqM (chr isDigitChar) (seqM (chr isDigitChar)
                (seqM (lit '-') (fun last3 s3 k3 =>
                  if ssnBadSerial s3 then none
                  else
                    seqM (optM (lit '-'))
                      (seqM (chr isDigitChar) (seqM (chr isDigitChar)
                        (seqM (chr isDigitChar) (chr isDigitChar))))
                      last3 s3 k3))))
              last2 s2 k2)))))
      last s k

/-- `PATTERNS.PHONE_US` body:
`(?:\+?1[-.\s]?)?\(?([0-9]{3})\)?[-.\s]?([0-9]{3})[-.\s]?([0-9]{4})`. -/
def PHONE_US : M :=
  seqM (optM (seqM (optM (lit '+')) (seqM (lit '1') (optM (chr isPhoneSep)))))
    (seqM (optM (lit '('))
      (seqM (seqM (chr isDigitChar) (seqM (chr isDigitChar) (chr isDigitChar)))
        (seqM (optM (lit ')'))
          (seqM (optM (chr isPhoneSep))
            (seqM (seqM (chr isDigitChar) (seqM (chr isDigitChar) (chr isDigitChar)))
              (seqM (optM (chr isPhoneSep))
                (seqM (chr isDigitChar) (seqM (chr isDigitChar)
                  (seqM (chr isDigitChar) (chr isDigitChar))))))))))

/-- `PATTERNS.CREDIT_CARD` body: `(?:\d[ -]*?){13,19}`. -/
def CREDIT_CARD : M :=
  repM 13 19 (seqM (chr isDigitChar) (lazyStarChr isCardSep))

end PII

namespace PII

/-- The numeric value of a digit character, as `parseInt` yields on a
single decimal digit. -/
def digitVal (c : Char) : Nat :=
  c.toNat - 48

/-- The loop of `isValidCreditCard`, processing the stripped digits from
rightmost to leftmost (the list argument is the reversed digit list).
The source computes the doubled-and-adjusted digit but then executes
`sum += 2`, adding the constant 2 instead of the digit value; the
embedding reproduces that faithfully. -/
def luhnLoop : List Char → Bool → Nat → Nat
  | [], _, sum => sum
  | c :: t, isEven, sum =>
    let digit := digitVal c
    let _adjusted := if isEven then (if digit * 2 > 9 then digit * 2 - 9 else digit * 2) else digit
    luhnLoop t (!isEven) (sum + 2)

/-- `isValidCreditCard` from the source: strip `[\s-]`, then run the
checksum loop right to left starting with `isEven = false`, and accept
iff the resulting sum is divisible by 10. -/
def isValidCreditCard (number : List Char) : Bool :=
  let digits := number.filter (fun c => !(isSpaceChar c || c = '-'))
  luhnLoop digits.reverse false 0 % 10 = 0

/-- Modelled from the spec (§4.2), for comparison with the source
validator: the standard Luhn sum, doubling every second digit from the
right and subtracting 9 from doubled values over 9. -/
def luhnSpecLoop : List Char → Bool → Nat → Nat
  | [], _, sum => sum
  | c :: t, isEven, sum =>
    let digit := digitVal c
    let adjusted := if isEven then (if digit * 2 > 9 then digit * 2 - 9 else digit * 2) else digit
    luhnSpecLoop t (!isEven) (sum + adjusted)

/-- Modelled from the spec (§4.2): a number is Luhn-valid iff the
standard sum over its stripped digits is divisible by 10. -/
def luhnSpecValid (number : List Char) : Bool :=
  let digits := number.filter (fun c => !(isSpaceChar c || c = '-'))
  luhnSpecLoop digits.reverse false 0 % 10 = 0

/-- Left-to-right scan for the first position where the anchored pattern
matches, as the JavaScript engine does for a global regex.  Returns the
text before the match, the matched characters, and the rest of the input
after the match. -/
def findMatch (body : M) (prev : Option Char) (s : List Char) :
    Option (List Char × List Char × List Char) :=
  match runPat body prev s with
  | some m => some ([], m, s.drop m.length)
  | none =>
    match s with
    | [] => none
    | c :: t => (findMatch body (some c) t).map (fun r => (c :: r.1, r.2.1, r.2.2))

/-- One `String.prototype.replace` call with a global regex and the
counting callback of `applyRedaction`: every match is consumed; an
accepted match is replaced by the placeholder and counted, a match
rejected by the validator is written back verbatim and not counted.
Scanning resumes after the consumed match either way.  `fuel` bounds the
number of scan steps; `replaceAll` supplies enough for any input. -/
def replaceGo (body : M) (validator : Option (List Char → Bool)) (placeholder : List Char) :
    Nat → Option Char → List Char → List Char × Nat
  | 0, _, s => (s, 0)
  | fuel + 1, prev, s =>
    match findMatch body prev s with
    | none => (s, 0)
    | some (pre, m, rest) =>
      let prev2 := match m.getLast? with
        | some c => some c
        | none => prev
      let accepted := match validator with
        | some v => v m
        | none => true
      let tail := replaceGo body validator placeholder fuel prev2 rest
      if accepted then (pre ++ placeholder ++ tail.1, tail.2 + 1)
      else (pre ++ m ++ tail.1, tail.2)

/-- `text.replace(pattern, callback)` together with the match counter of
`applyRedaction`: returns the rewritten text and the number of accepted
matches. -/
def replaceAll (body : M) (validator : Option (List Char → Bool)) (placeholder : List Char)
    (s : List Char) : List Char × Nat :=
  replaceGo body validator placeholder (s.length + 1) none s

/-- The placeholder used by every detector. -/
def PLACEHOLDER : List Char :=
  ('[' :: 'R' :: 'E' :: 'D' :: 'A' :: 'C' :: 'T' :: 'E' :: 'D' :: ']' :: [])

/-- The per-request mutable state of the `/redact` handler. -/
structure RunState where
  redactedText : List Char
  totalRedactions : Nat
  redactionMap : List (String × Nat)
deriving DecidableEq, Repr

/-- `redactionMap[type]`, with the `|| 0` default of the source. -/
def mapGet (m : List (String × Nat)) (ty : String) : Nat :=
  match m with
  | [] => 0
  | (k, v) :: t => if k = ty then v else mapGet t ty

/-- `redactionMap[type] = v` on a JavaScript object: update the existing
key in place, or append a new key at the end (insertion order). -/
def mapSet (m : List (String × Nat)) (ty : String) (v : Nat) : List (String × Nat) :=
  match m with
  | [] => [(ty, v)]
  | (k, w) :: t => if k = ty then (k, v) :: t else (k, w) :: mapSet t ty v

/-- `applyRedaction(pattern, placeholder, type, validator)` from the
source, acting on the captured mutable state. -/
def applyRedaction (body : M) (placeholder : List Char) (ty : String)
    (validator : Option (List Char → Bool)) (st : RunState) : RunState :=
  let r := replaceAll body validator placeholder st.redactedText
  { redactedText := r.1
    totalRedactions := st.totalRedactions + r.2
    redactionMap := mapSet st.redactionMap ty (mapGet st.redactionMap ty + r.2) }

/-- The redaction pipe of the `/redact` handler: the five
`applyRedaction` calls in source order. -/
def redact (text : List Char) : RunState :=
  let st0 : RunState := { redactedText := text, totalRedactions := 0, redactionMap := [] }
  let st1 := applyRedaction IPV4 PLACEHOLDER ("ipv4") none st0
  let st2 := applyRedaction EMAIL PLACEHOLDER ("email") none st1
  let st3 := applyRedaction SSN_US PLACEHOLDER ("ssn_us") none st2
  let st4 := applyRedaction PHONE_US PLACEHOLDER ("phone_us") none st3
  applyRedaction CREDIT_CARD PLACEHOLDER ("credit_card") (some isValidCreditCard) st4

/-- JSON values, as far as the handler builds them.  Human-readable
`error` message strings are omitted from the model; the machine-readable
fields (`success`, `code`, the numeric fields, `result`, `metadata`) are
kept. -/
inductive Json where
  | bool (b : Bool)
  | num (n : Nat)
  | str (s : List Char)
  | obj (fields : List (String × Json))

/-- Field lookup in a list of JSON object fields. -/
def jsonLookup : List (String × Json) → String → Option Json
  | [], _ => none
  | (k, v) :: t, key => if k = key then some v else jsonLookup t key

/-- Field lookup in a JSON object (`body.text`-style destructuring);
yields `none` on absent fields and on non-objects. -/
def jsonGet : Json → String → Option Json
  | Json.obj fields, key => jsonLookup fields key
  | _, _ => none

/-- `MAX_INPUT_LENGTH` from the source. -/
def MAX_INPUT_LENGTH : Nat := 1048576

/-- The 400 `INVALID_INPUT` response body. -/
def invalidInputResponse : Json :=
  Json.obj [("success", Json.bool false), ("code", Json.str (('I' :: 'N' :: 'V' :: 'A' :: 'L' :: 'I' :: 'D' :: '_' :: 'I' :: 'N' :: 'P' :: 'U' :: 'T' :: [])))]

/-- The 413 `INPUT_TOO_LARGE` response body, echoing the configured
maximum and the received length. -/
def tooLargeResponse (received : Nat) : Json :=
  Json.obj [("success", Json.bool false),
    ("code", Json.str (('I' :: 'N' :: 'P' :: 'U' :: 'T' :: '_' :: 'T' :: 'O' :: 'O' :: '_' :: 'L' :: 'A' :: 'R' :: 'G' :: 'E' :: []))),
    ("max_length", Json.num MAX_INPUT_LENGTH),
    ("received_length", Json.num received)]

/-- The 200 success response body built by the handler from the final
pipeline state. -/
def successResponse (st : RunState) : Json :=
  Json.obj [("success", Json.bool true),
    ("result", Json.str st.redactedText),
    ("metadata", Json.obj [("redactions_count", Json.num st.totalRedactions),
      ("redactions_by_type", Json.obj (st.redactionMap.map (fun p => (p.1, Json.num p.2))))])]

/-- The `/redact` handler after JSON body parsing: destructure `text`,
reject a missing, non-string or empty (falsy) value with 400
`INVALID_INPUT`, reject an over-long value with 413 `INPUT_TOO_LARGE`,
otherwise run the pipeline and answer 200.  Returns the response body
and the HTTP status. -/
def handleRedact (body : Json) : Json × Nat :=
  match jsonGet body ("text") with
  | some (Json.str t) =>
    if t = [] then (invalidInputResponse, 400)
    else if MAX_INPUT_LENGTH < t.length then (tooLargeResponse t.length, 413)
    else (successResponse (redact t), 200)
  | _ => (invalidInputResponse, 400)

end PII

namespace PII

/-- The numeric value of a digit string, most significant digit first
(what `parseInt` computes on it). -/
def octetVal (ds : List Char) : Nat :=
  ds.foldl (fun a c => a * 10 + digitVal c) 0

/-- Two-level field lookup in a JSON object. -/
def jsonGetPath (j : Json) (k1 k2 : String) : Option Json :=
  match jsonGet j k1 with
  | some v => jsonGet v k2
  | none => none

/-- The sum of the per-type counters of a redaction map. -/
def mapTotal (m : List (String × Nat)) : Nat :=
  (m.map Prod.snd).sum

/-- Whether a two-level field is present in a JSON response. -/
def hasPath (j : Json) (k1 k2 : String) : Bool :=
  (jsonGetPath j k1 k2).isSome

/-- The numeric value of a two-level field of a JSON response, when the
field is present and numeric. -/
def numPath (j : Json) (k1 k2 : String) : Option Nat :=
  match jsonGetPath j k1 k2 with
  | some (Json.num n) => some n
  | _ => none

/-- The numeric value of a top-level field of a JSON response, when the
field is present and numeric. -/
def numField (j : Json) (k : String) : Option Nat :=
  match jsonGet j k with
  | some (Json.num n) => some n
  | _ => none

end PII

namespace PII

/-! Inversion helpers for the matcher combinators. -/

theorem alt_eq_some {a b : Option (List Char)} {r : List Char} (h : alt a b = some r) :
    a = some r ∨ (a = none ∧ b = some r) := by
  cases a with
  | some x => exact Or.inl h
  | none => exact Or.inr ⟨rfl, h⟩

theorem chr_eq_some {p : Char → Bool} {last : Option Char} {s : List Char} {k : K}
    {r : List Char} (h : chr p last s k = some r) :
    ∃ c t r2, s = c :: t ∧ p c = true ∧ k (some c) t = some r2 ∧ r = c :: r2 := by
  cases s with
  | nil => simp [chr] at h
  | cons c t =>
    simp only [chr] at h
    split at h
    · rcases Option.map_eq_some'.mp h with ⟨r2, hk, hr⟩
      exact ⟨c, t, r2, rfl, by assumption, hk, hr.symm⟩
    · cases h

theorem lit_eq_some {c0 : Char} {last : Option Char} {s : List Char} {k : K}
    {r : List Char} (h : lit c0 last s k = some r) :
    ∃ t r2, s = c0 :: t ∧ k (some c0) t = some r2 ∧ r = c0 :: r2 := by
  rcases chr_eq_some h with ⟨c, t, r2, hs, hc, hk, hr⟩
  rcases of_decide_eq_true hc with rfl
  exact ⟨t, r2, hs, hk, hr⟩

theorem optM_eq_some {m : M} {last : Option Char} {s : List Char} {k : K}
    {r : List Char} (h : optM m last s k = some r) :
    m last s k = some r ∨ k last s = some r := by
  rcases alt_eq_some h with h1 | ⟨_, h2⟩
  · exact Or.inl h1
  · exact Or.inr h2

end PII

namespace PII

/-- Claim C1 (code bug evidence): the validator is claimed to accept
exactly the Luhn-valid numbers, and the Luhn-valid sequence
`4231 9001 6469 0061` is claimed to be redacted.  In the source the
checksum loop executes `sum += 2` instead of adding the digit value, so
acceptance depends only on the number of digits: the Luhn-valid 16-digit
sequence is rejected and left completely untouched, while the
Luhn-invalid 15-digit run `111111111111111` is accepted and redacted. -/
theorem c1_luhn_gate :
    luhnSpecValid (("4231 9001 6469 0061").data) = true ∧
    isValidCreditCard (("4231 9001 6469 0061").data) = false ∧
    redact (("4231 9001 6469 0061").data) =
      { redactedText := ("4231 9001 6469 0061").data, totalRedactions := 0,
        redactionMap := [(("ipv4"), 0), (("email"), 0), (("ssn_us"), 0),
          (("phone_us"), 0), (("credit_card"), 0)] } ∧
    luhnSpecValid (("111111111111111").data) = false ∧
    isValidCreditCard (("111111111111111").data) = true ∧
    redact (("111111111111111").data) =
      { redactedText := PLACEHOLDER, totalRedactions := 1,
        redactionMap := [(("ipv4"), 0), (("email"), 0), (("ssn_us"), 0),
          (("phone_us"), 0), (("credit_card"), 1)] } := by
  refine ⟨by decide, by decide, by decide, by decide, by decide, by decide⟩

/-- Claim C3: the pipeline applies `ssn_us` and `phone_us` before
`credit_card` — the five detectors are applied in the fixed order ipv4,
email, ssn_us, phone_us, credit_card — so an SSN is consumed by the SSN
detector and a phone number by the phone detector, neither by the
credit-card detector. -/
theorem c3_priority_order :
    (∀ t : List Char, redact t =
      applyRedaction CREDIT_CARD PLACEHOLDER ("credit_card") (some isValidCreditCard)
        (applyRedaction PHONE_US PLACEHOLDER ("phone_us") none
          (applyRedaction SSN_US PLACEHOLDER ("ssn_us") none
            (applyRedaction EMAIL PLACEHOLDER ("email") none
              (applyRedaction IPV4 PLACEHOLDER ("ipv4") none
                { redactedText := t, totalRedactions := 0, redactionMap := [] }))))) ∧
    redact (("My SSN is 123-45-6789.").data) =
      { redactedText := ("My SSN is [REDACTED].").data, totalRedactions := 1,
        redactionMap := [(("ipv4"), 0), (("email"), 0), (("ssn_us"), 1),
          (("phone_us"), 0), (("credit_card"), 0)] } ∧
    redact (("Call me at 555-019-2834.").data) =
      { redactedText := ("Call me at [REDACTED].").data, totalRedactions := 1,
        redactionMap := [(("ipv4"), 0), (("email"), 0), (("ssn_us"), 0),
          (("phone_us"), 1), (("credit_card"), 0)] } := by
  refine ⟨fun t => rfl, by decide, by decide⟩

/-- Claim C2 (counterexample): the success response of the source
carries no `original_length` and no `redacted_length` field; its
metadata object holds exactly the redaction count and the per-type map.
Shown here on the concrete request body with text `hi`. -/
theorem c2_no_length_fields :
    hasPath (handleRedact (Json.obj [(("text"), Json.str (("hi").data))])).1
        ("metadata") ("original_length") = false ∧
    hasPath (handleRedact (Json.obj [(("text"), Json.str (("hi").data))])).1
        ("metadata") ("redacted_length") = false ∧
    numPath (handleRedact (Json.obj [(("text"), Json.str (("hi").data))])).1
        ("metadata") ("redactions_count") = some 0 := by
  refine ⟨by decide, by decide, by decide⟩

/-- Claim C4 (counterexample): the IPv4 pattern does match components
written with leading zeros — `192.168.001.001` is redacted, counted as
one `ipv4` match. -/
theorem c4_leading_zeros_match :
    redact (("192.168.001.001").data) =
      { redactedText := PLACEHOLDER, totalRedactions := 1,
        redactionMap := [(("ipv4"), 1), (("email"), 0), (("ssn_us"), 0),
          (("phone_us"), 0), (("credit_card"), 0)] } := by
  decide

/-- Claim C7 (counterexample): a reserved SSN area is redacted when the
match begins with the optional extra dash that the pattern admits after
a word character: in `A-900-12-3456` the span `-900-12-3456`, with area
900, is consumed and redacted as an SSN. -/
theorem c7_reserved_area_redacted :
    redact (("A-900-12-3456").data) =
      { redactedText := ('A' :: PLACEHOLDER), totalRedactions := 1,
        redactionMap := [(("ipv4"), 0), (("email"), 0), (("ssn_us"), 1),
          (("phone_us"), 0), (("credit_card"), 0)] } := by
  decide

end PII

namespace PII

/-- Claim C2 (amended): for every accepted request the success response
carries the masked text, the total redaction count and the per-type
count map — and no length fields; this theorem exhibits the complete
shape of the 200 response. -/
theorem c2_success_shape (t : List Char) (h1 : t ≠ [])
    (h2 : t.length ≤ MAX_INPUT_LENGTH) :
    handleRedact (Json.obj [(("text"), Json.str t)]) =
      (Json.obj [(("success"), Json.bool true),
        (("result"), Json.str (redact t).redactedText),
        (("metadata"), Json.obj [(("redactions_count"), Json.num (redact t).totalRedactions),
          (("redactions_by_type"),
            Json.obj ((redact t).redactionMap.map (fun p => (p.1, Json.num p.2))))])],
       200) := by
  simp [handleRedact, jsonGet, jsonLookup, h1, Nat.not_lt.mpr h2, successResponse]

/-- Witness for C2 at the concrete request body with text `hi`. -/
theorem c2_success_shape_witness :
    handleRedact (Json.obj [(("text"), Json.str (("hi").data))]) =
      (Json.obj [(("success"), Json.bool true),
        (("result"), Json.str (redact (("hi").data)).redactedText),
        (("metadata"), Json.obj [(("redactions_count"),
            Json.num (redact (("hi").data)).totalRedactions),
          (("redactions_by_type"),
            Json.obj ((redact (("hi").data)).redactionMap.map (fun p => (p.1, Json.num p.2))))])],
       200) :=
  c2_success_shape (("hi").data) (by decide) (by decide)

/-- Claim C6: for every input text, the reported total equals the sum of
the per-type counters. -/
theorem c6_count_consistency (t : List Char) :
    (redact t).totalRedactions = mapTotal (redact t).redactionMap := by
  simp [redact, applyRedaction, mapSet, mapGet, mapTotal]
  omega

/-- Claim C10: for every input text the per-type map lists all five
detector ids, in registry order, each bound to the count of accepted
matches of that detector on the working text it scanned (hence zero when
it matched nothing). -/
theorem c10_all_types_present (t : List Char) :
    (redact t).redactionMap =
      [(("ipv4"), (replaceAll IPV4 none PLACEHOLDER t).2),
       (("email"), (replaceAll EMAIL none PLACEHOLDER
          (replaceAll IPV4 none PLACEHOLDER t).1).2),
       (("ssn_us"), (replaceAll SSN_US none PLACEHOLDER
          (replaceAll EMAIL none PLACEHOLDER (replaceAll IPV4 none PLACEHOLDER t).1).1).2),
       (("phone_us"), (replaceAll PHONE_US none PLACEHOLDER
          (replaceAll SSN_US none PLACEHOLDER
            (replaceAll EMAIL none PLACEHOLDER (replaceAll IPV4 none PLACEHOLDER t).1).1).1).2),
       (("credit_card"), (replaceAll CREDIT_CARD (some isValidCreditCard) PLACEHOLDER
          (replaceAll PHONE_US none PLACEHOLDER
            (replaceAll SSN_US none PLACEHOLDER
              (replaceAll EMAIL none PLACEHOLDER
                (replaceAll IPV4 none PLACEHOLDER t).1).1).1).1).2)] := by
  simp [redact, applyRedaction, mapSet, mapGet]

/-- Claim C8: a match rejected by the validator is written back verbatim
into the output of the scan and contributes to no counter: one scan step
on a rejected match yields the prefix, the untouched matched span, and
the result of scanning the rest, with an unchanged count. -/
theorem c8_rejected_untouched (body : M) (v : List Char → Bool) (ph : List Char)
    (fuel : Nat) (prev : Option Char) (s pre m rest : List Char)
    (hfind : findMatch body prev s = some (pre, m, rest))
    (hrej : v m = false) :
    replaceGo body (some v) ph (fuel + 1) prev s =
      (pre ++ m ++ (replaceGo body (some v) ph fuel
          (match m.getLast? with | some c => some c | none => prev) rest).1,
       (replaceGo body (some v) ph fuel
          (match m.getLast? with | some c => some c | none => prev) rest).2) := by
  simp [replaceGo, hfind, hrej]

/-- Witness for C8: the 16-digit run `1111111111111111` is matched by the
credit-card pattern, rejected by the validator, and written back whole
with a zero count. -/
theorem c8_rejected_untouched_witness :
    replaceGo CREDIT_CARD (some isValidCreditCard) PLACEHOLDER 1 none
        (("1111111111111111").data) =
      ([] ++ ("1111111111111111").data ++ (replaceGo CREDIT_CARD (some isValidCreditCard)
          PLACEHOLDER 0
          (match (("1111111111111111").data).getLast? with | some c => some c | none => none)
          []).1,
       (replaceGo CREDIT_CARD (some isValidCreditCard) PLACEHOLDER 0
          (match (("1111111111111111").data).getLast? with | some c => some c | none => none)
          []).2) :=
  c8_rejected_untouched CREDIT_CARD isValidCreditCard PLACEHOLDER 0 none
    (("1111111111111111").data) [] (("1111111111111111").data) [] (by decide) (by decide)

/-- Claim C9: an empty or missing text field answers 400 with
`INVALID_INPUT`; a text of exactly the configured maximum length is
processed successfully; one character more answers 413 with
`INPUT_TOO_LARGE`, echoing the configured maximum and the received
length. -/
theorem c9_boundary :
    handleRedact (Json.obj []) = (invalidInputResponse, 400) ∧
    handleRedact (Json.obj [(("text"), Json.str [])]) = (invalidInputResponse, 400) ∧
    (∀ t : List Char, t.length = MAX_INPUT_LENGTH →
      (handleRedact (Json.obj [(("text"), Json.str t)])).2 = 200 ∧
      jsonGet (handleRedact (Json.obj [(("text"), Json.str t)])).1 ("success")
        = some (Json.bool true)) ∧
    (∀ t : List Char, t.length = MAX_INPUT_LENGTH + 1 →
      handleRedact (Json.obj [(("text"), Json.str t)]) = (tooLargeResponse t.length, 413) ∧
      numField (tooLargeResponse t.length) ("max_length") = some 1048576 ∧
      numField (tooLargeResponse t.length) ("received_length") = some t.length) := by
  refine ⟨rfl, rfl, ?_, ?_⟩
  · intro t h
    have h1 : t ≠ [] := by
      intro he
      rw [he] at h
      simp [MAX_INPUT_LENGTH] at h
    have h2 : ¬ MAX_INPUT_LENGTH < t.length := by omega
    simp [handleRedact, jsonGet, jsonLookup, h1, h2, successResponse]
  · intro t h
    have h1 : t ≠ [] := by
      intro he
      rw [he] at h
      simp [MAX_INPUT_LENGTH] at h
    have h2 : MAX_INPUT_LENGTH < t.length := by omega
    refine ⟨?_, ?_, ?_⟩
    · simp [handleRedact, jsonGet, jsonLookup, h1, h2]
    · simp [numField, tooLargeResponse, jsonGet, jsonLookup, MAX_INPUT_LENGTH]
    · simp [numField, tooLargeResponse, jsonGet, jsonLookup]

/-- Witness for C9 at texts of length exactly 1048576 and 1048577. -/
theorem c9_boundary_witness :
    ((handleRedact (Json.obj [(("text"), Json.str (List.replicate 1048576 ('a')))])).2 = 200 ∧
     jsonGet (handleRedact (Json.obj [(("text"),
         Json.str (List.replicate 1048576 ('a')))])).1 ("success") = some (Json.bool true)) ∧
    (handleRedact (Json.obj [(("text"), Json.str (List.replicate 1048577 ('a')))]) =
        (tooLargeResponse (List.replicate 1048577 ('a')).length, 413) ∧
     numField (tooLargeResponse (List.replicate 1048577 ('a')).length) ("max_length")
        = some 1048576 ∧
     numField (tooLargeResponse (List.replicate 1048577 ('a')).length) ("received_length")
        = some (List.replicate 1048577 ('a')).length) :=
  ⟨c9_boundary.2.2.1 _ (by rw [List.length_replicate]; rfl),
   c9_boundary.2.2.2 _ (by rw [List.length_replicate]; rfl)⟩

end PII

namespace PII

/-- A list of characters that one octet alternative of the IPv4 pattern
can consume: nonempty, all digits, decimal value at most 255. -/
def octetOk (o : List Char) : Prop :=
  o ≠ [] ∧ (∀ c ∈ o, isDigitChar c = true) ∧ octetVal o ≤ 255

theorem digit_toNat {c : Char} (h : isDigitChar c = true) :
    48 ≤ c.toNat ∧ c.toNat ≤ 57 := by
  simp only [isDigitChar, Bool.and_eq_true, decide_eq_true_eq] at h
  exact ⟨h.1, h.2⟩

theorem isDigit_of_toNat {c : Char} (h1 : 48 ≤ c.toNat) (h2 : c.toNat ≤ 57) :
    isDigitChar c = true := by
  simp only [isDigitChar, Bool.and_eq_true, decide_eq_true_eq]
  exact ⟨h1, h2⟩

/-- Whatever the octet fragment consumes before its continuation takes
over is a nonempty digit string with value at most 255. -/
theorem octet_eq_some {last : Option Char} {s : List Char} {k : K} {r : List Char}
    (h : octet last s k = some r) :
    ∃ o last2 s2 r2, r = o ++ r2 ∧ k last2 s2 = some r2 ∧ octetOk o := by
  unfold octet at h
  rcases alt_eq_some h with h1 | ⟨_, h⟩
  · simp only [seqM] at h1
    rcases lit_eq_some h1 with ⟨t1, r1, hs1, hk1, hr1⟩
    rcases lit_eq_some hk1 with ⟨t2, r2, hs2, hk2, hr2⟩
    rcases chr_eq_some hk2 with ⟨c3, t3, r3, hs3, hp3, hk3, hr3⟩
    simp only [Bool.and_eq_true, decide_eq_true_eq] at hp3
    have b3 : 48 ≤ c3.toNat ∧ c3.toNat ≤ 53 := ⟨hp3.1, hp3.2⟩
    refine ⟨['2', '5', c3], some c3, t3, r3, by simp [hr1, hr2, hr3], hk3, ?_, ?_, ?_⟩
    · simp
    · intro c hc
      simp only [List.mem_cons, List.not_mem_nil] at hc
      rcases hc with rfl | rfl | rfl | hc
      · decide
      · decide
      · exact isDigit_of_toNat b3.1 (by omega)
      · cases hc
    · simp only [octetVal, List.foldl, digitVal]
      have e2 : ('2').toNat = 50 := rfl
      have e5 : ('5').toNat = 53 := rfl
      omega
  rcases alt_eq_some h with h1 | ⟨_, h⟩
  · simp only [seqM] at h1
    rcases lit_eq_some h1 with ⟨t1, r1, hs1, hk1, hr1⟩
    rcases chr_eq_some hk1 with ⟨c2, t2, r2, hs2, hp2, hk2, hr2⟩
    rcases chr_eq_some hk2 with ⟨c3, t3, r3, hs3, hp3, hk3, hr3⟩
    simp only [Bool.and_eq_true, decide_eq_true_eq] at hp2
    have b2 : 48 ≤ c2.toNat ∧ c2.toNat ≤ 52 := ⟨hp2.1, hp2.2⟩
    have b3 := digit_toNat hp3
    refine ⟨['2', c2, c3], some c3, t3, r3, by simp [hr1, hr2, hr3], hk3, ?_, ?_, ?_⟩
    · simp
    · intro c hc
      simp only [List.mem_cons, List.not_mem_nil] at hc
      rcases hc with rfl | rfl | rfl | hc
      · decide
      · exact isDigit_of_toNat b2.1 (by omega)
      · exact hp3
      · cases hc
    · simp only [octetVal, List.foldl, digitVal]
      have e2 : ('2').toNat = 50 := rfl
      omega
  · simp only [seqM] at h
    rcases optM_eq_some h with h1 | h1
    · rcases chr_eq_some h1 with ⟨c1, t1, r1, hs1, hp1, hk1, hr1⟩
      simp only [Bool.or_eq_true, decide_eq_true_eq] at hp1
      have b1 : 48 ≤ c1.toNat ∧ c1.toNat ≤ 49 := by
        rcases hp1 with rfl | rfl
        · exact ⟨by decide, by decide⟩
        · exact ⟨by decide, by decide⟩
      rcases chr_eq_some hk1 with ⟨c2, t2, r2, hs2, hp2, hk2, hr2⟩
      have b2 := digit_toNat hp2
      rcases optM_eq_some hk2 with h2 | h2
      · rcases chr_eq_some h2 with ⟨c3, t3, r3, hs3, hp3, hk3, hr3⟩
        have b3 := digit_toNat hp3
        refine ⟨[c1, c2, c3], some c3, t3, r3, by simp [hr1, hr2, hr3], hk3, ?_, ?_, ?_⟩
        · simp
        · intro c hc
          simp only [List.mem_cons, List.not_mem_nil] at hc
          rcases hc with rfl | rfl | rfl | hc
          · exact isDigit_of_toNat b1.1 (by omega)
          · exact hp2
          · exact hp3
          · cases hc
        · simp only [octetVal, List.foldl, digitVal]
          omega
      · refine ⟨[c1, c2], some c2, t2, r2, by simp [hr1, hr2], h2, ?_, ?_, ?_⟩
        · simp
        · intro c hc
          simp only [List.mem_cons, List.not_mem_nil] at hc
          rcases hc with rfl | rfl | hc
          · exact isDigit_of_toNat b1.1 (by omega)
          · exact hp2
          · cases hc
        · simp only [octetVal, List.foldl, digitVal]
          omega
    · rcases chr_eq_some h1 with ⟨c2, t2, r2, hs2, hp2, hk2, hr2⟩
      have b2 := digit_toNat hp2
      rcases optM_eq_some hk2 with h2 | h2
      · rcases chr_eq_some h2 with ⟨c3, t3, r3, hs3, hp3, hk3, hr3⟩
        have b3 := digit_toNat hp3
        refine ⟨[c2, c3], some c3, t3, r3, by simp [hr2, hr3], hk3, ?_, ?_, ?_⟩
        · simp
        · intro c hc
          simp only [List.mem_cons, List.not_mem_nil] at hc
          rcases hc with rfl | rfl | hc
          · exact hp2
          · exact hp3
          · cases hc
        · simp only [octetVal, List.foldl, digitVal]
          omega
      · refine ⟨[c2], some c2, t2, r2, by simp [hr2], h2, ?_, ?_, ?_⟩
        · simp
        · intro c hc
          simp only [List.mem_cons, List.not_mem_nil] at hc
          rcases hc with rfl | hc
          · exact hp2
          · cases hc
        · simp only [octetVal, List.foldl, digitVal]
          omega

/-- Claim C4 (amended): every span the IPv4 pattern matches splits into
four dot-separated components, each a nonempty digit string whose value
is at most 255; `999.999.999.999` never matches anywhere and is left
untouched.  (Components with leading zeros do match, see the
counterexample.) -/
theorem c4_ipv4_bounds :
    (∀ prev s m, runPat IPV4 prev s = some m →
      ∃ o1 o2 o3 o4,
        m = o1 ++ ('.') :: (o2 ++ ('.') :: (o3 ++ ('.') :: o4)) ∧
        octetOk o1 ∧ octetOk o2 ∧ octetOk o3 ∧ octetOk o4) ∧
    redact (("999.999.999.999").data) =
      { redactedText := ("999.999.999.999").data, totalRedactions := 0,
        redactionMap := [(("ipv4"), 0), (("email"), 0), (("ssn_us"), 0),
          (("phone_us"), 0), (("credit_card"), 0)] } := by
  constructor
  · intro prev s m h
    unfold runPat at h
    split at h
    swap
    · cases h
    unfold IPV4 at h
    simp only [seqM] at h
    rcases octet_eq_some h with ⟨o1, l1, s1, r1, hm1, hk1, hok1⟩
    rcases lit_eq_some hk1 with ⟨t1, r2, hs1, hk2, hr1⟩
    rcases octet_eq_some hk2 with ⟨o2, l2, s2, r3, hm2, hk3, hok2⟩
    rcases lit_eq_some hk3 with ⟨t2, r4, hs2, hk4, hr2⟩
    rcases octet_eq_some hk4 with ⟨o3, l3, s3, r5, hm3, hk5, hok3⟩
    rcases lit_eq_some hk5 with ⟨t3, r6, hs3, hk6, hr3⟩
    rcases octet_eq_some hk6 with ⟨o4, l4, s4, r7, hm4, hk7, hok4⟩
    have hr7 : r7 = [] := by
      split at hk7
      · exact (Option.some.injEq _ _).mp hk7.symm
      · cases hk7
    refine ⟨o1, o2, o3, o4, ?_, hok1, hok2, hok3, hok4⟩
    rw [hm1, hr1, hm2, hr2, hm3, hr3, hm4, hr7, List.append_nil]
  · decide

/-- Witness for C4: the components of the match on `192.168.001.001`
(an accepted match, exhibiting in-range octets). -/
theorem c4_ipv4_bounds_witness :
    ∃ o1 o2 o3 o4,
      (("192.168.001.001").data : List Char) =
        o1 ++ ('.') :: (o2 ++ ('.') :: (o3 ++ ('.') :: o4)) ∧
      octetOk o1 ∧ octetOk o2 ∧ octetOk o3 ∧ octetOk o4 :=
  c4_ipv4_bounds.1 none (("192.168.001.001").data) (("192.168.001.001").data) (by decide)

end PII

namespace PII

/-- Claim C7 (amended): `123-45-6789` is redacted; standalone
`000-00-0000` and `900-12-3456` are left untouched; and every match of
the plain `AAA-GG-SSSS` shape (digits and single dashes only) has an
area that is not 000, not 666 and not in 900–999, a group other than
00, and a serial other than 0000.  (Matches that exercise the extra
optional dashes of the pattern can carry reserved values, see the
counterexample.) -/
theorem c7_ssn_reserved :
    redact (("123-45-6789").data) =
      { redactedText := PLACEHOLDER, totalRedactions := 1,
        redactionMap := [(("ipv4"), 0), (("email"), 0), (("ssn_us"), 1),
          (("phone_us"), 0), (("credit_card"), 0)] } ∧
    redact (("000-00-0000").data) =
      { redactedText := ("000-00-0000").data, totalRedactions := 0,
        redactionMap := [(("ipv4"), 0), (("email"), 0), (("ssn_us"), 0),
          (("phone_us"), 0), (("credit_card"), 0)] } ∧
    redact (("900-12-3456").data) =
      { redactedText := ("900-12-3456").data, totalRedactions := 0,
        redactionMap := [(("ipv4"), 0), (("email"), 0), (("ssn_us"), 0),
          (("phone_us"), 0), (("credit_card"), 0)] } ∧
    (∀ prev s a b c d e f g h i,
      runPat SSN_US prev s =
          some (a :: b :: c :: ('-') :: d :: e :: ('-') :: f :: g :: h :: i :: []) →
      isDigitChar a = true → isDigitChar d = true → isDigitChar f = true →
      (¬(a = '0' ∧ b = '0' ∧ c = '0') ∧ ¬(a = '6' ∧ b = '6' ∧ c = '6') ∧ a ≠ '9' ∧
       ¬(d = '0' ∧ e = '0') ∧ ¬(f = '0' ∧ g = '0' ∧ h = '0' ∧ i = '0'))) := by
  refine ⟨by decide, by decide, by decide, ?_⟩
  intro prev s a b c d e f g h i hrun ha hd hf
  unfold runPat at hrun
  split at hrun
  swap
  · cases hrun
  unfold SSN_US at hrun
  split at hrun
  · cases hrun
  case isFalse hA =>
  simp only [seqM] at hrun
  rcases optM_eq_some hrun with h1 | h1
  · rcases lit_eq_some h1 with ⟨t1, r1, hs1, hk1, hr1⟩
    injection hr1 with he1 _
    rw [he1] at ha
    exact absurd ha (by decide)
  rcases chr_eq_some h1 with ⟨c1, t1, r1, hs1, hp1, hk1, hr1⟩
  injection hr1 with he1 he1t
  subst he1
  rcases chr_eq_some hk1 with ⟨c2, t2, r2, hs2, hp2, hk2, hr2⟩
  rw [← he1t] at hr2
  injection hr2 with he2 he2t
  subst he2
  rcases chr_eq_some hk2 with ⟨c3, t3, r3, hs3, hp3, hk3, hr3⟩
  rw [← he2t] at hr3
  injection hr3 with he3 he3t
  subst he3
  rcases lit_eq_some hk3 with ⟨t4, r4, hs4, hk4, hr4⟩
  rw [← he3t] at hr4
  injection hr4 with _ he4t
  split at hk4
  · cases hk4
  case isFalse hG =>
  rcases optM_eq_some hk4 with h2 | h2
  · rcases lit_eq_some h2 with ⟨t5, r5, hs5, hk5, hr5⟩
    rw [← he4t] at hr5
    injection hr5 with he5 _
    rw [he5] at hd
    exact absurd hd (by decide)
  rcases chr_eq_some h2 with ⟨c5, t5, r5, hs5, hp5, hk5, hr5⟩
  rw [← he4t] at hr5
  injection hr5 with he5 he5t
  subst he5
  rcases chr_eq_some hk5 with ⟨c6, t6, r6, hs6, hp6, hk6, hr6⟩
  rw [← he5t] at hr6
  injection hr6 with he6 he6t
  subst he6
  rcases lit_eq_some hk6 with ⟨t7, r7, hs7, hk7, hr7⟩
  rw [← he6t] at hr7
  injection hr7 with _ he7t
  split at hk7
  · cases hk7
  case isFalse hS =>
  rcases optM_eq_some hk7 with h3 | h3
  · rcases lit_eq_some h3 with ⟨t8, r8, hs8, hk8, hr8⟩
    rw [← he7t] at hr8
    injection hr8 with he8 _
    rw [he8] at hf
    exact absurd hf (by decide)
  rcases chr_eq_some h3 with ⟨c8, t8, r8, hs8, hp8, hk8, hr8⟩
  rw [← he7t] at hr8
  injection hr8 with he8 he8t
  subst he8
  rcases chr_eq_some hk8 with ⟨c9, t9, r9, hs9, hp9, hk9, hr9⟩
  rw [← he8t] at hr9
  injection hr9 with he9 he9t
  subst he9
  rcases chr_eq_some hk9 with ⟨c10, t10, r10, hs10, hp10, hk10, hr10⟩
  rw [← he9t] at hr10
  injection hr10 with he10 he10t
  subst he10
  rcases chr_eq_some hk10 with ⟨c11, t11, r11, hs11, hp11, hk11, hr11⟩
  rw [← he10t] at hr11
  injection hr11 with he11 he11t
  subst he11
  subst hs1
  subst hs2
  subst hs3
  subst hs4
  subst hs5
  subst hs6
  subst hs7
  subst hs8
  subst hs9
  subst hs10
  subst hs11
  simp only [ssnBadArea, Bool.or_eq_true, Bool.and_eq_true, decide_eq_true_eq, not_or] at hA
  simp only [ssnBadGroup, Bool.and_eq_true, decide_eq_true_eq] at hG
  simp only [ssnBadSerial, Bool.and_eq_true, decide_eq_true_eq] at hS
  refine ⟨?_, ?_, ?_, ?_, ?_⟩
  · intro hc
    exact hA.1.1 ⟨⟨hc.1, hc.2.1⟩, hc.2.2⟩
  · intro hc
    exact hA.1.2 ⟨⟨hc.1, hc.2.1⟩, hc.2.2⟩
  · intro h9
    exact hA.2 ⟨⟨h9, hp2⟩, hp3⟩
  · intro hc
    exact hG ⟨hc.1, hc.2⟩
  · intro hc
    exact hS ⟨⟨⟨hc.1, hc.2.1⟩, hc.2.2.1⟩, hc.2.2.2⟩

/-- Witness for C7 at the accepted plain-form match on `123-45-6789`. -/
theorem c7_ssn_reserved_witness :
    ¬(('1') = '0' ∧ ('2') = '0' ∧ ('3') = '0') ∧
    ¬(('1') = '6' ∧ ('2') = '6' ∧ ('3') = '6') ∧ ('1') ≠ '9' ∧
    ¬(('4') = '0' ∧ ('5') = '0') ∧
    ¬(('6') = '0' ∧ ('7') = '0' ∧ ('8') = '0' ∧ ('9') = '0') :=
  c7_ssn_reserved.2.2.2 none (("123-45-6789").data)
    ('1') ('2') ('3') ('4') ('5') ('6') ('7') ('8') ('9')
    (by decide) (by decide) (by decide) (by decide)

end PII

namespace PII

/-! Phase A: some/none inversions for the combinators. -/

theorem alt_eq_none {a b : Option (List Char)} (h : alt a b = none) :
    a = none ∧ b = none := by
  cases a with
  | some x => cases h
  | none => exact ⟨rfl, h⟩

theorem chr_eq_none {p : Char → Bool} {last : Option Char} {s : List Char} {k : K}
    (h : chr p last s k = none) :
    s = [] ∨ (∃ c t, s = c :: t ∧ p c = false) ∨
      (∃ c t, s = c :: t ∧ p c = true ∧ k (some c) t = none) := by
  cases s with
  | nil => exact Or.inl rfl
  | cons c t =>
    simp only [chr] at h
    by_cases hc : p c = true
    · rw [if_pos hc] at h
      rcases Option.map_eq_none'.mp h with hk
      exact Or.inr (Or.inr ⟨c, t, rfl, hc, hk⟩)
    · exact Or.inr (Or.inl ⟨c, t, rfl, Bool.not_eq_true _ ▸ (by simpa using hc)⟩)

theorem optM_eq_none {m : M} {last : Option Char} {s : List Char} {k : K}
    (h : optM m last s k = none) :
    m last s k = none ∧ k last s = none :=
  alt_eq_none h

/-- The last character of `u`, or `last` when `u` is empty: the context a
fragment hands to its continuation after consuming `u`. -/
def lastOf (last : Option Char) (u : List Char) : Option Char :=
  match u.getLast? with
  | some c => some c
  | none => last

theorem lastOf_nil (last : Option Char) : lastOf last [] = last := rfl

theorem lastOf_append_cons (last : Option Char) (u : List Char) (c : Char) (v : List Char) :
    lastOf last (u ++ c :: v) = lastOf (some c) v := by
  unfold lastOf
  rw [List.getLast?_append_cons]
  cases v with
  | nil => rfl
  | cons x xs =>
    rw [List.getLast?_cons_cons]
    cases hx : (x :: xs).getLast? with
    | none => simp [List.getLast?_eq_none_iff] at hx
    | some d => rfl

theorem starChr_eq_some {p : Char → Bool} :
    ∀ {last : Option Char} {s : List Char} {k : K} {r : List Char},
      starChr p last s k = some r →
      ∃ u s2 r2, r = u ++ r2 ∧ s = u ++ s2 ∧ (∀ c ∈ u, p c = true) ∧
        k (lastOf last u) s2 = some r2 := by
  intro last s k r h
  induction s generalizing last r with
  | nil =>
    simp only [starChr] at h
    exact ⟨[], [], r, rfl, rfl, by simp, h⟩
  | cons c t ih =>
    simp only [starChr] at h
    by_cases hc : p c = true
    · rw [if_pos hc] at h
      rcases alt_eq_some h with h1 | ⟨_, h2⟩
      · rcases Option.map_eq_some'.mp h1 with ⟨r1, hrec, hr1⟩
        rcases ih hrec with ⟨u, s2, r2, hru, hsu, hall, hk⟩
        refine ⟨c :: u, s2, r2, ?_, ?_, ?_, ?_⟩
        · rw [← hr1, hru]; rfl
        · rw [hsu]; rfl
        · intro d hd
          rcases List.mem_cons.mp hd with rfl | hd2
          · exact hc
          · exact hall d hd2
        · have : lastOf last (c :: u) = lastOf (some c) u := lastOf_append_cons last [] c u
          rw [this]
          exact hk
      · exact ⟨[], c :: t, r, rfl, rfl, by simp, h2⟩
    · rw [if_neg hc] at h
      exact ⟨[], c :: t, r, rfl, rfl, by simp, h⟩

theorem starChr_eq_none {p : Char → Bool} :
    ∀ (u : List Char) {last : Option Char} {s2 : List Char} {k : K},
      starChr p last (u ++ s2) k = none →
      (∀ c ∈ u, p c = true) → k (lastOf last u) s2 = none := by
  intro u
  induction u with
  | nil =>
    intro last s2 k h _
    cases s2 with
    | nil => simpa [starChr] using h
    | cons c t =>
      simp only [starChr, List.nil_append] at h
      by_cases hc : p c = true
      · rw [if_pos hc] at h
        exact (alt_eq_none h).2
      · rw [if_neg hc] at h
        exact h
  | cons c u2 ih =>
    intro last s2 k h hall
    simp only [List.cons_append, starChr] at h
    have hc : p c = true := hall c (List.mem_cons_self c _)
    rw [if_pos hc] at h
    have h1 := Option.map_eq_none'.mp (alt_eq_none h).1
    have h2 := ih h1 (fun d hd => hall d (List.mem_cons_of_mem c hd))
    have he : lastOf last (c :: u2) = lastOf (some c) u2 := lastOf_append_cons last [] c u2
    rw [he]
    exact h2

end PII

namespace PII

theorem lazyStarChr_eq_some {p : Char → Bool} :
    ∀ {last : Option Char} {s : List Char} {k : K} {r : List Char},
      lazyStarChr p last s k = some r →
      ∃ u s2 r2, r = u ++ r2 ∧ s = u ++ s2 ∧ (∀ c ∈ u, p c = true) ∧
        k (lastOf last u) s2 = some r2 ∧ (u ≠ [] → k last s = none) := by
  intro last s k r h
  induction s generalizing last r with
  | nil =>
    simp only [lazyStarChr] at h
    exact ⟨[], [], r, rfl, rfl, by simp, h, fun hne => absurd rfl hne⟩
  | cons c t ih =>
    simp only [lazyStarChr] at h
    rcases alt_eq_some h with h1 | ⟨hn, h2⟩
    · exact ⟨[], c :: t, r, rfl, rfl, by simp, h1, fun hne => absurd rfl hne⟩
    · by_cases hc : p c = true
      · rw [if_pos hc] at h2
        rcases Option.map_eq_some'.mp h2 with ⟨r1, hrec, hr1⟩
        rcases ih hrec with ⟨u, s2, r2, hru, hsu, hall, hk, _⟩
        refine ⟨c :: u, s2, r2, ?_, ?_, ?_, ?_, fun _ => hn⟩
        · rw [← hr1, hru]; rfl
        · rw [hsu]; rfl
        · intro d hd
          rcases List.mem_cons.mp hd with rfl | hd2
          · exact hc
          · exact hall d hd2
        · have he : lastOf last (c :: u) = lastOf (some c) u := lastOf_append_cons last [] c u
          rw [he]
          exact hk
      · rw [if_neg hc] at h2
        cases h2

theorem lazyStarChr_eq_none {p : Char → Bool} :
    ∀ (u : List Char) {last : Option Char} {s2 : List Char} {k : K},
      lazyStarChr p last (u ++ s2) k = none →
      (∀ c ∈ u, p c = true) → k (lastOf last u) s2 = none := by
  intro u
  induction u with
  | nil =>
    intro last s2 k h _
    cases s2 with
    | nil => simpa [lazyStarChr] using h
    | cons c t =>
      simp only [lazyStarChr, List.nil_append] at h
      exact (alt_eq_none h).1
  | cons c u2 ih =>
    intro last s2 k h hall
    simp only [List.cons_append, lazyStarChr] at h
    have hc : p c = true := hall c (List.mem_cons_self c _)
    have h2 := (alt_eq_none h).2
    rw [if_pos hc] at h2
    have h1 := Option.map_eq_none'.mp h2
    have h3 := ih h1 (fun d hd => hall d (List.mem_cons_of_mem c hd))
    have he : lastOf last (c :: u2) = lastOf (some c) u2 := lastOf_append_cons last [] c u2
    rw [he]
    exact h3

end PII

namespace PII

theorem lastOf_append (last : Option Char) (u v : List Char) :
    lastOf last (u ++ v) = lastOf (lastOf last u) v := by
  cases v with
  | nil => simp [lastOf]
  | cons c v2 =>
    rw [lastOf_append_cons]
    have : lastOf (lastOf last u) (c :: v2) = lastOf (some c) v2 :=
      lastOf_append_cons (lastOf last u) [] c v2
    rw [this]

theorem chr_none_cons {p : Char → Bool} {last : Option Char} {c : Char} {t : List Char}
    {k : K} (h : chr p last (c :: t) k = none) (hc : p c = true) : k (some c) t = none := by
  simp only [chr] at h
  rw [if_pos hc] at h
  exact Option.map_eq_none'.mp h

theorem lit_none_cons {c0 : Char} {last : Option Char} {t : List Char}
    {k : K} (h : lit c0 last (c0 :: t) k = none) : k (some c0) t = none :=
  chr_none_cons h (by simp)

/-- The exact language of the octet alternatives. -/
def octetL (o : List Char) : Prop :=
  (∃ a, o = [a] ∧ isDigitChar a = true) ∨
  (∃ a b, o = [a, b] ∧ isDigitChar a = true ∧ isDigitChar b = true) ∨
  (∃ a b c, o = [a, b, c] ∧ (a = '0' ∨ a = '1') ∧ isDigitChar b = true ∧
    isDigitChar c = true) ∨
  (∃ c, o = ['2', '5', c] ∧ '0' ≤ c ∧ c ≤ '5') ∨
  (∃ b c, o = ['2', b, c] ∧ '0' ≤ b ∧ b ≤ '4' ∧ isDigitChar c = true)

theorem octet_sound {last : Option Char} {s : List Char} {k : K} {r : List Char}
    (h : octet last s k = some r) :
    ∃ o s2 r2, r = o ++ r2 ∧ s = o ++ s2 ∧ octetL o ∧ k (lastOf last o) s2 = some r2 := by
  unfold octet at h
  rcases alt_eq_some h with h1 | ⟨_, h⟩
  · simp only [seqM] at h1
    rcases lit_eq_some h1 with ⟨t1, r1, hs1, hk1, hr1⟩
    rcases lit_eq_some hk1 with ⟨t2, r2, hs2, hk2, hr2⟩
    rcases chr_eq_some hk2 with ⟨c3, t3, r3, hs3, hp3, hk3, hr3⟩
    simp only [Bool.and_eq_true, decide_eq_true_eq] at hp3
    refine ⟨['2', '5', c3], t3, r3, ?_, ?_, ?_, hk3⟩
    · rw [hr1, hr2, hr3]; rfl
    · rw [hs1, hs2, hs3]; rfl
    · exact Or.inr (Or.inr (Or.inr (Or.inl ⟨c3, rfl, hp3.1, hp3.2⟩)))
  rcases alt_eq_some h with h1 | ⟨_, h⟩
  · simp only [seqM] at h1
    rcases lit_eq_some h1 with ⟨t1, r1, hs1, hk1, hr1⟩
    rcases chr_eq_some hk1 with ⟨c2, t2, r2, hs2, hp2, hk2, hr2⟩
    rcases chr_eq_some hk2 with ⟨c3, t3, r3, hs3, hp3, hk3, hr3⟩
    simp only [Bool.and_eq_true, decide_eq_true_eq] at hp2
    refine ⟨['2', c2, c3], t3, r3, ?_, ?_, ?_, hk3⟩
    · rw [hr1, hr2, hr3]; rfl
    · rw [hs1, hs2, hs3]; rfl
    · exact Or.inr (Or.inr (Or.inr (Or.inr ⟨c2, c3, rfl, hp2.1, hp2.2, hp3⟩)))
  · simp only [seqM] at h
    rcases optM_eq_some h with h1 | h1
    · rcases chr_eq_some h1 with ⟨c1, t1, r1, hs1, hp1, hk1, hr1⟩
      simp only [Bool.or_eq_true, decide_eq_true_eq] at hp1
      rcases chr_eq_some hk1 with ⟨c2, t2, r2, hs2, hp2, hk2, hr2⟩
      rcases optM_eq_some hk2 with h2 | h2
      · rcases chr_eq_some h2 with ⟨c3, t3, r3, hs3, hp3, hk3, hr3⟩
        refine ⟨[c1, c2, c3], t3, r3, ?_, ?_, ?_, hk3⟩
        · rw [hr1, hr2, hr3]; rfl
        · rw [hs1, hs2, hs3]; rfl
        · exact Or.inr (Or.inr (Or.inl ⟨c1, c2, c3, rfl, hp1, hp2, hp3⟩))
      · refine ⟨[c1, c2], t2, r2, ?_, ?_, ?_, h2⟩
        · rw [hr1, hr2]; rfl
        · rw [hs1, hs2]; rfl
        · refine Or.inr (Or.inl ⟨c1, c2, rfl, ?_, hp2⟩)
          rcases hp1 with rfl | rfl
          · decide
          · decide
    · rcases chr_eq_some h1 with ⟨c2, t2, r2, hs2, hp2, hk2, hr2⟩
      rcases optM_eq_some hk2 with h2 | h2
      · rcases chr_eq_some h2 with ⟨c3, t3, r3, hs3, hp3, hk3, hr3⟩
        refine ⟨[c2, c3], t3, r3, ?_, ?_, ?_, hk3⟩
        · rw [hr2, hr3]; rfl
        · rw [hs2, hs3]; rfl
        · exact Or.inr (Or.inl ⟨c2, c3, rfl, hp2, hp3⟩)
      · refine ⟨[c2], t2, r2, ?_, ?_, ?_, h2⟩
        · rw [hr2]; rfl
        · rw [hs2]; rfl
        · exact Or.inl ⟨c2, rfl, hp2⟩

theorem octet_none {last : Option Char} {o s2 : List Char} {k : K}
    (h : octet last (o ++ s2) k = none) (ho : octetL o) :
    k (lastOf last o) s2 = none := by
  unfold octet at h
  have h3 := (alt_eq_none (alt_eq_none h).2).2
  have h1 := (alt_eq_none h).1
  have h2 := (alt_eq_none (alt_eq_none h).2).1
  rcases ho with ⟨a, rfl, ha⟩ | ⟨a, b, rfl, ha, hb⟩ | ⟨a, b, c, rfl, ha, hb, hc⟩ |
    ⟨c, rfl, hc1, hc2⟩ | ⟨b, c, rfl, hb1, hb2, hc⟩
  · simp only [seqM] at h3
    have e1 := (optM_eq_none h3).2
    have e2 := chr_none_cons e1 ha
    exact (optM_eq_none e2).2
  · simp only [seqM] at h3
    have e1 := (optM_eq_none h3).2
    have e2 := chr_none_cons e1 ha
    have e3 := (optM_eq_none e2).1
    exact chr_none_cons e3 hb
  · simp only [seqM] at h3
    have e1 := (optM_eq_none h3).1
    have ha2 : (fun d => d = '0' || d = '1') a = true := by
      rcases ha with rfl | rfl
      · decide
      · decide
    have e2 := chr_none_cons e1 ha2
    have e3 := chr_none_cons e2 hb
    have e4 := (optM_eq_none e3).1
    exact chr_none_cons e4 hc
  · simp only [seqM] at h1
    have e1 := lit_none_cons h1
    have e2 := lit_none_cons e1
    have hc : (fun d => '0' ≤ d && d ≤ '5') c = true := by
      simp only [Bool.and_eq_true, decide_eq_true_eq]
      exact ⟨hc1, hc2⟩
    exact chr_none_cons e2 hc
  · simp only [seqM] at h2
    have e1 := lit_none_cons h2
    have hb : (fun d => '0' ≤ d && d ≤ '4') b = true := by
      simp only [Bool.and_eq_true, decide_eq_true_eq]
      exact ⟨hb1, hb2⟩
    have e2 := chr_none_cons e1 hb
    exact chr_none_cons e2 hc

end PII

namespace PII

/-- The language of the IPv4 pattern body. -/
def ipv4L (m : List Char) : Prop :=
  ∃ o1 o2 o3 o4, m = o1 ++ ('.') :: (o2 ++ ('.') :: (o3 ++ ('.') :: o4)) ∧
    octetL o1 ∧ octetL o2 ∧ octetL o3 ∧ octetL o4

theorem octetL_ne_nil {o : List Char} (h : octetL o) : o ≠ [] := by
  rcases h with ⟨a, rfl, _⟩ | ⟨a, b, rfl, _, _⟩ | ⟨a, b, c, rfl, _, _, _⟩ |
    ⟨c, rfl, _, _⟩ | ⟨b, c, rfl, _, _, _⟩ <;> simp

theorem octetL_last {o : List Char} (h : octetL o) :
    ∃ c, o.getLast? = some c ∧ isDigitChar c = true := by
  rcases h with ⟨a, rfl, ha⟩ | ⟨a, b, rfl, _, hb⟩ | ⟨a, b, c, rfl, _, _, hc⟩ |
    ⟨c, rfl, h1, h2⟩ | ⟨b, c, rfl, _, _, hc⟩
  · exact ⟨a, rfl, ha⟩
  · exact ⟨b, rfl, hb⟩
  · exact ⟨c, rfl, hc⟩
  · refine ⟨c, rfl, isDigit_of_toNat ?_ ?_⟩
    · have : ('0').toNat ≤ c.toNat := h1
      have e0 : ('0').toNat = 48 := rfl
      omega
    · have : c.toNat ≤ ('5').toNat := h2
      have e : ('5').toNat = 53 := rfl
      omega
  · exact ⟨c, rfl, hc⟩

theorem octetL_chars {o : List Char} (h : octetL o) :
    ∀ c ∈ o, isDigitChar c = true := by
  rcases h with ⟨a, rfl, ha⟩ | ⟨a, b, rfl, ha, hb⟩ | ⟨a, b, c, rfl, ha, hb, hc⟩ |
    ⟨c, rfl, h1, h2⟩ | ⟨b, c, rfl, hb1, hb2, hc⟩ <;> intro d hd <;>
    simp only [List.mem_cons, List.not_mem_nil, or_false] at hd
  · rcases hd with rfl
    exact ha
  · rcases hd with rfl | rfl
    · exact ha
    · exact hb
  · rcases hd with rfl | rfl | rfl
    · rcases ha with rfl | rfl
      · decide
      · decide
    · exact hb
    · exact hc
  · rcases hd with rfl | rfl | rfl
    · decide
    · decide
    · refine isDigit_of_toNat ?_ ?_
      · have : ('0').toNat ≤ d.toNat := h1
        have e0 : ('0').toNat = 48 := rfl
        omega
      · have : d.toNat ≤ ('5').toNat := h2
        have e : ('5').toNat = 53 := rfl
        omega
  · rcases hd with rfl | rfl | rfl
    · decide
    · refine isDigit_of_toNat ?_ ?_
      · have : ('0').toNat ≤ d.toNat := hb1
        have e0 : ('0').toNat = 48 := rfl
        omega
      · have : d.toNat ≤ ('4').toNat := hb2
        have e : ('4').toNat = 52 := rfl
        omega
    · exact hc

theorem ipv4_sound {prev : Option Char} {s m : List Char}
    (h : runPat IPV4 prev s = some m) :
    ∃ rest, s = m ++ rest ∧ ipv4L m ∧
      wordBoundary prev s.head? = true ∧
      wordBoundary (lastOf prev m) rest.head? = true := by
  unfold runPat at h
  split at h
  case isFalse => cases h
  case isTrue hw =>
  unfold IPV4 at h
  simp only [seqM] at h
  rcases octet_sound h with ⟨o1, s1, r1, hm1, hs1, hL1, hk1⟩
  rcases lit_eq_some hk1 with ⟨t1, r2, hs2, hk2, hr2⟩
  rcases octet_sound hk2 with ⟨o2, s3, r3, hm3, hs3, hL2, hk3⟩
  rcases lit_eq_some hk3 with ⟨t2, r4, hs4, hk4, hr4⟩
  rcases octet_sound hk4 with ⟨o3, s5, r5, hm5, hs5, hL3, hk5⟩
  rcases lit_eq_some hk5 with ⟨t3, r6, hs6, hk6, hr6⟩
  rcases octet_sound hk6 with ⟨o4, s7, r7, hm7, hs7, hL4, hk7⟩
  have hr7 : r7 = [] ∧ wordBoundary (lastOf (some '.') o4) s7.head? = true := by
    split at hk7
    · exact ⟨((Option.some.injEq _ _).mp hk7).symm, by assumption⟩
    · cases hk7
  have hm : m = o1 ++ ('.') :: (o2 ++ ('.') :: (o3 ++ ('.') :: o4)) := by
    rw [hm1, hr2, hm3, hr4, hm5, hr6, hm7, hr7.1, List.append_nil]
  have hs : s = m ++ s7 := by
    rw [hm, hs1, hs2, hs3, hs4, hs5, hs6, hs7]
    simp [List.append_assoc]
  have hlast : lastOf prev m = lastOf (some '.') o4 := by
    rw [hm]
    rw [lastOf_append_cons, lastOf_append_cons, lastOf_append_cons]
  refine ⟨s7, hs, ⟨o1, o2, o3, o4, hm, hL1, hL2, hL3, hL4⟩, hw, ?_⟩
  rw [hlast]
  exact hr7.2

theorem ipv4_complete {prev : Option Char} {m rest : List Char}
    (hL : ipv4L m)
    (hw1 : wordBoundary prev (m ++ rest).head? = true)
    (hw2 : wordBoundary (lastOf prev m) rest.head? = true) :
    runPat IPV4 prev (m ++ rest) ≠ none := by
  intro hnone
  rcases hL with ⟨o1, o2, o3, o4, hm, hL1, hL2, hL3, hL4⟩
  unfold runPat at hnone
  rw [if_pos hw1] at hnone
  unfold IPV4 at hnone
  simp only [seqM] at hnone
  rw [hm] at hnone
  have ha1 : (o1 ++ ('.') :: (o2 ++ ('.') :: (o3 ++ ('.') :: o4))) ++ rest =
      o1 ++ (('.') :: (o2 ++ ('.') :: (o3 ++ ('.') :: o4)) ++ rest) := by
    simp [List.append_assoc]
  rw [ha1] at hnone
  have e1 := octet_none hnone hL1
  have e2 := lit_none_cons e1
  have ha2 : (o2 ++ ('.') :: (o3 ++ ('.') :: o4)) ++ rest =
      o2 ++ (('.') :: (o3 ++ ('.') :: o4) ++ rest) := by
    simp [List.append_assoc]
  simp only [List.append_eq] at e2
  rw [ha2] at e2
  have e3 := octet_none e2 hL2
  have e4 := lit_none_cons e3
  have ha3 : (o3 ++ ('.') :: o4) ++ rest = o3 ++ (('.') :: o4 ++ rest) := by
    simp [List.append_assoc]
  simp only [List.append_eq] at e4
  rw [ha3] at e4
  have e5 := octet_none e4 hL3
  have e6 := lit_none_cons e5
  simp only [List.append_eq] at e6
  have e7 := octet_none e6 hL4
  have hlast : lastOf prev m = lastOf (some '.') o4 := by
    rw [hm]
    rw [lastOf_append_cons, lastOf_append_cons, lastOf_append_cons]
  rw [hlast] at hw2
  rw [hw2] at e7
  simp at e7

end PII

namespace PII

theorem plus_sound {p : Char → Bool} {last : Option Char} {s : List Char} {k : K}
    {r : List Char} (h : plusChr p last s k = some r) :
    ∃ u s2 r2, r = u ++ r2 ∧ s = u ++ s2 ∧ u ≠ [] ∧ (∀ c ∈ u, p c = true) ∧
      k (lastOf last u) s2 = some r2 := by
  unfold plusChr at h
  simp only [seqM] at h
  rcases chr_eq_some h with ⟨c, t, r1, hs, hp, hk, hr⟩
  rcases starChr_eq_some hk with ⟨u, s2, r2, hru, hsu, hall, hk2⟩
  refine ⟨c :: u, s2, r2, ?_, ?_, by simp, ?_, ?_⟩
  · rw [hr, hru]; rfl
  · rw [hs, hsu]; rfl
  · intro d hd
    rcases List.mem_cons.mp hd with rfl | hd2
    · exact hp
    · exact hall d hd2
  · have he : lastOf last (c :: u) = lastOf (some c) u := lastOf_append_cons last [] c u
    rw [he]
    exact hk2

theorem plus_none {p : Char → Bool} {last : Option Char} {u s2 : List Char} {k : K}
    (h : plusChr p last (u ++ s2) k = none) (hne : u ≠ []) (hall : ∀ c ∈ u, p c = true) :
    k (lastOf last u) s2 = none := by
  cases u with
  | nil => exact absurd rfl hne
  | cons c u2 =>
    unfold plusChr at h
    simp only [seqM, List.cons_append] at h
    have e1 := chr_none_cons h (hall c (List.mem_cons_self c _))
    have e2 := starChr_eq_none u2 e1 (fun d hd => hall d (List.mem_cons_of_mem c hd))
    have he : lastOf last (c :: u2) = lastOf (some c) u2 := lastOf_append_cons last [] c u2
    rw [he]
    exact e2

theorem lastOf_all {P : Char → Prop} :
    ∀ (u : List Char) (l0 : Char), (∀ c ∈ u, P c) → P l0 →
      ∃ c, lastOf (some l0) u = some c ∧ P c := by
  intro u
  induction u with
  | nil => exact fun l0 _ h0 => ⟨l0, rfl, h0⟩
  | cons c u2 ih =>
    intro l0 hall h0
    have he : lastOf (some l0) (c :: u2) = lastOf (some c) u2 :=
      lastOf_append_cons (some l0) [] c u2
    rw [he]
    exact ih c (fun d hd => hall d (List.mem_cons_of_mem c hd)) (hall c (List.mem_cons_self c _))

/-- The language of the email pattern body. -/
def emailL (m : List Char) : Prop :=
  ∃ loc dom t1c t2c tl, m = loc ++ ('@') :: (dom ++ ('.') :: (t1c :: t2c :: tl)) ∧
    loc ≠ [] ∧ (∀ c ∈ loc, isLocalChar c = true) ∧
    dom ≠ [] ∧ (∀ c ∈ dom, isDomainChar c = true) ∧
    isAlphaChar t1c = true ∧ isAlphaChar t2c = true ∧ (∀ c ∈ tl, isAlphaChar c = true)

theorem email_sound {prev : Option Char} {s m : List Char}
    (h : runPat EMAIL prev s = some m) :
    ∃ rest, s = m ++ rest ∧ emailL m ∧
      wordBoundary prev s.head? = true ∧
      wordBoundary (lastOf prev m) rest.head? = true := by
  unfold runPat at h
  split at h
  case isFalse => cases h
  case isTrue hw =>
  unfold EMAIL at h
  simp only [seqM] at h
  rcases plus_sound h with ⟨loc, s1, r1, hm1, hs1, hne1, hall1, hk1⟩
  rcases lit_eq_some hk1 with ⟨t1, r2, hs2, hk2, hr2⟩
  rcases plus_sound hk2 with ⟨dom, s3, r3, hm3, hs3, hne3, hall3, hk3⟩
  rcases lit_eq_some hk3 with ⟨t2, r4, hs4, hk4, hr4⟩
  rcases chr_eq_some hk4 with ⟨t1c, t3, r5, hs5, hp5, hk5, hr5⟩
  rcases plus_sound hk5 with ⟨u2, s6, r6, hm6, hs6, hne6, hall6, hk6⟩
  cases u2 with
  | nil => exact absurd rfl hne6
  | cons t2c tl =>
  have hr7 : r6 = [] ∧ wordBoundary (lastOf (some t1c) (t2c :: tl)) s6.head? = true := by
    split at hk6
    · exact ⟨((Option.some.injEq _ _).mp hk6).symm, by assumption⟩
    · cases hk6
  have hm : m = loc ++ ('@') :: (dom ++ ('.') :: (t1c :: t2c :: tl)) := by
    rw [hm1, hr2, hm3, hr4, hr5, hm6, hr7.1, List.append_nil]
  have hs : s = m ++ s6 := by
    rw [hm, hs1, hs2, hs3, hs4, hs5, hs6]
    simp [List.append_assoc]
  have hlast : lastOf prev m = lastOf (some t1c) (t2c :: tl) := by
    rw [hm, lastOf_append_cons, lastOf_append_cons]
    exact lastOf_append_cons (some '.') [] t1c (t2c :: tl)
  refine ⟨s6, hs, ⟨loc, dom, t1c, t2c, tl, hm, hne1, hall1, hne3, hall3, hp5,
    hall6 t2c (List.mem_cons_self _ _),
    fun c hc => hall6 c (List.mem_cons_of_mem _ hc)⟩, hw, ?_⟩
  rw [hlast]
  exact hr7.2

theorem email_complete {prev : Option Char} {m rest : List Char}
    (hL : emailL m)
    (hw1 : wordBoundary prev (m ++ rest).head? = true)
    (hw2 : wordBoundary (lastOf prev m) rest.head? = true) :
    runPat EMAIL prev (m ++ rest) ≠ none := by
  intro hnone
  rcases hL with ⟨loc, dom, t1c, t2c, tl, hm, hne1, hall1, hne3, hall3, hp1, hp2, halltl⟩
  unfold runPat at hnone
  rw [if_pos hw1] at hnone
  unfold EMAIL at hnone
  simp only [seqM] at hnone
  rw [hm] at hnone
  have ha1 : (loc ++ ('@') :: (dom ++ ('.') :: (t1c :: t2c :: tl))) ++ rest =
      loc ++ (('@') :: (dom ++ ('.') :: (t1c :: t2c :: tl)) ++ rest) := by
    simp [List.append_assoc]
  rw [ha1] at hnone
  have e1 := plus_none hnone hne1 hall1
  have e2 := lit_none_cons e1
  simp only [List.append_eq] at e2
  have ha2 : (dom ++ ('.') :: (t1c :: t2c :: tl)) ++ rest =
      dom ++ (('.') :: (t1c :: t2c :: tl) ++ rest) := by
    simp [List.append_assoc]
  rw [ha2] at e2
  have e3 := plus_none e2 hne3 hall3
  have e4 := lit_none_cons e3
  simp only [List.append_eq] at e4
  have e5 := chr_none_cons e4 hp1
  have ha3 : (t2c :: tl) ++ rest = (t2c :: tl) ++ rest := rfl
  have e6 := plus_none (u := t2c :: tl) e5 (by simp) (by
    intro c hc
    rcases List.mem_cons.mp hc with rfl | hc2
    · exact hp2
    · exact halltl c hc2)
  have hlast : lastOf prev m = lastOf (some t1c) (t2c :: tl) := by
    rw [hm, lastOf_append_cons, lastOf_append_cons]
    exact lastOf_append_cons (some '.') [] t1c (t2c :: tl)
  rw [hlast] at hw2
  rw [hw2] at e6
  simp at e6

theorem emailL_last {m : List Char} (h : emailL m) :
    ∀ prev, ∃ c, lastOf prev m = some c ∧ isAlphaChar c = true := by
  rcases h with ⟨loc, dom, t1c, t2c, tl, hm, _, _, _, _, hp1, hp2, halltl⟩
  intro prev
  have hlast : lastOf prev m = lastOf (some t1c) (t2c :: tl) := by
    rw [hm, lastOf_append_cons, lastOf_append_cons]
    exact lastOf_append_cons (some '.') [] t1c (t2c :: tl)
  rw [hlast]
  have he : lastOf (some t1c) (t2c :: tl) = lastOf (some t2c) tl :=
    lastOf_append_cons (some t1c) [] t2c tl
  rw [he]
  exact lastOf_all tl t2c (fun c hc => halltl c hc) hp2

end PII

namespace PII

theorem lastOf_cons (l : Option Char) (c : Char) (v : List Char) :
    lastOf l (c :: v) = lastOf (some c) v := lastOf_append_cons l [] c v

/-- An optional dash of the SSN pattern: the span consumed by one of the
stray `-?` quantifiers. -/
def dashOpt (o : List Char) : Prop := o = [] ∨ o = ['-']

/-- The language of the SSN pattern body, with each lookahead condition
recorded on the part of the match it inspected. -/
def ssnL (m : List Char) : Prop :=
  ∃ w1 z1 z2 z3 w2 y1 y2 w3 x1 x2 x3 x4,
    m = w1 ++ z1 :: z2 :: z3 :: ('-') ::
      (w2 ++ y1 :: y2 :: ('-') :: (w3 ++ [x1, x2, x3, x4])) ∧
    dashOpt w1 ∧ dashOpt w2 ∧ dashOpt w3 ∧
    isDigitChar z1 = true ∧ isDigitChar z2 = true ∧ isDigitChar z3 = true ∧
    isDigitChar y1 = true ∧ isDigitChar y2 = true ∧
    isDigitChar x1 = true ∧ isDigitChar x2 = true ∧
    isDigitChar x3 = true ∧ isDigitChar x4 = true ∧
    ssnBadArea m = false ∧
    ssnBadGroup (w2 ++ y1 :: y2 :: ('-') :: (w3 ++ [x1, x2, x3, x4])) = false ∧
    ssnBadSerial (w3 ++ [x1, x2, x3, x4]) = false

theorem ssn_serial_some {last : Option Char} {s : List Char} {k : K} {r : List Char}
    (h : (if ssnBadSerial s then none
      else
        seqM (optM (lit '-'))
          (seqM (chr isDigitChar) (seqM (chr isDigitChar)
            (seqM (chr isDigitChar) (chr isDigitChar))))
          last s k) = some r) :
    ∃ w3 x1 x2 x3 x4 s4 r4, dashOpt w3 ∧
      r = w3 ++ x1 :: x2 :: x3 :: x4 :: r4 ∧
      s = w3 ++ x1 :: x2 :: x3 :: x4 :: s4 ∧
      isDigitChar x1 = true ∧ isDigitChar x2 = true ∧
      isDigitChar x3 = true ∧ isDigitChar x4 = true ∧
      ssnBadSerial s = false ∧ k (some x4) s4 = some r4 := by
  split at h
  case isTrue => cases h
  case isFalse hS =>
  have hS2 : ssnBadSerial s = false := by simpa using hS
  simp only [seqM] at h
  rcases optM_eq_some h with h1 | h1
  · rcases lit_eq_some h1 with ⟨t0, r0, hs0, hk0, hr0⟩
    rcases chr_eq_some hk0 with ⟨x1, t1, r1, hs1, hp1, hk1, hr1⟩
    rcases chr_eq_some hk1 with ⟨x2, t2, r2, hs2, hp2, hk2, hr2⟩
    rcases chr_eq_some hk2 with ⟨x3, t3, r3, hs3, hp3, hk3, hr3⟩
    rcases chr_eq_some hk3 with ⟨x4, t4, r4, hs4, hp4, hk4, hr4⟩
    refine ⟨['-'], x1, x2, x3, x4, t4, r4, Or.inr rfl, ?_, ?_, hp1, hp2, hp3, hp4, hS2, hk4⟩
    · rw [hr0, hr1, hr2, hr3, hr4]; rfl
    · rw [hs0, hs1, hs2, hs3, hs4]; rfl
  · rcases chr_eq_some h1 with ⟨x1, t1, r1, hs1, hp1, hk1, hr1⟩
    rcases chr_eq_some hk1 with ⟨x2, t2, r2, hs2, hp2, hk2, hr2⟩
    rcases chr_eq_some hk2 with ⟨x3, t3, r3, hs3, hp3, hk3, hr3⟩
    rcases chr_eq_some hk3 with ⟨x4, t4, r4, hs4, hp4, hk4, hr4⟩
    refine ⟨[], x1, x2, x3, x4, t4, r4, Or.inl rfl, ?_, ?_, hp1, hp2, hp3, hp4, hS2, hk4⟩
    · rw [hr1, hr2, hr3, hr4]; rfl
    · rw [hs1, hs2, hs3, hs4]; rfl

theorem ssn_group_some {last : Option Char} {s : List Char} {k : K} {r : List Char}
    (h : (if ssnBadGroup s then none
      else
        seqM (optM (lit '-'))
          (seqM (chr isDigitChar) (seqM (chr isDigitChar)
            (seqM (lit '-') (fun last3 s3 k3 =>
              if ssnBadSerial s3 then none
              else
                seqM (optM (lit '-'))
                  (seqM (chr isDigitChar) (seqM (chr isDigitChar)
                    (seqM (chr isDigitChar) (chr isDigitChar))))
                  last3 s3 k3))))
          last s k) = some r) :
    ∃ w2 y1 y2 w3 x1 x2 x3 x4 s4 r4, dashOpt w2 ∧ dashOpt w3 ∧
      r = w2 ++ y1 :: y2 :: ('-') :: (w3 ++ x1 :: x2 :: x3 :: x4 :: r4) ∧
      s = w2 ++ y1 :: y2 :: ('-') :: (w3 ++ x1 :: x2 :: x3 :: x4 :: s4) ∧
      isDigitChar y1 = true ∧ isDigitChar y2 = true ∧
      isDigitChar x1 = true ∧ isDigitChar x2 = true ∧
      isDigitChar x3 = true ∧ isDigitChar x4 = true ∧
      ssnBadGroup s = false ∧
      ssnBadSerial (w3 ++ x1 :: x2 :: x3 :: x4 :: s4) = false ∧
      k (some x4) s4 = some r4 := by
  split at h
  case isTrue => cases h
  case isFalse hG =>
  have hG2 : ssnBadGroup s = false := by simpa using hG
  simp only [seqM] at h
  rcases optM_eq_some h with h1 | h1
  · rcases lit_eq_some h1 with ⟨t0, r0, hs0, hk0, hr0⟩
    rcases chr_eq_some hk0 with ⟨y1, t1, r1, hs1, hp1, hk1, hr1⟩
    rcases chr_eq_some hk1 with ⟨y2, t2, r2, hs2, hp2, hk2, hr2⟩
    rcases lit_eq_some hk2 with ⟨t3, r3, hs3, hk3, hr3⟩
    rcases ssn_serial_some hk3 with
      ⟨w3, x1, x2, x3, x4, s4, r4, hw3, hr4, hs4, q1, q2, q3, q4, hS, hk4⟩
    refine ⟨['-'], y1, y2, w3, x1, x2, x3, x4, s4, r4, Or.inr rfl, hw3, ?_, ?_,
      hp1, hp2, q1, q2, q3, q4, hG2, ?_, hk4⟩
    · rw [hr0, hr1, hr2, hr3, hr4]; rfl
    · rw [hs0, hs1, hs2, hs3, hs4]; rfl
    · rw [← hs4]; exact hS
  · rcases chr_eq_some h1 with ⟨y1, t1, r1, hs1, hp1, hk1, hr1⟩
    rcases chr_eq_some hk1 with ⟨y2, t2, r2, hs2, hp2, hk2, hr2⟩
    rcases lit_eq_some hk2 with ⟨t3, r3, hs3, hk3, hr3⟩
    rcases ssn_serial_some hk3 with
      ⟨w3, x1, x2, x3, x4, s4, r4, hw3, hr4, hs4, q1, q2, q3, q4, hS, hk4⟩
    refine ⟨[], y1, y2, w3, x1, x2, x3, x4, s4, r4, Or.inl rfl, hw3, ?_, ?_,
      hp1, hp2, q1, q2, q3, q4, hG2, ?_, hk4⟩
    · rw [hr1, hr2, hr3, hr4]; rfl
    · rw [hs1, hs2, hs3, hs4]; rfl
    · rw [← hs4]; exact hS

end PII

namespace PII

theorem ssn_body_some {last : Option Char} {s : List Char} {k : K} {r : List Char}
    (h : SSN_US last s k = some r) :
    ∃ w1 z1 z2 z3 w2 y1 y2 w3 x1 x2 x3 x4 s4 r4,
      dashOpt w1 ∧ dashOpt w2 ∧ dashOpt w3 ∧
      r = w1 ++ z1 :: z2 :: z3 :: ('-') ::
        (w2 ++ y1 :: y2 :: ('-') :: (w3 ++ x1 :: x2 :: x3 :: x4 :: r4)) ∧
      s = w1 ++ z1 :: z2 :: z3 :: ('-') ::
        (w2 ++ y1 :: y2 :: ('-') :: (w3 ++ x1 :: x2 :: x3 :: x4 :: s4)) ∧
      isDigitChar z1 = true ∧ isDigitChar z2 = true ∧ isDigitChar z3 = true ∧
      isDigitChar y1 = true ∧ isDigitChar y2 = true ∧
      isDigitChar x1 = true ∧ isDigitChar x2 = true ∧
      isDigitChar x3 = true ∧ isDigitChar x4 = true ∧
      ssnBadArea s = false ∧
      ssnBadGroup (w2 ++ y1 :: y2 :: ('-') :: (w3 ++ x1 :: x2 :: x3 :: x4 :: s4)) = false ∧
      ssnBadSerial (w3 ++ x1 :: x2 :: x3 :: x4 :: s4) = false ∧
      k (some x4) s4 = some r4 := by
  unfold SSN_US at h
  split at h
  case isTrue => cases h
  case isFalse hA =>
  have hA2 : ssnBadArea s = false := by simpa using hA
  simp only [seqM] at h
  rcases optM_eq_some h with h1 | h1
  · rcases lit_eq_some h1 with ⟨t0, r0, hs0, hk0, hr0⟩
    rcases chr_eq_some hk0 with ⟨z1, t1, r1, hs1, hp1, hk1, hr1⟩
    rcases chr_eq_some hk1 with ⟨z2, t2, r2, hs2, hp2, hk2, hr2⟩
    rcases chr_eq_some hk2 with ⟨z3, t3, r3, hs3, hp3, hk3, hr3⟩
    rcases lit_eq_some hk3 with ⟨t4, r4a, hs4, hk4, hr4a⟩
    rcases ssn_group_some hk4 with
      ⟨w2, y1, y2, w3, x1, x2, x3, x4, s4, r4, hw2, hw3, hrg, hsg,
        p1, p2, q1, q2, q3, q4, hG, hS, hk5⟩
    refine ⟨['-'], z1, z2, z3, w2, y1, y2, w3, x1, x2, x3, x4, s4, r4,
      Or.inr rfl, hw2, hw3, ?_, ?_, hp1, hp2, hp3, p1, p2, q1, q2, q3, q4,
      hA2, ?_, hS, hk5⟩
    · rw [hr0, hr1, hr2, hr3, hr4a, hrg]; rfl
    · rw [hs0, hs1, hs2, hs3, hs4, hsg]; rfl
    · rw [← hsg]; exact hG
  · rcases chr_eq_some h1 with ⟨z1, t1, r1, hs1, hp1, hk1, hr1⟩
    rcases chr_eq_some hk1 with ⟨z2, t2, r2, hs2, hp2, hk2, hr2⟩
    rcases chr_eq_some hk2 with ⟨z3, t3, r3, hs3, hp3, hk3, hr3⟩
    rcases lit_eq_some hk3 with ⟨t4, r4a, hs4, hk4, hr4a⟩
    rcases ssn_group_some hk4 with
      ⟨w2, y1, y2, w3, x1, x2, x3, x4, s4, r4, hw2, hw3, hrg, hsg,
        p1, p2, q1, q2, q3, q4, hG, hS, hk5⟩
    refine ⟨[], z1, z2, z3, w2, y1, y2, w3, x1, x2, x3, x4, s4, r4,
      Or.inl rfl, hw2, hw3, ?_, ?_, hp1, hp2, hp3, p1, p2, q1, q2, q3, q4,
      hA2, ?_, hS, hk5⟩
    · rw [hr1, hr2, hr3, hr4a, hrg]; rfl
    · rw [hs1, hs2, hs3, hs4, hsg]; rfl
    · rw [← hsg]; exact hG

theorem ssnL_lastOf {prev : Option Char} {w1 w2 w3 : List Char}
    {z1 z2 z3 y1 y2 x1 x2 x3 x4 : Char} :
    lastOf prev (w1 ++ z1 :: z2 :: z3 :: ('-') ::
      (w2 ++ y1 :: y2 :: ('-') :: (w3 ++ [x1, x2, x3, x4]))) = some x4 := by
  rw [lastOf_append_cons, lastOf_cons, lastOf_cons, lastOf_cons,
    lastOf_append_cons, lastOf_cons, lastOf_cons,
    lastOf_append_cons, lastOf_cons, lastOf_cons, lastOf_cons, lastOf_nil]

theorem ssn_sound {prev : Option Char} {s m : List Char}
    (h : runPat SSN_US prev s = some m) :
    ∃ rest, s = m ++ rest ∧ ssnL m ∧
      wordBoundary prev s.head? = true ∧
      wordBoundary (lastOf prev m) rest.head? = true := by
  unfold runPat at h
  split at h
  case isFalse => cases h
  case isTrue hw =>
  rcases ssn_body_some h with
    ⟨w1, z1, z2, z3, w2, y1, y2, w3, x1, x2, x3, x4, s4, r4,
      hd1, hd2, hd3, hrm, hsm, hp1, hp2, hp3, p1, p2, q1, q2, q3, q4,
      hA, hG, hS, hk⟩
  have hr4 : r4 = [] ∧ wordBoundary (some x4) s4.head? = true := by
    split at hk
    · exact ⟨((Option.some.injEq _ _).mp hk).symm, by assumption⟩
    · cases hk
  have hm : m = w1 ++ z1 :: z2 :: z3 :: ('-') ::
      (w2 ++ y1 :: y2 :: ('-') :: (w3 ++ [x1, x2, x3, x4])) := by
    rw [hrm, hr4.1]
  have hs : s = m ++ s4 := by
    rw [hm, hsm]
    simp [List.append_assoc]
  have hlast : lastOf prev m = some x4 := by
    rw [hm]; exact ssnL_lastOf
  have hAm : ssnBadArea m = false := by
    rw [hm]
    rcases hd1 with rfl | rfl
    · rw [hsm] at hA; exact hA
    · rw [hsm] at hA; exact hA
  have hGm : ssnBadGroup (w2 ++ y1 :: y2 :: ('-') :: (w3 ++ [x1, x2, x3, x4])) = false := by
    rcases hd2 with rfl | rfl
    · exact hG
    · exact hG
  have hSm : ssnBadSerial (w3 ++ [x1, x2, x3, x4]) = false := by
    rcases hd3 with rfl | rfl
    · exact hS
    · exact hS
  refine ⟨s4, hs, ⟨w1, z1, z2, z3, w2, y1, y2, w3, x1, x2, x3, x4, hm,
    hd1, hd2, hd3, hp1, hp2, hp3, p1, p2, q1, q2, q3, q4, hAm, hGm, hSm⟩, hw, ?_⟩
  rw [hlast]
  exact hr4.2

end PII

namespace PII

theorem ssn_serial_none {last : Option Char} {w3 : List Char} {x1 x2 x3 x4 : Char}
    {s4 : List Char} {k : K}
    (hd : dashOpt w3)
    (hS : ssnBadSerial (w3 ++ x1 :: x2 :: x3 :: x4 :: s4) = false)
    (q1 : isDigitChar x1 = true) (q2 : isDigitChar x2 = true)
    (q3 : isDigitChar x3 = true) (q4 : isDigitChar x4 = true)
    (h : (if ssnBadSerial (w3 ++ x1 :: x2 :: x3 :: x4 :: s4) then none
      else
        seqM (optM (lit '-'))
          (seqM (chr isDigitChar) (seqM (chr isDigitChar)
            (seqM (chr isDigitChar) (chr isDigitChar))))
          last (w3 ++ x1 :: x2 :: x3 :: x4 :: s4) k) = none) :
    k (some x4) s4 = none := by
  rw [hS] at h
  simp only [Bool.false_eq_true, if_false] at h
  simp only [seqM] at h
  rcases optM_eq_none h with ⟨hA1, hB1⟩
  rcases hd with rfl | rfl
  · simp only [List.nil_append] at hB1
    exact chr_none_cons (chr_none_cons (chr_none_cons (chr_none_cons hB1 q1) q2) q3) q4
  · simp only [List.singleton_append] at hA1
    have e1 := lit_none_cons hA1
    exact chr_none_cons (chr_none_cons (chr_none_cons (chr_none_cons e1 q1) q2) q3) q4

theorem ssn_group_none {last : Option Char} {w2 w3 : List Char}
    {y1 y2 x1 x2 x3 x4 : Char} {s4 : List Char} {k : K}
    (hd2 : dashOpt w2) (hd3 : dashOpt w3)
    (hG : ssnBadGroup (w2 ++ y1 :: y2 :: ('-') :: (w3 ++ x1 :: x2 :: x3 :: x4 :: s4)) = false)
    (hS : ssnBadSerial (w3 ++ x1 :: x2 :: x3 :: x4 :: s4) = false)
    (p1 : isDigitChar y1 = true) (p2 : isDigitChar y2 = true)
    (q1 : isDigitChar x1 = true) (q2 : isDigitChar x2 = true)
    (q3 : isDigitChar x3 = true) (q4 : isDigitChar x4 = true)
    (h : (if ssnBadGroup (w2 ++ y1 :: y2 :: ('-') :: (w3 ++ x1 :: x2 :: x3 :: x4 :: s4)) then none
      else
        seqM (optM (lit '-'))
          (seqM (chr isDigitChar) (seqM (chr isDigitChar)
            (seqM (lit '-') (fun last3 s3 k3 =>
              if ssnBadSerial s3 then none
              else
                seqM (optM (lit '-'))
                  (seqM (chr isDigitChar) (seqM (chr isDigitChar)
                    (seqM (chr isDigitChar) (chr isDigitChar))))
                  last3 s3 k3))))
          last (w2 ++ y1 :: y2 :: ('-') :: (w3 ++ x1 :: x2 :: x3 :: x4 :: s4)) k) = none) :
    k (some x4) s4 = none := by
  rw [hG] at h
  simp only [Bool.false_eq_true, if_false] at h
  simp only [seqM] at h
  rcases optM_eq_none h with ⟨hA1, hB1⟩
  rcases hd2 with rfl | rfl
  · simp only [List.nil_append] at hB1
    have e1 := lit_none_cons (chr_none_cons (chr_none_cons hB1 p1) p2)
    exact ssn_serial_none hd3 hS q1 q2 q3 q4 e1
  · simp only [List.singleton_append] at hA1
    have e0 := lit_none_cons hA1
    have e1 := lit_none_cons (chr_none_cons (chr_none_cons e0 p1) p2)
    exact ssn_serial_none hd3 hS q1 q2 q3 q4 e1

theorem ssn_body_none {last : Option Char} {w1 w2 w3 : List Char}
    {z1 z2 z3 y1 y2 x1 x2 x3 x4 : Char} {s4 : List Char} {k : K}
    (hd1 : dashOpt w1) (hd2 : dashOpt w2) (hd3 : dashOpt w3)
    (hA : ssnBadArea (w1 ++ z1 :: z2 :: z3 :: ('-') ::
      (w2 ++ y1 :: y2 :: ('-') :: (w3 ++ x1 :: x2 :: x3 :: x4 :: s4))) = false)
    (hG : ssnBadGroup (w2 ++ y1 :: y2 :: ('-') :: (w3 ++ x1 :: x2 :: x3 :: x4 :: s4)) = false)
    (hS : ssnBadSerial (w3 ++ x1 :: x2 :: x3 :: x4 :: s4) = false)
    (hp1 : isDigitChar z1 = true) (hp2 : isDigitChar z2 = true)
    (hp3 : isDigitChar z3 = true)
    (p1 : isDigitChar y1 = true) (p2 : isDigitChar y2 = true)
    (q1 : isDigitChar x1 = true) (q2 : isDigitChar x2 = true)
    (q3 : isDigitChar x3 = true) (q4 : isDigitChar x4 = true)
    (h : SSN_US last (w1 ++ z1 :: z2 :: z3 :: ('-') ::
      (w2 ++ y1 :: y2 :: ('-') :: (w3 ++ x1 :: x2 :: x3 :: x4 :: s4))) k = none) :
    k (some x4) s4 = none := by
  unfold SSN_US at h
  rw [hA] at h
  simp only [Bool.false_eq_true, if_false] at h
  simp only [seqM] at h
  rcases optM_eq_none h with ⟨hA1, hB1⟩
  rcases hd1 with rfl | rfl
  · simp only [List.nil_append] at hB1
    have e1 := lit_none_cons (chr_none_cons (chr_none_cons (chr_none_cons hB1 hp1) hp2) hp3)
    exact ssn_group_none hd2 hd3 hG hS p1 p2 q1 q2 q3 q4 e1
  · simp only [List.singleton_append] at hA1
    have e0 := lit_none_cons hA1
    have e1 := lit_none_cons (chr_none_cons (chr_none_cons (chr_none_cons e0 hp1) hp2) hp3)
    exact ssn_group_none hd2 hd3 hG hS p1 p2 q1 q2 q3 q4 e1

theorem ssn_complete {prev : Option Char} {m rest : List Char}
    (hL : ssnL m)
    (hw1 : wordBoundary prev (m ++ rest).head? = true)
    (hw2 : wordBoundary (lastOf prev m) rest.head? = true) :
    runPat SSN_US prev (m ++ rest) ≠ none := by
  intro hnone
  rcases hL with ⟨w1, z1, z2, z3, w2, y1, y2, w3, x1, x2, x3, x4, hm,
    hd1, hd2, hd3, hp1, hp2, hp3, p1, p2, q1, q2, q3, q4, hA, hG, hS⟩
  unfold runPat at hnone
  rw [if_pos hw1] at hnone
  rw [hm] at hnone
  have ha1 : (w1 ++ z1 :: z2 :: z3 :: ('-') ::
      (w2 ++ y1 :: y2 :: ('-') :: (w3 ++ [x1, x2, x3, x4]))) ++ rest
      = w1 ++ z1 :: z2 :: z3 :: ('-') ::
        (w2 ++ y1 :: y2 :: ('-') :: (w3 ++ x1 :: x2 :: x3 :: x4 :: rest)) := by
    simp [List.append_assoc]
  rw [ha1] at hnone
  have hA2 : ssnBadArea (w1 ++ z1 :: z2 :: z3 :: ('-') ::
      (w2 ++ y1 :: y2 :: ('-') :: (w3 ++ x1 :: x2 :: x3 :: x4 :: rest))) = false := by
    rw [hm] at hA
    rcases hd1 with rfl | rfl
    · exact hA
    · exact hA
  have hG2 : ssnBadGroup (w2 ++ y1 :: y2 :: ('-') ::
      (w3 ++ x1 :: x2 :: x3 :: x4 :: rest)) = false := by
    rcases hd2 with rfl | rfl
    · exact hG
    · exact hG
  have hS2 : ssnBadSerial (w3 ++ x1 :: x2 :: x3 :: x4 :: rest) = false := by
    rcases hd3 with rfl | rfl
    · exact hS
    · exact hS
  have e := ssn_body_none hd1 hd2 hd3 hA2 hG2 hS2 hp1 hp2 hp3 p1 p2 q1 q2 q3 q4 hnone
  have hlast : lastOf prev m = some x4 := by
    rw [hm]; exact ssnL_lastOf
  rw [hlast] at hw2
  rw [hw2] at e
  simp at e

end PII

namespace PII

/-- The span of an optional literal (`x?`). -/
def litOpt (ch : Char) (o : List Char) : Prop := o = [] ∨ o = [ch]

/-- The span of an optional separator class (`[c]?`). -/
def sepOpt (o : List Char) : Prop := o = [] ∨ ∃ c, isPhoneSep c = true ∧ o = [c]

/-- The span of the optional country prefix `(?:\+?1[-.\s]?)?`. -/
def countryOpt (o : List Char) : Prop :=
  o = [] ∨ o = ['1'] ∨ o = ['+', '1'] ∨
    ∃ c, isPhoneSep c = true ∧ (o = ['1', c] ∨ o = ['+', '1', c])

theorem opt_lit_some {ch : Char} {last : Option Char} {s : List Char} {k : K}
    {r : List Char} (h : optM (lit ch) last s k = some r) :
    ∃ o t r2, litOpt ch o ∧ s = o ++ t ∧ r = o ++ r2 ∧
      k (lastOf last o) t = some r2 := by
  rcases optM_eq_some h with h1 | h1
  · rcases lit_eq_some h1 with ⟨t, r2, hs, hk, hr⟩
    exact ⟨[ch], t, r2, Or.inr rfl, hs, hr, hk⟩
  · exact ⟨[], s, r, Or.inl rfl, rfl, rfl, h1⟩

theorem opt_chr_some {p : Char → Bool} {last : Option Char} {s : List Char} {k : K}
    {r : List Char} (h : optM (chr p) last s k = some r) :
    ∃ o t r2, (o = [] ∨ ∃ c, p c = true ∧ o = [c]) ∧ s = o ++ t ∧ r = o ++ r2 ∧
      k (lastOf last o) t = some r2 := by
  rcases optM_eq_some h with h1 | h1
  · rcases chr_eq_some h1 with ⟨c, t, r2, hs, hp, hk, hr⟩
    exact ⟨[c], t, r2, Or.inr ⟨c, hp, rfl⟩, hs, hr, hk⟩
  · exact ⟨[], s, r, Or.inl rfl, rfl, rfl, h1⟩

theorem countryOpt_mk {o1 oS : List Char} (h1 : o1 = [] ∨ o1 = ['+'])
    (hS : oS = [] ∨ ∃ c, isPhoneSep c = true ∧ oS = [c]) :
    countryOpt (o1 ++ ('1') :: oS) := by
  rcases h1 with rfl | rfl <;> rcases hS with rfl | ⟨c, hc, rfl⟩
  · exact Or.inr (Or.inl rfl)
  · exact Or.inr (Or.inr (Or.inr ⟨c, hc, Or.inl rfl⟩))
  · exact Or.inr (Or.inr (Or.inl rfl))
  · exact Or.inr (Or.inr (Or.inr ⟨c, hc, Or.inr rfl⟩))

theorem country_some {last : Option Char} {s : List Char} {k : K} {r : List Char}
    (h : optM (seqM (optM (lit '+')) (seqM (lit '1') (optM (chr isPhoneSep))))
      last s k = some r) :
    ∃ o t r2, countryOpt o ∧ s = o ++ t ∧ r = o ++ r2 ∧
      k (lastOf last o) t = some r2 := by
  rcases optM_eq_some h with h1 | h1
  · simp only [seqM] at h1
    rcases opt_lit_some h1 with ⟨o1, t1, r1, ho1, hs1, hr1, hk1⟩
    rcases lit_eq_some hk1 with ⟨t2, r2, hs2, hk2, hr2⟩
    rcases opt_chr_some hk2 with ⟨oS, t3, r3, hoS, hs3, hr3, hk3⟩
    refine ⟨o1 ++ ('1') :: oS, t3, r3, countryOpt_mk ho1 hoS, ?_, ?_, ?_⟩
    · rw [hs1, hs2, hs3]; simp [List.append_assoc]
    · rw [hr1, hr2, hr3]; simp [List.append_assoc]
    · rw [lastOf_append_cons]
      exact hk3
  · exact ⟨[], s, r, Or.inl rfl, rfl, rfl, h1⟩

end PII

namespace PII

/-- The language of the phone pattern body. -/
def phoneL (m : List Char) : Prop :=
  ∃ c1 o2 a1 a2 a3 o3 o4 b1 b2 b3 o5 d1 d2 d3 d4,
    m = c1 ++ (o2 ++ a1 :: a2 :: a3 ::
      (o3 ++ (o4 ++ b1 :: b2 :: b3 :: (o5 ++ [d1, d2, d3, d4])))) ∧
    countryOpt c1 ∧ litOpt '(' o2 ∧ litOpt ')' o3 ∧ sepOpt o4 ∧ sepOpt o5 ∧
    isDigitChar a1 = true ∧ isDigitChar a2 = true ∧ isDigitChar a3 = true ∧
    isDigitChar b1 = true ∧ isDigitChar b2 = true ∧ isDigitChar b3 = true ∧
    isDigitChar d1 = true ∧ isDigitChar d2 = true ∧
    isDigitChar d3 = true ∧ isDigitChar d4 = true

theorem phone_shape_lastOf {prev : Option Char} {c1 o2 o3 o4 o5 : List Char}
    {a1 a2 a3 b1 b2 b3 d1 d2 d3 d4 : Char} :
    lastOf prev (c1 ++ (o2 ++ a1 :: a2 :: a3 ::
      (o3 ++ (o4 ++ b1 :: b2 :: b3 :: (o5 ++ [d1, d2, d3, d4]))))) = some d4 := by
  rw [lastOf_append, lastOf_append_cons, lastOf_cons, lastOf_cons,
    lastOf_append, lastOf_append_cons, lastOf_cons, lastOf_cons,
    lastOf_append_cons, lastOf_cons, lastOf_cons, lastOf_cons, lastOf_nil]

theorem phone_sound {prev : Option Char} {s m : List Char}
    (h : runPat PHONE_US prev s = some m) :
    ∃ rest, s = m ++ rest ∧ phoneL m ∧
      wordBoundary prev s.head? = true ∧
      wordBoundary (lastOf prev m) rest.head? = true := by
  unfold runPat at h
  split at h
  case isFalse => cases h
  case isTrue hw =>
  unfold PHONE_US at h
  simp only [seqM] at h
  rcases country_some h with ⟨c1, t1, r1, hc1, hs1, hr1, hk1⟩
  rcases opt_lit_some hk1 with ⟨o2, t2, r2, ho2, hs2, hr2, hk2⟩
  rcases chr_eq_some hk2 with ⟨a1, t3, r3, hs3, hpa1, hk3, hr3⟩
  rcases chr_eq_some hk3 with ⟨a2, t4, r4, hs4, hpa2, hk4, hr4⟩
  rcases chr_eq_some hk4 with ⟨a3, t5, r5, hs5, hpa3, hk5, hr5⟩
  rcases opt_lit_some hk5 with ⟨o3, t6, r6, ho3, hs6, hr6, hk6⟩
  rcases opt_chr_some hk6 with ⟨o4, t7, r7, ho4, hs7, hr7, hk7⟩
  rcases chr_eq_some hk7 with ⟨b1, t8, r8, hs8, hpb1, hk8, hr8⟩
  rcases chr_eq_some hk8 with ⟨b2, t9, r9, hs9, hpb2, hk9, hr9⟩
  rcases chr_eq_some hk9 with ⟨b3, t10, r10, hs10, hpb3, hk10, hr10⟩
  rcases opt_chr_some hk10 with ⟨o5, t11, r11, ho5, hs11, hr11, hk11⟩
  rcases chr_eq_some hk11 with ⟨d1, t12, r12, hs12, hpd1, hk12, hr12⟩
  rcases chr_eq_some hk12 with ⟨d2, t13, r13, hs13, hpd2, hk13, hr13⟩
  rcases chr_eq_some hk13 with ⟨d3, t14, r14, hs14, hpd3, hk14, hr14⟩
  rcases chr_eq_some hk14 with ⟨d4, t15, r15, hs15, hpd4, hk15, hr15⟩
  have hr16 : r15 = [] ∧ wordBoundary (some d4) t15.head? = true := by
    split at hk15
    · exact ⟨((Option.some.injEq _ _).mp hk15).symm, by assumption⟩
    · cases hk15
  have hm : m = c1 ++ (o2 ++ a1 :: a2 :: a3 ::
      (o3 ++ (o4 ++ b1 :: b2 :: b3 :: (o5 ++ [d1, d2, d3, d4])))) := by
    rw [hr1, hr2, hr3, hr4, hr5, hr6, hr7, hr8, hr9, hr10, hr11,
      hr12, hr13, hr14, hr15, hr16.1]
  have hs : s = m ++ t15 := by
    rw [hm, hs1, hs2, hs3, hs4, hs5, hs6, hs7, hs8, hs9, hs10, hs11,
      hs12, hs13, hs14, hs15]
    simp [List.append_assoc]
  have hlast : lastOf prev m = some d4 := by
    rw [hm]; exact phone_shape_lastOf
  refine ⟨t15, hs, ⟨c1, o2, a1, a2, a3, o3, o4, b1, b2, b3, o5, d1, d2, d3, d4,
    hm, hc1, ho2, ho3, ho4, ho5, hpa1, hpa2, hpa3, hpb1, hpb2, hpb3,
    hpd1, hpd2, hpd3, hpd4⟩, hw, ?_⟩
  rw [hlast]
  exact hr16.2

end PII

namespace PII

theorem opt_lit_none {ch : Char} {last : Option Char} {o t : List Char} {k : K}
    (h : optM (lit ch) last (o ++ t) k = none) (ho : litOpt ch o) :
    k (lastOf last o) t = none := by
  rcases optM_eq_none h with ⟨ha, hb⟩
  rcases ho with rfl | rfl
  · exact hb
  · simp only [List.singleton_append] at ha
    exact lit_none_cons ha

theorem opt_chr_none {p : Char → Bool} {last : Option Char} {o t : List Char} {k : K}
    (h : optM (chr p) last (o ++ t) k = none)
    (ho : o = [] ∨ ∃ c, p c = true ∧ o = [c]) :
    k (lastOf last o) t = none := by
  rcases optM_eq_none h with ⟨ha, hb⟩
  rcases ho with rfl | ⟨c, hc, rfl⟩
  · exact hb
  · simp only [List.singleton_append] at ha
    exact chr_none_cons ha hc

theorem country_none {last : Option Char} {o t : List Char} {k : K}
    (h : optM (seqM (optM (lit '+')) (seqM (lit '1') (optM (chr isPhoneSep))))
      last (o ++ t) k = none) (ho : countryOpt o) :
    k (lastOf last o) t = none := by
  rcases optM_eq_none h with ⟨ha, hb⟩
  rcases ho with rfl | rfl | rfl | ⟨c, hc, rfl | rfl⟩
  · exact hb
  · simp only [seqM, List.singleton_append] at ha
    have e1 : optM (lit '+') last (('1') :: t)
        (fun l2 s2 => lit '1' l2 s2 (fun l3 s3 => optM (chr isPhoneSep) l3 s3 k)) = none := ha
    have e2 := (optM_eq_none e1).2
    have e3 := lit_none_cons e2
    exact (optM_eq_none e3).2
  · simp only [seqM, List.cons_append, List.nil_append] at ha
    have e2 := (optM_eq_none ha).1
    have e3 := lit_none_cons e2
    have e4 := lit_none_cons e3
    exact (optM_eq_none e4).2
  · simp only [seqM, List.cons_append, List.nil_append] at ha
    have e2 := (optM_eq_none ha).2
    have e3 := lit_none_cons e2
    have e4 := (optM_eq_none e3).1
    exact chr_none_cons e4 hc
  · simp only [seqM, List.cons_append, List.nil_append] at ha
    have e2 := (optM_eq_none ha).1
    have e3 := lit_none_cons e2
    have e4 := lit_none_cons e3
    have e5 := (optM_eq_none e4).1
    exact chr_none_cons e5 hc

theorem phone_complete {prev : Option Char} {m rest : List Char}
    (hL : phoneL m)
    (hw1 : wordBoundary prev (m ++ rest).head? = true)
    (hw2 : wordBoundary (lastOf prev m) rest.head? = true) :
    runPat PHONE_US prev (m ++ rest) ≠ none := by
  intro hnone
  rcases hL with ⟨c1, o2, a1, a2, a3, o3, o4, b1, b2, b3, o5, d1, d2, d3, d4,
    hm, hc1, ho2, ho3, ho4, ho5, hpa1, hpa2, hpa3, hpb1, hpb2, hpb3,
    hpd1, hpd2, hpd3, hpd4⟩
  unfold runPat at hnone
  rw [if_pos hw1] at hnone
  unfold PHONE_US at hnone
  simp only [seqM] at hnone
  rw [hm] at hnone
  have ha1 : (c1 ++ (o2 ++ a1 :: a2 :: a3 ::
      (o3 ++ (o4 ++ b1 :: b2 :: b3 :: (o5 ++ [d1, d2, d3, d4]))))) ++ rest
      = c1 ++ (o2 ++ a1 :: a2 :: a3 ::
        (o3 ++ (o4 ++ b1 :: b2 :: b3 :: (o5 ++ d1 :: d2 :: d3 :: d4 :: rest)))) := by
    simp [List.append_assoc]
  rw [ha1] at hnone
  have e1 := country_none hnone hc1
  have e2 := opt_lit_none e1 ho2
  have e3 := chr_none_cons e2 hpa1
  have e4 := chr_none_cons e3 hpa2
  have e5 := chr_none_cons e4 hpa3
  have e6 := opt_lit_none e5 ho3
  have e7 := opt_chr_none e6 ho4
  have e8 := chr_none_cons e7 hpb1
  have e9 := chr_none_cons e8 hpb2
  have e10 := chr_none_cons e9 hpb3
  have e11 := opt_chr_none e10 ho5
  have e12 := chr_none_cons e11 hpd1
  have e13 := chr_none_cons e12 hpd2
  have e14 := chr_none_cons e13 hpd3
  have e15 := chr_none_cons e14 hpd4
  have hlast : lastOf prev m = some d4 := by
    rw [hm]; exact phone_shape_lastOf
  rw [hlast] at hw2
  rw [hw2] at e15
  simp at e15

end PII

namespace PII

theorem word_of_digit {c : Char} (h : isDigitChar c = true) : isWordChar c = true := by
  simp only [isDigitChar, Bool.and_eq_true, decide_eq_true_eq] at h
  simp only [isWordChar, Bool.or_eq_true, Bool.and_eq_true, decide_eq_true_eq]
  exact Or.inl (Or.inr h)

theorem sep_not_word {c : Char} (h : isCardSep c = true) : isWordChar c = false := by
  simp only [isCardSep, Bool.or_eq_true, decide_eq_true_eq] at h
  rcases h with rfl | rfl <;> decide

theorem sep_not_digit {c : Char} (h : isCardSep c = true) : isDigitChar c = false := by
  simp only [isCardSep, Bool.or_eq_true, decide_eq_true_eq] at h
  rcases h with rfl | rfl <;> decide

theorem notdigit_of_notword {c : Char} (h : isWordChar c = false) : isDigitChar c = false := by
  cases hd : isDigitChar c
  · rfl
  · rw [word_of_digit hd] at h
    cases h

/-- Exactly `n` repetitions of the credit-card unit `\d[ -]*?`, with the
final unit contributing no separator tail. -/
def ccUnits : Nat → List Char → Prop
  | 0, _ => False
  | 1, m => ∃ d, isDigitChar d = true ∧ m = [d]
  | n + 2, m => ∃ d g m2, isDigitChar d = true ∧ (∀ c ∈ g, isCardSep c = true) ∧
      ccUnits (n + 1) m2 ∧ m = d :: (g ++ m2)

/-- The language of the credit-card pattern body. -/
def ccL (m : List Char) : Prop := ∃ n, 13 ≤ n ∧ n ≤ 19 ∧ ccUnits n m

theorem repM_zero_lo_none {hi : Nat} {item : M} {last : Option Char} {s : List Char}
    {k : K} (h : repM 0 hi item last s k = none) : k last s = none := by
  cases hi with
  | zero => simpa [repM] using h
  | succ hi2 =>
    simp only [repM] at h
    have h2 := (alt_eq_none h).2
    simpa using h2

theorem cc_rep_sound :
    ∀ (hi : Nat) {lo : Nat} {last : Option Char} {s m : List Char},
      repM lo hi (seqM (chr isDigitChar) (lazyStarChr isCardSep)) last s
        (fun lastc rest => if wordBoundary lastc rest.head? then some [] else none) = some m →
      ∃ n rest, s = m ++ rest ∧ lo ≤ n ∧ n ≤ hi ∧
        wordBoundary (lastOf last m) rest.head? = true ∧
        ((m = [] ∧ n = 0 ∧ lo = 0) ∨ ccUnits n m) := by
  intro hi
  induction hi with
  | zero =>
    intro lo last s m h
    simp only [repM] at h
    split at h
    case isFalse => cases h
    case isTrue hlo =>
    split at h
    case isFalse => cases h
    case isTrue hwb =>
    have hm : m = [] := (((Option.some.injEq _ _).mp h)).symm
    subst hm
    exact ⟨0, s, rfl, by omega, by omega, hwb, Or.inl ⟨rfl, rfl, hlo⟩⟩
  | succ hi ih =>
    intro lo last s m h
    simp only [repM] at h
    rcases alt_eq_some h with h1 | ⟨hn, h2⟩
    · simp only [seqM] at h1
      rcases chr_eq_some h1 with ⟨d, t, r1, hs, hd, hk, hm⟩
      rcases lazyStarChr_eq_some hk with ⟨u, s2, r2, hr1, ht, hall, hk2, hnc⟩
      rcases ih hk2 with ⟨n2, rest, hs2, hlo2, hhi2, hwb2, hdisj⟩
      rcases hdisj with ⟨hr2, hn2, hl0⟩ | hcc
      · cases u with
        | cons uc u2 =>
          exfalso
          have hKt := hnc (by simp)
          have hkb := repM_zero_lo_none (hl0 ▸ hKt)
          rw [ht] at hkb
          have hwbu : wordBoundary (some d) ((uc :: u2) ++ s2).head? = true := by
            simp only [List.cons_append, List.head?]
            simp only [wordBoundary, isWordOpt, word_of_digit hd,
              sep_not_word (hall uc (List.mem_cons_self uc u2))]
            rfl
          rw [hwbu] at hkb
          simp at hkb
        | nil =>
          subst hr2
          refine ⟨1, rest, ?_, by omega, by omega, ?_, Or.inr ⟨d, hd, ?_⟩⟩
          · rw [hs, ht, hs2, hm, hr1]
            simp
          · have hme : m = [d] := by rw [hm, hr1]; rfl
            rw [hme]
            exact hwb2
          · rw [hm, hr1]; rfl
      · refine ⟨n2 + 1, rest, ?_, by omega, by omega, ?_, Or.inr ?_⟩
        · rw [hm, hr1, hs, ht, hs2]
          simp [List.append_assoc]
        · have hme : m = d :: (u ++ r2) := by rw [hm, hr1]
          rw [hme, lastOf_cons, lastOf_append]
          exact hwb2
        · have hme : m = d :: (u ++ r2) := by rw [hm, hr1]
          rw [hme]
          cases n2 with
          | zero => exact absurd hcc (by simp [ccUnits])
          | succ k => exact ⟨d, u, r2, hd, hall, hcc, rfl⟩
    · split at h2
      case isFalse => cases h2
      case isTrue hlo =>
      split at h2
      case isFalse => cases h2
      case isTrue hwb =>
      have hm : m = [] := (((Option.some.injEq _ _).mp h2)).symm
      subst hm
      exact ⟨0, s, rfl, by omega, by omega, hwb, Or.inl ⟨rfl, rfl, hlo⟩⟩

end PII

namespace PII

theorem cc_sound {prev : Option Char} {s m : List Char}
    (h : runPat CREDIT_CARD prev s = some m) :
    ∃ rest, s = m ++ rest ∧ ccL m ∧
      wordBoundary prev s.head? = true ∧
      wordBoundary (lastOf prev m) rest.head? = true := by
  unfold runPat at h
  split at h
  case isFalse => cases h
  case isTrue hw =>
  unfold CREDIT_CARD at h
  rcases cc_rep_sound 19 h with ⟨n, rest, hs, hlo, hhi, hwb, hdisj⟩
  rcases hdisj with ⟨_, _, hl0⟩ | hcc
  · exact absurd hl0 (by decide)
  · exact ⟨rest, hs, ⟨n, hlo, hhi, hcc⟩, hw, hwb⟩

theorem ccUnits_last : ∀ (n : Nat) (m : List Char), ccUnits n m →
    ∀ l : Option Char, ∃ c, lastOf l m = some c ∧ isDigitChar c = true := by
  intro n
  induction n using Nat.strong_induction_on with
  | _ n ih =>
    intro m h l
    cases n with
    | zero => exact absurd h (by simp [ccUnits])
    | succ k =>
      cases k with
      | zero =>
        obtain ⟨d, hd, rfl⟩ := h
        exact ⟨d, rfl, hd⟩
      | succ k2 =>
        obtain ⟨d, g, m2, hd, hg, hcc, rfl⟩ := h
        rcases ih (k2 + 1) (by omega) m2 hcc (lastOf (some d) g) with ⟨c, hc, hdc⟩
        refine ⟨c, ?_, hdc⟩
        rw [lastOf_cons, lastOf_append]
        exact hc

theorem ccUnits_head {n : Nat} {m : List Char} (h : ccUnits n m) :
    ∃ d t, m = d :: t ∧ isDigitChar d = true := by
  cases n with
  | zero => exact absurd h (by simp [ccUnits])
  | succ k =>
    cases k with
    | zero =>
      obtain ⟨d, hd, rfl⟩ := h
      exact ⟨d, [], rfl, hd⟩
    | succ k2 =>
      obtain ⟨d, g, m2, hd, _, _, rfl⟩ := h
      exact ⟨d, g ++ m2, rfl, hd⟩

theorem ccUnits_chars : ∀ (n : Nat) (m : List Char), ccUnits n m →
    ∀ c ∈ m, isDigitChar c = true ∨ isCardSep c = true := by
  intro n
  induction n using Nat.strong_induction_on with
  | _ n ih =>
    intro m h c hc
    cases n with
    | zero => exact absurd h (by simp [ccUnits])
    | succ k =>
      cases k with
      | zero =>
        obtain ⟨d, hd, rfl⟩ := h
        rcases List.mem_cons.mp hc with rfl | hc2
        · exact Or.inl hd
        · exact absurd hc2 (List.not_mem_nil c)
      | succ k2 =>
        obtain ⟨d, g, m2, hd, hg, hcc, rfl⟩ := h
        rcases List.mem_cons.mp hc with rfl | hc2
        · exact Or.inl hd
        · rcases List.mem_append.mp hc2 with hcg | hcm
          · exact Or.inr (hg c hcg)
          · exact ih (k2 + 1) (by omega) m2 hcc c hcm

theorem cc_units_none : ∀ (n : Nat) (m : List Char), ccUnits n m →
    ∀ (lo hi : Nat) (last : Option Char) (rest : List Char),
      lo ≤ n → n ≤ hi →
      wordBoundary (lastOf last m) rest.head? = true →
      repM lo hi (seqM (chr isDigitChar) (lazyStarChr isCardSep)) last (m ++ rest)
        (fun lastc r2 => if wordBoundary lastc r2.head? then some [] else none) ≠ none := by
  intro n
  induction n using Nat.strong_induction_on with
  | _ n ih =>
    intro m h lo hi last rest hlo hhi hwb hnone
    cases n with
    | zero => exact absurd h (by simp [ccUnits])
    | succ k =>
      cases hi with
      | zero => omega
      | succ hi2 =>
        simp only [repM] at hnone
        rcases alt_eq_none hnone with ⟨hitem, _⟩
        cases k with
        | zero =>
          obtain ⟨d, hd, rfl⟩ := h
          simp only [seqM, List.cons_append] at hitem
          have e1 := chr_none_cons hitem hd
          have e2 := lazyStarChr_eq_none [] e1 (by simp)
          have hl0 : lo - 1 = 0 := by omega
          rw [hl0] at e2
          have e3 := repM_zero_lo_none e2
          rw [show wordBoundary (lastOf (some d) []) rest.head? = true from hwb] at e3
          simp at e3
        | succ k2 =>
          obtain ⟨d, g, m2, hd, hg, hcc, rfl⟩ := h
          simp only [seqM, List.cons_append] at hitem
          have e1 := chr_none_cons hitem hd
          rw [List.append_assoc] at e1
          have e2 := lazyStarChr_eq_none g e1 hg
          have hwb2 : wordBoundary (lastOf (lastOf (some d) g) m2) rest.head? = true := by
            rw [lastOf_cons, lastOf_append] at hwb
            exact hwb
          exact ih (k2 + 1) (by omega) m2 hcc (lo - 1) hi2 _ rest (by omega) (by omega) hwb2 e2

theorem cc_complete {prev : Option Char} {m rest : List Char}
    (hL : ccL m)
    (hw1 : wordBoundary prev (m ++ rest).head? = true)
    (hw2 : wordBoundary (lastOf prev m) rest.head? = true) :
    runPat CREDIT_CARD prev (m ++ rest) ≠ none := by
  intro hnone
  rcases hL with ⟨n, h13, h19, hcc⟩
  unfold runPat at hnone
  rw [if_pos hw1] at hnone
  unfold CREDIT_CARD at hnone
  exact cc_units_none n m hcc 13 19 prev rest (by omega) (by omega) hw2 hnone

end PII

namespace PII

theorem alt_some {x : List Char} {b : Option (List Char)} : alt (some x) b = some x := rfl

theorem alt_none_left {b : Option (List Char)} : alt none b = b := rfl

theorem chr_digit_dead {lastc : Option Char} {r : List Char} {k : K}
    (h : isWordOpt r.head? = false) : chr isDigitChar lastc r k = none := by
  cases r with
  | nil => rfl
  | cons c t =>
    simp only [List.head?_cons, isWordOpt] at h
    simp [chr, notdigit_of_notword h]

theorem repM_cc_head_none {lo hi : Nat} {lastc : Option Char} {c : Char} {z1 z2 : List Char}
    (hc : isDigitChar c = false)
    (h : repM lo hi (seqM (chr isDigitChar) (lazyStarChr isCardSep)) lastc (c :: z1)
      (fun lastc2 rest => if wordBoundary lastc2 rest.head? then some [] else none) = none) :
    repM lo hi (seqM (chr isDigitChar) (lazyStarChr isCardSep)) lastc (c :: z2)
      (fun lastc2 rest => if wordBoundary lastc2 rest.head? then some [] else none) = none := by
  cases hi with
  | zero =>
    simp only [repM, List.head?_cons] at h ⊢
    exact h
  | succ hi2 =>
    simp only [repM, seqM] at h ⊢
    have hch : ∀ (z : List Char) (k : K), chr isDigitChar lastc (c :: z) k = none := by
      intro z k
      simp [chr, hc]
    rw [hch] at h
    rw [hch]
    simp only [alt_none_left, List.head?_cons] at h ⊢
    exact h

theorem cc_exit_congr {lo : Nat} {lastc : Option Char} {x r1 r2 : List Char}
    (h1 : isWordOpt r1.head? = false) (h2 : isWordOpt r2.head? = false)
    (h : (if lo = 0 then
        (if wordBoundary lastc (x ++ r1).head? then some [] else none) else none) = some x) :
    (if lo = 0 then
        (if wordBoundary lastc (x ++ r2).head? then some [] else none) else none) = some x := by
  split at h
  case isFalse => cases h
  case isTrue hlo =>
  split at h
  case isFalse => cases h
  case isTrue hwb =>
  have hx : x = [] := (((Option.some.injEq _ _).mp h)).symm
  subst hx
  simp only [List.nil_append] at hwb ⊢
  rw [if_pos hlo]
  have hwb2 : wordBoundary lastc r2.head? = true := by
    simp only [wordBoundary, h1, Bool.bne_false] at hwb
    simp only [wordBoundary, h2, Bool.bne_false]
    exact hwb
  rw [if_pos hwb2]

end PII

namespace PII

theorem cc_lazy_congr {hi : Nat}
    (P : ∀ (lo : Nat) (lastc : Option Char) (x r1 r2 : List Char),
      isWordOpt r1.head? = false → isWordOpt r2.head? = false →
      repM lo hi (seqM (chr isDigitChar) (lazyStarChr isCardSep)) lastc (x ++ r1)
        (fun lastc2 rest => if wordBoundary lastc2 rest.head? then some [] else none) = some x →
      repM lo hi (seqM (chr isDigitChar) (lazyStarChr isCardSep)) lastc (x ++ r2)
        (fun lastc2 rest => if wordBoundary lastc2 rest.head? then some [] else none) = some x) :
    ∀ (lo : Nat) (lastc : Option Char) (y r1 r2 : List Char),
      isWordOpt r1.head? = false → isWordOpt r2.head? = false →
      lazyStarChr isCardSep lastc (y ++ r1)
        (fun l2 s2 => repM lo hi (seqM (chr isDigitChar) (lazyStarChr isCardSep)) l2 s2
          (fun lastc2 rest => if wordBoundary lastc2 rest.head? then some [] else none)) = some y →
      lazyStarChr isCardSep lastc (y ++ r2)
        (fun l2 s2 => repM lo hi (seqM (chr isDigitChar) (lazyStarChr isCardSep)) l2 s2
          (fun lastc2 rest => if wordBoundary lastc2 rest.head? then some [] else none)) = some y := by
  intro lo lastc y
  induction y generalizing lastc with
  | nil =>
    intro r1 r2 h1 h2 h
    simp only [List.nil_append] at h ⊢
    have hK : repM lo hi (seqM (chr isDigitChar) (lazyStarChr isCardSep)) lastc r1
        (fun lastc2 rest => if wordBoundary lastc2 rest.head? then some [] else none)
        = some [] := by
      cases r1 with
      | nil => simpa [lazyStarChr] using h
      | cons c t =>
        simp only [lazyStarChr] at h
        rcases alt_eq_some h with h3 | ⟨hn, h3⟩
        · exact h3
        · exfalso
          split at h3
          · rcases Option.map_eq_some'.mp h3 with ⟨v, hv, hveq⟩
            cases hveq
          · cases h3
    have hK2 := P lo lastc [] r1 r2 h1 h2 hK
    cases r2 with
    | nil => simpa [lazyStarChr] using hK2
    | cons c t =>
      simp only [lazyStarChr]
      rw [show repM lo hi (seqM (chr isDigitChar) (lazyStarChr isCardSep)) lastc (c :: t)
        (fun lastc2 rest => if wordBoundary lastc2 rest.head? then some [] else none)
        = some [] from hK2]
      rfl
  | cons c y2 ihy =>
    intro r1 r2 h1 h2 h
    simp only [List.cons_append, lazyStarChr] at h ⊢
    simp only [List.append_eq] at h ⊢
    rcases alt_eq_some h with h3 | ⟨hn, h3⟩
    · have hK2 := P lo lastc (c :: y2) r1 r2 h1 h2 h3
      rw [show repM lo hi (seqM (chr isDigitChar) (lazyStarChr isCardSep)) lastc
          (c :: (y2 ++ r2))
          (fun lastc2 rest => if wordBoundary lastc2 rest.head? then some [] else none)
          = some (c :: y2) from hK2]
      exact alt_some
    · split at h3
      case isFalse => cases h3
      case isTrue hsep =>
      rcases Option.map_eq_some'.mp h3 with ⟨v, hv, hveq⟩
      have hv2 : v = y2 := ((List.cons.injEq _ _ _ _).mp hveq).2
      rw [hv2] at hv
      have hlz2 := ihy (some c) r1 r2 h1 h2 hv
      have hKn2 := @repM_cc_head_none lo hi lastc c (y2 ++ r1) (y2 ++ r2)
        (sep_not_digit hsep) hn
      rw [hKn2, alt_none_left, if_pos hsep, hlz2]
      rfl

theorem cc_congr : ∀ (hi : Nat),
    (∀ (lo : Nat) (lastc : Option Char) (x r1 r2 : List Char),
      isWordOpt r1.head? = false → isWordOpt r2.head? = false →
      repM lo hi (seqM (chr isDigitChar) (lazyStarChr isCardSep)) lastc (x ++ r1)
        (fun lastc2 rest => if wordBoundary lastc2 rest.head? then some [] else none) = some x →
      repM lo hi (seqM (chr isDigitChar) (lazyStarChr isCardSep)) lastc (x ++ r2)
        (fun lastc2 rest => if wordBoundary lastc2 rest.head? then some [] else none) = some x)
    ∧ (∀ (lo : Nat) (lastc : Option Char) (y r1 r2 : List Char),
      isWordOpt r1.head? = false → isWordOpt r2.head? = false →
      lazyStarChr isCardSep lastc (y ++ r1)
        (fun l2 s2 => repM lo hi (seqM (chr isDigitChar) (lazyStarChr isCardSep)) l2 s2
          (fun lastc2 rest => if wordBoundary lastc2 rest.head? then some [] else none)) = some y →
      lazyStarChr isCardSep lastc (y ++ r2)
        (fun l2 s2 => repM lo hi (seqM (chr isDigitChar) (lazyStarChr isCardSep)) l2 s2
          (fun lastc2 rest => if wordBoundary lastc2 rest.head? then some [] else none)) = some y) := by
  intro hi
  induction hi with
  | zero =>
    have P0 : ∀ (lo : Nat) (lastc : Option Char) (x r1 r2 : List Char),
        isWordOpt r1.head? = false → isWordOpt r2.head? = false →
        repM lo 0 (seqM (chr isDigitChar) (lazyStarChr isCardSep)) lastc (x ++ r1)
          (fun lastc2 rest => if wordBoundary lastc2 rest.head? then some [] else none) = some x →
        repM lo 0 (seqM (chr isDigitChar) (lazyStarChr isCardSep)) lastc (x ++ r2)
          (fun lastc2 rest => if wordBoundary lastc2 rest.head? then some [] else none) = some x := by
      intro lo lastc x r1 r2 h1 h2 h
      simp only [repM] at h ⊢
      exact cc_exit_congr h1 h2 h
    exact ⟨P0, cc_lazy_congr P0⟩
  | succ hi ih =>
    have Psucc : ∀ (lo : Nat) (lastc : Option Char) (x r1 r2 : List Char),
        isWordOpt r1.head? = false → isWordOpt r2.head? = false →
        repM lo (hi + 1) (seqM (chr isDigitChar) (lazyStarChr isCardSep)) lastc (x ++ r1)
          (fun lastc2 rest => if wordBoundary lastc2 rest.head? then some [] else none) = some x →
        repM lo (hi + 1) (seqM (chr isDigitChar) (lazyStarChr isCardSep)) lastc (x ++ r2)
          (fun lastc2 rest => if wordBoundary lastc2 rest.head? then some [] else none) = some x := by
      intro lo lastc x r1 r2 h1 h2 h
      simp only [repM] at h ⊢
      rcases alt_eq_some h with h3 | ⟨hn, h3⟩
      · simp only [seqM] at h3 ⊢
        rcases chr_eq_some h3 with ⟨d, t, rv, hs, hd, hk, hmv⟩
        have ht : t = rv ++ r1 := by
          rw [hmv] at hs
          simp only [List.cons_append] at hs
          injection hs with h4 h5
          exact h5.symm
        rw [ht] at hk
        have hk2 := ih.2 (lo - 1) (some d) rv r1 r2 h1 h2 hk
        rw [hmv]
        simp only [List.cons_append, chr]
        rw [if_pos hd]
        rw [show lazyStarChr isCardSep (some d) (rv ++ r2)
            (fun l2 s2 => repM (lo - 1) hi (seqM (chr isDigitChar) (lazyStarChr isCardSep)) l2 s2
              (fun lastc2 rest => if wordBoundary lastc2 rest.head? then some [] else none))
            = some rv from hk2]
        rfl
      · split at h3
        case isFalse => cases h3
        case isTrue hlo =>
        split at h3
        case isFalse => cases h3
        case isTrue hwb =>
        have hx : x = [] := (((Option.some.injEq _ _).mp h3)).symm
        subst hx
        simp only [List.nil_append] at hwb ⊢
        have hwb2 : wordBoundary lastc r2.head? = true := by
          simp only [wordBoundary, h1, Bool.bne_false] at hwb
          simp only [wordBoundary, h2, Bool.bne_false]
          exact hwb
        simp only [seqM]
        rw [chr_digit_dead h2, alt_none_left, if_pos hlo, if_pos hwb2]
    exact ⟨Psucc, cc_lazy_congr Psucc⟩

end PII

namespace PII

theorem cc_body_prev (p1 p2 : Option Char) (s : List Char) (k : K) :
    CREDIT_CARD p1 s k = CREDIT_CARD p2 s k := by
  cases s with
  | nil => rfl
  | cons c t => rfl

theorem wordBoundary_status {p1 p2 n : Option Char} (h : isWordOpt p1 = isWordOpt p2) :
    wordBoundary p1 n = wordBoundary p2 n := by
  simp only [wordBoundary, h]

theorem runPat_cc_prev {p1 p2 : Option Char} {s : List Char}
    (h : isWordOpt p1 = isWordOpt p2) :
    runPat CREDIT_CARD p1 s = runPat CREDIT_CARD p2 s := by
  unfold runPat
  rw [wordBoundary_status h, cc_body_prev p1 p2]

theorem cc_some_congr {prev : Option Char} {m r1 r2 : List Char}
    (h1 : isWordOpt r1.head? = false) (h2 : isWordOpt r2.head? = false)
    (h : runPat CREDIT_CARD prev (m ++ r1) = some m) :
    runPat CREDIT_CARD prev (m ++ r2) = some m := by
  unfold runPat at h ⊢
  split at h
  case isFalse => cases h
  case isTrue hw =>
  have hw2 : wordBoundary prev (m ++ r2).head? = true := by
    cases m with
    | nil =>
      simp only [List.nil_append] at hw ⊢
      simp only [wordBoundary, h1, Bool.bne_false] at hw
      simp only [wordBoundary, h2, Bool.bne_false]
      exact hw
    | cons d t =>
      simp only [List.cons_append, List.head?_cons] at hw ⊢
      exact hw
  rw [if_pos hw2]
  unfold CREDIT_CARD at h ⊢
  exact (cc_congr 19).1 13 prev m r1 r2 h1 h2 h

/-- The last character of a nonempty list does not depend on the fallback. -/
theorem lastOf_ne_nil {u : List Char} (h : u ≠ []) (l1 l2 : Option Char) :
    lastOf l1 u = lastOf l2 u := by
  cases u with
  | nil => exact absurd rfl h
  | cons c v =>
    unfold lastOf
    cases hg : (c :: v).getLast? with
    | none => simp [List.getLast?_eq_none_iff] at hg
    | some d => rfl

/-- The facts the simulation argument needs about one pattern: a sound
and complete characterisation of its matches, and the character-level
facts about its language. -/
structure PatFacts (body : M) (Lang : List Char → Prop) (alpha key : Char → Bool) : Prop where
  sound : ∀ {prev s m}, runPat body prev s = some m →
    ∃ rest, s = m ++ rest ∧ Lang m ∧ wordBoundary prev s.head? = true ∧
      wordBoundary (lastOf prev m) rest.head? = true
  complete : ∀ {prev m rest}, Lang m → wordBoundary prev (m ++ rest).head? = true →
    wordBoundary (lastOf prev m) rest.head? = true → runPat body prev (m ++ rest) ≠ none
  lastWord : ∀ {m}, Lang m → ∀ l, ∃ c, lastOf l m = some c ∧ isWordChar c = true
  alphaOK : ∀ {m}, Lang m → ∀ c, c ∈ m → alpha c = true
  keyIn : ∀ {m}, Lang m → ∃ c, c ∈ m ∧ key c = true
  alphaLB : alpha ('[') = false
  alphaRB : alpha (']') = false
  keyPH : ∀ c, c ∈ PLACEHOLDER → key c = false

theorem lang_ne_nil {body Lang alpha key} (F : PatFacts body Lang alpha key)
    {m : List Char} (hL : Lang m) : m ≠ [] := by
  rcases F.keyIn hL with ⟨c, hc, _⟩
  intro h
  rw [h] at hc
  exact absurd hc (List.not_mem_nil c)

theorem lang_nil_none {body Lang alpha key} (F : PatFacts body Lang alpha key)
    (prev : Option Char) : runPat body prev [] = none := by
  cases h : runPat body prev [] with
  | none => rfl
  | some m =>
    rcases F.sound h with ⟨rest, hs, hL, _, _⟩
    rcases List.append_eq_nil.mp hs.symm with ⟨hm, _⟩
    exact absurd hm (lang_ne_nil F hL)

/-- One pass of the global-replace scan, as a relation between the text
it reads and the text it writes.  Each constructor carries the engine
evidence for the step it models. -/
inductive Rep (body : M) (validator : Option (List Char → Bool)) :
    Option Char → List Char → List Char → Prop where
  | nil : ∀ prev, runPat body prev [] = none → Rep body validator prev [] []
  | step : ∀ prev c t f, runPat body prev (c :: t) = none →
      Rep body validator (some c) t f → Rep body validator prev (c :: t) (c :: f)
  | acc : ∀ prev m t f, runPat body prev (m ++ t) = some m →
      (validator = none ∨ ∃ v, validator = some v ∧ v m = true) →
      Rep body validator (lastOf prev m) t f →
      Rep body validator prev (m ++ t) (PLACEHOLDER ++ f)
  | rej : ∀ prev m t f v, runPat body prev (m ++ t) = some m →
      validator = some v → v m = false →
      Rep body validator (lastOf prev m) t f →
      Rep body validator prev (m ++ t) (m ++ f)

/-- Agreement between a pass input and its output, seen from one
position: they share a prefix, and where they first differ the output
has a placeholder bracket while the input has the first character of an
accepted match, whose leading boundary held. -/
def Agree (prev : Option Char) (t f : List Char) : Prop :=
  t = f ∨ ∃ w δ t2 f2, t = w ++ δ :: t2 ∧ f = w ++ ('[') :: f2 ∧
    wordBoundary (lastOf prev w) (some δ) = true

theorem agree_prepend {p1 p2 : Option Char} {x t f : List Char}
    (h : Agree p2 t f) (hp : p2 = lastOf p1 x) : Agree p1 (x ++ t) (x ++ f) := by
  rcases h with rfl | ⟨w, δ, t2, f2, ht, hf, hb⟩
  · exact Or.inl rfl
  · refine Or.inr ⟨x ++ w, δ, t2, f2, ?_, ?_, ?_⟩
    · rw [ht, List.append_assoc]
    · rw [hf, List.append_assoc]
    · rw [lastOf_append, ← hp]
      exact hb

end PII

namespace PII

theorem rep_agree {body Lang alpha key} (F : PatFacts body Lang alpha key)
    {validator : Option (List Char → Bool)} {prev : Option Char} {t f : List Char}
    (h : Rep body validator prev t f) : Agree prev t f := by
  induction h with
  | nil prev h0 => exact Or.inl rfl
  | step prev c t2 f2 hn hsub ih => exact agree_prepend (x := [c]) ih rfl
  | acc prev m t2 f2 hm hv hsub ih =>
    rcases F.sound hm with ⟨rest, hs, hL, hw1, hw2⟩
    cases hme : m with
    | nil => exact absurd hme (lang_ne_nil F hL)
    | cons d0 m2 =>
      refine Or.inr ⟨[], d0, m2 ++ t2, (PLACEHOLDER.drop 1) ++ f2, ?_, ?_, ?_⟩
      · rfl
      · rfl
      · rw [hme] at hw1
        simpa using hw1
  | rej prev m t2 f2 v hm hval hvm hsub ih => exact agree_prepend (x := m) ih rfl

end PII

namespace PII

/-- No match of `body` starts at any position of `s`, where `prev` is
the character before `s` in the surrounding text. -/
def NoneFrom (body : M) (prev : Option Char) (s : List Char) : Prop :=
  ∀ u v, s = u ++ v → runPat body (lastOf prev u) v = none

theorem noneFrom_shift {body : M} {prev : Option Char} {x s : List Char}
    (h : NoneFrom body prev (x ++ s)) : NoneFrom body (lastOf prev x) s := by
  intro u v huv
  have h2 := h (x ++ u) v (by rw [huv, List.append_assoc])
  rw [lastOf_append] at h2
  exact h2

theorem rep_headStatus {body Lang alpha key} (F : PatFacts body Lang alpha key)
    {validator : Option (List Char → Bool)} {prev : Option Char} {t f : List Char}
    (h : Rep body validator prev t f) (hp : isWordOpt prev = true) :
    isWordOpt f.head? = isWordOpt t.head? := by
  cases h with
  | nil _ _ => rfl
  | step _ c t2 f2 _ _ => rfl
  | acc prevx m t2 f2 hm hv hsub =>
    rcases F.sound hm with ⟨rest, hs, hL, hw1, hw2⟩
    have hne := lang_ne_nil F hL
    cases m with
    | nil => exact absurd rfl hne
    | cons d0 m2 =>
      simp only [List.cons_append, List.head?_cons] at hw1
      simp only [wordBoundary] at hw1
      rw [hp] at hw1
      have hd0 : isWordOpt (some d0) = false := by
        cases hx : isWordOpt (some d0) with
        | false => rfl
        | true => rw [hx] at hw1; simp at hw1
      simp only [PLACEHOLDER, List.cons_append, List.head?_cons]
      rw [hd0]
      rfl
  | rej prevx m t2 f2 v hm hval hvm hsub =>
    rcases F.sound hm with ⟨rest, hs, hL, hw1, hw2⟩
    have hne := lang_ne_nil F hL
    cases m with
    | nil => exact absurd rfl hne
    | cons d0 m2 => rfl

theorem transfer {body Lang alpha key} (F : PatFacts body Lang alpha key)
    {prev : Option Char} {t f : List Char}
    (hA : Agree prev t f) (hT : runPat body prev t = none) :
    runPat body prev f = none := by
  rcases hA with rfl | ⟨w, d0, t2, f2, ht, hf, hb⟩
  · exact hT
  · cases h2 : runPat body prev f with
    | none => rfl
    | some m =>
      exfalso
      rcases F.sound h2 with ⟨restF, hsF, hL, hw1, hw2F⟩
      have hEq : m ++ restF = w ++ ('[') :: f2 := by rw [← hsF, hf]
      have hsplit : ∃ a, w = m ++ a ∧ restF = a ++ ('[') :: f2 := by
        rcases List.append_eq_append_iff.mp hEq with ⟨a, ha1, ha2⟩ | ⟨a, ha1, ha2⟩
        · exact ⟨a, ha1, ha2⟩
        · cases a with
          | nil =>
            refine ⟨[], by rw [ha1]; simp, ?_⟩
            simp only [List.nil_append] at ha2 ⊢
            exact ha2.symm
          | cons b a2 =>
            exfalso
            have hb2 : b = '[' := by
              have := ha2
              simp only [List.cons_append] at this
              exact (((List.cons.injEq _ _ _ _).mp this).1).symm
            have hmem : ('[') ∈ m := by
              rw [ha1, hb2]
              exact List.mem_append_right _ (List.mem_cons_self _ _)
            have := F.alphaOK hL _ hmem
            rw [F.alphaLB] at this
            cases this
      rcases hsplit with ⟨a, hwa, hra⟩
      have hne := lang_ne_nil F hL
      have htm : t = m ++ (a ++ d0 :: t2) := by
        rw [ht, hwa, List.append_assoc]
      rw [hsF] at hw1
      have hw1T : wordBoundary prev (m ++ (a ++ d0 :: t2)).head? = true := by
        cases m with
        | nil => exact absurd rfl hne
        | cons mh mr =>
          simp only [List.cons_append, List.head?_cons] at hw1 ⊢
          exact hw1
      have hw2T : wordBoundary (lastOf prev m) (a ++ d0 :: t2).head? = true := by
        cases a with
        | cons b a2 =>
          rw [hra] at hw2F
          simp only [List.cons_append, List.head?_cons] at hw2F ⊢
          exact hw2F
        | nil =>
          have hwm : w = m := by rw [hwa]; simp
          rw [hwm] at hb
          simp only [List.nil_append, List.head?_cons]
          exact hb
      have hcomp := F.complete hL hw1T hw2T
      rw [htm] at hT
      exact hcomp hT

theorem ph_none {body Lang alpha key} (F : PatFacts body Lang alpha key) :
    ∀ (j : Nat), j ≤ 9 → ∀ (prev : Option Char) (rest : List Char),
      runPat body prev (PLACEHOLDER.drop j ++ rest) = none := by
  intro j hj prev rest
  cases h : runPat body prev (PLACEHOLDER.drop j ++ rest) with
  | none => rfl
  | some m =>
    exfalso
    rcases F.sound h with ⟨rest2, hs, hL, _, _⟩
    rcases List.append_eq_append_iff.mp hs.symm with ⟨a, ha1, ha2⟩ | ⟨a, ha1, ha2⟩
    · rcases F.keyIn hL with ⟨c, hcm, hck⟩
      have hcph : c ∈ PLACEHOLDER := by
        apply List.mem_of_mem_drop (n := j)
        rw [ha1]
        exact List.mem_append_left _ hcm
      rw [F.keyPH c hcph] at hck
      cases hck
    · have hrb : (']') ∈ PLACEHOLDER.drop j := by
        interval_cases j <;> decide
      have hmem : (']') ∈ m := by
        rw [ha1]
        exact List.mem_append_left _ hrb
      have := F.alphaOK hL _ hmem
      rw [F.alphaRB] at this
      cases this

end PII

namespace PII

theorem lastOf_placeholder (prev : Option Char) :
    lastOf prev PLACEHOLDER = some (']') := rfl

theorem cross_none {bodyq Langq alphaq keyq} (Fq : PatFacts bodyq Langq alphaq keyq)
    {bodyp Langp alphap keyp} (Fp : PatFacts bodyp Langp alphap keyp)
    {validator : Option (List Char → Bool)} {prev : Option Char} {t f : List Char}
    (h : Rep bodyq validator prev t f) :
    NoneFrom bodyp prev t → NoneFrom bodyp prev f := by
  induction h with
  | nil prev h0 => exact fun hT => hT
  | step prev c t2 f2 hn hsub ih =>
    intro hT u v huv
    cases u with
    | nil =>
      simp only [List.nil_append] at huv
      subst huv
      exact transfer Fp (rep_agree Fq (Rep.step prev c t2 f2 hn hsub))
        (hT [] (c :: t2) rfl)
    | cons c2 u2 =>
      simp only [List.cons_append] at huv
      have hc2 : c2 = c := (((List.cons.injEq _ _ _ _).mp huv).1).symm
      subst hc2
      have hf2 : f2 = u2 ++ v := ((List.cons.injEq _ _ _ _).mp huv).2
      have hT2 : NoneFrom bodyp (some c2) t2 := by
        have h2 := noneFrom_shift (x := [c2]) hT
        exact h2
      have h3 := ih hT2 u2 v hf2
      rw [show lastOf prev (c2 :: u2) = lastOf (some c2) u2 from lastOf_cons prev c2 u2]
      exact h3
  | acc prev m t2 f2 hm hv hsub ih =>
    intro hT u v huv
    rcases Fq.sound hm with ⟨rest0, hs0, hL, hw1, hw2⟩
    have hrest0 : rest0 = t2 := by
      have h5 := hs0
      rw [List.append_cancel_left_eq] at h5
      exact h5.symm
    rw [hrest0] at hw2
    have hprev2 : ∃ cL, lastOf prev m = some cL ∧ isWordChar cL = true := Fq.lastWord hL prev
    rcases hprev2 with ⟨cL, hcL, hcLw⟩
    have hprev2w : isWordOpt (lastOf prev m) = true := by rw [hcL]; exact hcLw
    have ht2stat : isWordOpt t2.head? = false := by
      simp only [wordBoundary, hprev2w] at hw2
      cases hx : isWordOpt t2.head? with
      | false => rfl
      | true => rw [hx] at hw2; simp at hw2
    have hf2stat : isWordOpt f2.head? = false := by
      rw [rep_headStatus Fq hsub hprev2w]
      exact ht2stat
    have hT2 : NoneFrom bodyp (lastOf prev m) t2 := noneFrom_shift (x := m) hT
    have hIH := ih hT2
    have hclose : runPat bodyp (lastOf prev PLACEHOLDER) f2 = none := by
      rw [lastOf_placeholder]
      have hwb : wordBoundary (some (']')) f2.head? = false := by
        simp only [wordBoundary, hf2stat]
        decide
      unfold runPat
      rw [if_neg (by simp [hwb])]
    rcases List.append_eq_append_iff.mp huv with ⟨a, ha1, ha2⟩ | ⟨a, ha1, ha2⟩
    · -- u = PLACEHOLDER ++ a, f2 = a ++ v
      cases a with
      | nil =>
        have hu : u = PLACEHOLDER := by rw [ha1]; simp
        have hv : v = f2 := by rw [ha2]; rfl
        subst hu hv
        exact hclose
      | cons b a2 =>
        have h3 := hIH (b :: a2) v ha2
        rw [ha1, lastOf_append]
        rw [lastOf_ne_nil (by simp) (lastOf prev PLACEHOLDER) (lastOf prev m)]
        exact h3
    · -- PLACEHOLDER = u ++ a, v = a ++ f2
      cases a with
      | nil =>
        have hu : u = PLACEHOLDER := by rw [ha1]; simp
        have hv : v = f2 := by rw [ha2]; rfl
        subst hu hv
        exact hclose
      | cons b a2 =>
        have hlen : u.length ≤ 9 := by
          have hlen2 := congrArg List.length ha1
          simp only [List.length_append, List.length_cons, PLACEHOLDER] at hlen2
          simp at hlen2
          omega
        have ha : (b :: a2) = PLACEHOLDER.drop u.length := by
          rw [ha1, List.drop_left]
        rw [ha2, ha]
        exact ph_none Fp u.length hlen _ _
  | rej prev m t2 f2 v0 hm hval hvm hsub ih =>
    intro hT u v huv
    rcases List.append_eq_append_iff.mp huv with ⟨a, ha1, ha2⟩ | ⟨a, ha1, ha2⟩
    · -- u = m ++ a, f2 = a ++ v
      have hT2 : NoneFrom bodyp (lastOf prev m) t2 := noneFrom_shift (x := m) hT
      have h3 := ih hT2 a v ha2
      rw [ha1, lastOf_append]
      exact h3
    · -- m = u ++ a, v = a ++ f2
      have hTfact : runPat bodyp (lastOf prev u) (a ++ t2) = none := by
        apply hT u (a ++ t2)
        rw [ha1, List.append_assoc]
      have hAg : Agree (lastOf prev u) (a ++ t2) (a ++ f2) := by
        apply agree_prepend (rep_agree Fq hsub)
        rw [ha1, lastOf_append]
      rw [ha2]
      exact transfer Fp hAg hTfact

end PII

namespace PII

theorem self_none {body Lang alpha key} (F : PatFacts body Lang alpha key)
    {prev : Option Char} {t f : List Char}
    (h : Rep body none prev t f) : NoneFrom body prev f := by
  induction h with
  | nil prev h0 =>
    intro u v huv
    rcases List.append_eq_nil.mp huv.symm with ⟨rfl, rfl⟩
    exact h0
  | step prev c t2 f2 hn hsub ih =>
    intro u v huv
    cases u with
    | nil =>
      simp only [List.nil_append] at huv
      subst huv
      exact transfer F (rep_agree F (Rep.step prev c t2 f2 hn hsub)) hn
    | cons c2 u2 =>
      simp only [List.cons_append] at huv
      have hc2 : c2 = c := (((List.cons.injEq _ _ _ _).mp huv).1).symm
      subst hc2
      have hf2 : f2 = u2 ++ v := ((List.cons.injEq _ _ _ _).mp huv).2
      have h3 := ih u2 v hf2
      rw [show lastOf prev (c2 :: u2) = lastOf (some c2) u2 from lastOf_cons prev c2 u2]
      exact h3
  | acc prev m t2 f2 hm hv hsub ih =>
    intro u v huv
    rcases F.sound hm with ⟨rest0, hs0, hL, hw1, hw2⟩
    have hrest0 : rest0 = t2 := by
      have h5 := hs0
      rw [List.append_cancel_left_eq] at h5
      exact h5.symm
    rw [hrest0] at hw2
    rcases F.lastWord hL prev with ⟨cL, hcL, hcLw⟩
    have hprev2w : isWordOpt (lastOf prev m) = true := by rw [hcL]; exact hcLw
    have ht2stat : isWordOpt t2.head? = false := by
      simp only [wordBoundary, hprev2w] at hw2
      cases hx : isWordOpt t2.head? with
      | false => rfl
      | true => rw [hx] at hw2; simp at hw2
    have hf2stat : isWordOpt f2.head? = false := by
      rw [rep_headStatus F hsub hprev2w]
      exact ht2stat
    have hclose : runPat body (lastOf prev PLACEHOLDER) f2 = none := by
      rw [lastOf_placeholder]
      have hwb : wordBoundary (some (']')) f2.head? = false := by
        simp only [wordBoundary, hf2stat]
        decide
      unfold runPat
      rw [if_neg (by simp [hwb])]
    rcases List.append_eq_append_iff.mp huv with ⟨a, ha1, ha2⟩ | ⟨a, ha1, ha2⟩
    · cases a with
      | nil =>
        have hu : u = PLACEHOLDER := by rw [ha1]; simp
        have hv : v = f2 := by rw [ha2]; rfl
        subst hu hv
        exact hclose
      | cons b a2 =>
        have h3 := ih (b :: a2) v ha2
        rw [ha1, lastOf_append]
        rw [lastOf_ne_nil (by simp) (lastOf prev PLACEHOLDER) (lastOf prev m)]
        exact h3
    · cases a with
      | nil =>
        have hu : u = PLACEHOLDER := by rw [ha1]; simp
        have hv : v = f2 := by rw [ha2]; rfl
        subst hu hv
        exact hclose
      | cons b a2 =>
        have hlen : u.length ≤ 9 := by
          have hlen2 := congrArg List.length ha1
          simp only [List.length_append, List.length_cons, PLACEHOLDER] at hlen2
          simp at hlen2
          omega
        have ha : (b :: a2) = PLACEHOLDER.drop u.length := by
          rw [ha1, List.drop_left]
        rw [ha2, ha]
        exact ph_none F u.length hlen _ _
  | rej prev m t2 f2 v0 hm hval hvm hsub ih => cases hval

end PII

namespace PII

theorem findMatch_nil (body : M) (prev : Option Char) :
    findMatch body prev [] =
      (match runPat body prev [] with
       | some m => some (([] : List Char), m, ([] : List Char).drop m.length)
       | none => none) := by
  rw [findMatch]

theorem findMatch_cons (body : M) (prev : Option Char) (c : Char) (t : List Char) :
    findMatch body prev (c :: t) =
      (match runPat body prev (c :: t) with
       | some m => some (([] : List Char), m, (c :: t).drop m.length)
       | none => (findMatch body (some c) t).map (fun r => (c :: r.1, r.2.1, r.2.2))) := by
  rw [findMatch]

theorem findMatch_none_inv {body : M} :
    ∀ (s : List Char) (prev : Option Char), findMatch body prev s = none →
      NoneFrom body prev s := by
  intro s
  induction s with
  | nil =>
    intro prev h u v huv
    rcases List.append_eq_nil.mp huv.symm with ⟨rfl, rfl⟩
    cases hr : runPat body prev [] with
    | none => exact hr
    | some m =>
      rw [findMatch_nil, hr] at h
      cases h
  | cons c t ih =>
    intro prev h u v huv
    have h0 : runPat body prev (c :: t) = none := by
      cases hr : runPat body prev (c :: t) with
      | none => rfl
      | some m =>
        rw [findMatch_cons, hr] at h
        cases h
    have hrec : findMatch body (some c) t = none := by
      rw [findMatch_cons, h0] at h
      exact Option.map_eq_none'.mp h
    cases u with
    | nil =>
      simp only [List.nil_append] at huv
      subst huv
      exact h0
    | cons c2 u2 =>
      simp only [List.cons_append] at huv
      have hc2 : c2 = c := (((List.cons.injEq _ _ _ _).mp huv).1).symm
      subst hc2
      have hv : t = u2 ++ v := ((List.cons.injEq _ _ _ _).mp huv).2
      rw [show lastOf prev (c2 :: u2) = lastOf (some c2) u2 from lastOf_cons prev c2 u2]
      exact ih (some c2) hrec u2 v hv

theorem fm_of_none {body : M} :
    ∀ (s : List Char) (prev : Option Char), NoneFrom body prev s →
      findMatch body prev s = none := by
  intro s
  induction s with
  | nil =>
    intro prev h
    have h0 : runPat body prev [] = none := h [] [] rfl
    rw [findMatch_nil, h0]
  | cons c t ih =>
    intro prev h
    have h0 : runPat body prev (c :: t) = none := h [] (c :: t) rfl
    have hrec := ih (some c) (noneFrom_shift (x := [c]) h)
    rw [findMatch_cons, h0, hrec]
    rfl

theorem rep_of_all_none {body : M} {validator : Option (List Char → Bool)} :
    ∀ (s : List Char) (prev : Option Char), NoneFrom body prev s →
      Rep body validator prev s s := by
  intro s
  induction s with
  | nil => intro prev h; exact Rep.nil prev (h [] [] rfl)
  | cons c t ih =>
    intro prev h
    exact Rep.step prev c t t (h [] (c :: t) rfl)
      (ih (some c) (noneFrom_shift (x := [c]) h))

theorem rep_build {body : M} {validator : Option (List Char → Bool)} :
    ∀ (pre : List Char) (prev : Option Char) (X Y : List Char),
      (∀ u v, pre = u ++ v → v ≠ [] → runPat body (lastOf prev u) (v ++ X) = none) →
      Rep body validator (lastOf prev pre) X Y →
      Rep body validator prev (pre ++ X) (pre ++ Y) := by
  intro pre
  induction pre with
  | nil => intro prev X Y hn hrep; exact hrep
  | cons c pre2 ih =>
    intro prev X Y hn hrep
    simp only [List.cons_append]
    refine Rep.step prev c (pre2 ++ X) (pre2 ++ Y) ?_ ?_
    · exact hn [] (c :: pre2) rfl (by simp)
    · apply ih (some c) X Y
      · intro u v huv hv
        have h2 := hn (c :: u) v (by rw [huv]; rfl) hv
        rw [lastOf_cons] at h2
        exact h2
      · rw [show lastOf (some c) pre2 = lastOf prev (c :: pre2) from
          (lastOf_cons prev c pre2).symm]
        exact hrep

end PII

namespace PII

theorem findMatch_sound {body : M}
    (hpre : ∀ {prev : Option Char} {s m : List Char},
      runPat body prev s = some m → ∃ rest, s = m ++ rest) :
    ∀ (s : List Char) (prev : Option Char) (pre m rest : List Char),
      findMatch body prev s = some (pre, m, rest) →
      s = pre ++ (m ++ rest) ∧ runPat body (lastOf prev pre) (m ++ rest) = some m ∧
        (∀ u v, pre = u ++ v → v ≠ [] →
          runPat body (lastOf prev u) (v ++ (m ++ rest)) = none) := by
  intro s
  induction s with
  | nil =>
    intro prev pre m rest h
    cases hr : runPat body prev [] with
    | none =>
      rw [findMatch_nil, hr] at h
      cases h
    | some m2 =>
      rcases hpre hr with ⟨rest2, hs2⟩
      rcases List.append_eq_nil.mp hs2.symm with ⟨rfl, rfl⟩
      rw [findMatch_nil, hr] at h
      simp only [Option.some.injEq] at h
      obtain ⟨h1, h2, h3⟩ := ((Prod.mk.injEq _ _ _ _).mp h).imp id
        (fun h4 => (Prod.mk.injEq _ _ _ _).mp h4)
      subst h1
      subst h2
      subst h3
      refine ⟨rfl, hr, ?_⟩
      intro u v huv hv
      rcases List.append_eq_nil.mp huv.symm with ⟨rfl, rfl⟩
      exact absurd rfl hv
  | cons c t ih =>
    intro prev pre m rest h
    cases hr : runPat body prev (c :: t) with
    | some m2 =>
      rcases hpre hr with ⟨rest2, hs2⟩
      have hdrop : (c :: t).drop m2.length = rest2 := by
        rw [hs2, List.drop_left]
      rw [findMatch_cons, hr] at h
      dsimp only at h
      rw [hdrop] at h
      simp only [Option.some.injEq] at h
      obtain ⟨h1, h2, h3⟩ := ((Prod.mk.injEq _ _ _ _).mp h).imp id
        (fun h4 => (Prod.mk.injEq _ _ _ _).mp h4)
      subst h1
      subst h2
      subst h3
      have hr2 : runPat body (lastOf prev []) (m2 ++ rest2) = some m2 := by
        rw [← hs2]; exact hr
      refine ⟨by rw [← hs2]; rfl, hr2, ?_⟩
      intro u v huv hv
      rcases List.append_eq_nil.mp huv.symm with ⟨rfl, rfl⟩
      exact absurd rfl hv
    | none =>
      rw [findMatch_cons, hr] at h
      rcases Option.map_eq_some'.mp h with ⟨⟨pre2, m2, rest2⟩, hfm, heq⟩
      have hpreq : pre = c :: pre2 := by
        have := congrArg Prod.fst heq
        simpa using this.symm
      have hmq : m = m2 := by
        have := congrArg (fun r => r.2.1) heq
        simpa using this.symm
      have hrestq : rest = rest2 := by
        have := congrArg (fun r => r.2.2) heq
        simpa using this.symm
      subst hpreq
      subst hmq
      subst hrestq
      rcases ih (some c) pre2 m rest hfm with ⟨ha, hb, hc⟩
      refine ⟨?_, ?_, ?_⟩
      · rw [List.cons_append, ← ha]
      · rw [show lastOf prev (c :: pre2) = lastOf (some c) pre2 from
          lastOf_cons prev c pre2]
        exact hb
      · intro u v huv hv
        cases u with
        | nil =>
          simp only [List.nil_append] at huv
          subst huv
          have hshape : (c :: pre2) ++ (m ++ rest) = c :: t := by
            rw [List.cons_append, ← ha]
          rw [hshape]
          exact hr
        | cons c2 u2 =>
          simp only [List.cons_append] at huv
          have hc2 : c2 = c := (((List.cons.injEq _ _ _ _).mp huv).1).symm
          subst hc2
          have hv2 : pre2 = u2 ++ v := ((List.cons.injEq _ _ _ _).mp huv).2
          rw [show lastOf prev (c2 :: u2) = lastOf (some c2) u2 from
            lastOf_cons prev c2 u2]
          exact hc u2 v hv2 hv

end PII

namespace PII

theorem replaceGo_fm_none {body : M} {validator : Option (List Char → Bool)}
    {ph : List Char} (n : Nat) {prev : Option Char} {s : List Char}
    (hfm : findMatch body prev s = none) :
    replaceGo body validator ph (n + 1) prev s = (s, 0) := by
  rw [replaceGo, hfm]

theorem replaceGo_fm_some {body : M} {validator : Option (List Char → Bool)}
    {ph : List Char} (n : Nat) {prev : Option Char} {s pre m rest : List Char}
    (hfm : findMatch body prev s = some (pre, m, rest)) :
    replaceGo body validator ph (n + 1) prev s =
      (if (match validator with | some v => v m | none => true)
       then (pre ++ ph ++ (replaceGo body validator ph n (lastOf prev m) rest).1,
             (replaceGo body validator ph n (lastOf prev m) rest).2 + 1)
       else (pre ++ m ++ (replaceGo body validator ph n (lastOf prev m) rest).1,
             (replaceGo body validator ph n (lastOf prev m) rest).2)) := by
  rw [replaceGo, hfm]
  rfl

theorem replaceGo_id {body : M} {validator : Option (List Char → Bool)}
    {ph : List Char} (n : Nat) (prev : Option Char) (s : List Char)
    (h : NoneFrom body prev s) :
    replaceGo body validator ph (n + 1) prev s = (s, 0) :=
  replaceGo_fm_none n (fm_of_none s prev h)

theorem rep_exists {body Lang alpha key} (F : PatFacts body Lang alpha key)
    {validator : Option (List Char → Bool)} :
    ∀ (fuel : Nat) (s : List Char) (prev : Option Char), s.length < fuel →
      Rep body validator prev s
        (replaceGo body validator PLACEHOLDER fuel prev s).1 := by
  intro fuel
  induction fuel with
  | zero => intro s prev h; exact absurd h (Nat.not_lt_zero _)
  | succ n ih =>
    intro s prev hlen
    cases hfm : findMatch body prev s with
    | none =>
      rw [replaceGo_fm_none n hfm]
      exact rep_of_all_none s prev (findMatch_none_inv s prev hfm)
    | some r =>
      obtain ⟨pre, m, rest⟩ := r
      have hpre : ∀ {pv : Option Char} {s2 m2 : List Char},
          runPat body pv s2 = some m2 → ∃ r2, s2 = m2 ++ r2 := by
        intro pv s2 m2 h2
        exact Exists.imp (fun r hr => hr.1) (F.sound h2)
      rcases findMatch_sound hpre s prev pre m rest hfm with ⟨hs, hrun, hnone⟩
      rcases F.sound hrun with ⟨rest3, hsplit, hL, hw1, hw2⟩
      have hmne : m ≠ [] := lang_ne_nil F hL
      have hrl : rest.length < n := by
        have hlen2 := congrArg List.length hs
        simp only [List.length_append] at hlen2
        have hml : 1 ≤ m.length := by
          cases m with
          | nil => exact absurd rfl hmne
          | cons _ _ => simp
        omega
      have hsub := ih rest (lastOf prev m) hrl
      have hcast := lastOf_ne_nil hmne prev (lastOf prev pre)
      cases validator with
      | none =>
        have hcompute : (replaceGo body none PLACEHOLDER (n + 1) prev s).1 =
            pre ++ PLACEHOLDER ++
              (replaceGo body none PLACEHOLDER n (lastOf prev m) rest).1 := by
          rw [replaceGo_fm_some n hfm]
          rfl
        rw [hcast] at hsub hcompute
        have hinner : Rep body none (lastOf prev pre) (m ++ rest)
            (PLACEHOLDER ++ (replaceGo body none PLACEHOLDER n
              (lastOf (lastOf prev pre) m) rest).1) :=
          Rep.acc (lastOf prev pre) m rest _ hrun (Or.inl rfl) hsub
        have houter := rep_build pre prev (m ++ rest) _ hnone hinner
        rw [hcompute, List.append_assoc, hs]
        exact houter
      | some v =>
        cases hvm : v m with
        | true =>
          have hcompute : (replaceGo body (some v) PLACEHOLDER (n + 1) prev s).1 =
              pre ++ PLACEHOLDER ++
                (replaceGo body (some v) PLACEHOLDER n (lastOf prev m) rest).1 := by
            rw [replaceGo_fm_some n hfm]
            dsimp only
            rw [if_pos hvm]
          rw [hcast] at hsub hcompute
          have hinner : Rep body (some v) (lastOf prev pre) (m ++ rest)
              (PLACEHOLDER ++ (replaceGo body (some v) PLACEHOLDER n
                (lastOf (lastOf prev pre) m) rest).1) :=
            Rep.acc (lastOf prev pre) m rest _ hrun (Or.inr ⟨v, rfl, hvm⟩) hsub
          have houter := rep_build pre prev (m ++ rest) _ hnone hinner
          rw [hcompute, List.append_assoc, hs]
          exact houter
        | false =>
          have hcompute : (replaceGo body (some v) PLACEHOLDER (n + 1) prev s).1 =
              pre ++ m ++
                (replaceGo body (some v) PLACEHOLDER n (lastOf prev m) rest).1 := by
            rw [replaceGo_fm_some n hfm]
            dsimp only
            rw [if_neg (by rw [hvm]; exact Bool.false_ne_true)]
          rw [hcast] at hsub hcompute
          have hinner : Rep body (some v) (lastOf prev pre) (m ++ rest)
              (m ++ (replaceGo body (some v) PLACEHOLDER n
                (lastOf (lastOf prev pre) m) rest).1) :=
            Rep.rej (lastOf prev pre) m rest _ v hrun rfl hvm hsub
          have houter := rep_build pre prev (m ++ rest) _ hnone hinner
          rw [hcompute, List.append_assoc, hs]
          exact houter

end PII

namespace PII

theorem word_of_alpha {c : Char} (h : isAlphaChar c = true) : isWordChar c = true := by
  simp only [isAlphaChar, Bool.or_eq_true] at h
  simp only [isWordChar, Bool.or_eq_true]
  rcases h with h | h
  · exact Or.inl (Or.inl (Or.inl h))
  · exact Or.inl (Or.inl (Or.inr h))

theorem local_of_alpha {c : Char} (h : isAlphaChar c = true) : isLocalChar c = true := by
  simp only [isLocalChar, Bool.or_eq_true]
  exact Or.inl (Or.inl (Or.inl (Or.inl (Or.inl (Or.inl h)))))

theorem local_of_domain {c : Char} (h : isDomainChar c = true) : isLocalChar c = true := by
  simp only [isDomainChar, Bool.or_eq_true] at h
  simp only [isLocalChar, Bool.or_eq_true]
  rcases h with ((h | h) | h) | h
  · exact Or.inl (Or.inl (Or.inl (Or.inl (Or.inl (Or.inl h)))))
  · exact Or.inl (Or.inl (Or.inl (Or.inl (Or.inl (Or.inr h)))))
  · exact Or.inl (Or.inl (Or.inl (Or.inl (Or.inr h))))
  · exact Or.inr h

theorem dashOpt_mem {w : List Char} (h : dashOpt w) {c : Char} (hc : c ∈ w) :
    c = '-' := by
  rcases h with rfl | rfl
  · exact absurd hc (List.not_mem_nil c)
  · simpa using hc

/-- The consumable alphabet of the ipv4 pattern. -/
def ipv4Alpha (c : Char) : Bool := isDigitChar c || c = '.'

theorem F_ipv4 : PatFacts IPV4 ipv4L ipv4Alpha isDigitChar where
  sound := fun h => ipv4_sound h
  complete := fun hL hw1 hw2 => ipv4_complete hL hw1 hw2
  lastWord := by
    intro m hL l
    rcases hL with ⟨o1, o2, o3, o4, rfl, h1, h2, h3, h4⟩
    rcases octetL_last h4 with ⟨c, hg, hd⟩
    refine ⟨c, ?_, word_of_digit hd⟩
    rw [lastOf_append_cons, lastOf_append_cons, lastOf_append_cons]
    unfold lastOf
    rw [hg]
  alphaOK := by
    intro m hL c hc
    rcases hL with ⟨o1, o2, o3, o4, rfl, h1, h2, h3, h4⟩
    simp only [List.mem_append, List.mem_cons] at hc
    rcases hc with h | rfl | h | rfl | h | rfl | h
    · simp [ipv4Alpha, octetL_chars h1 c h]
    · decide
    · simp [ipv4Alpha, octetL_chars h2 c h]
    · decide
    · simp [ipv4Alpha, octetL_chars h3 c h]
    · decide
    · simp [ipv4Alpha, octetL_chars h4 c h]
  keyIn := by
    intro m hL
    rcases hL with ⟨o1, o2, o3, o4, rfl, h1, h2, h3, h4⟩
    cases ho : o1 with
    | nil => exact absurd ho (octetL_ne_nil h1)
    | cons c o1t =>
      rw [ho] at h1
      refine ⟨c, ?_, octetL_chars h1 c (List.mem_cons_self c o1t)⟩
      exact List.mem_append_left _ (List.mem_cons_self c o1t)
  alphaLB := by decide
  alphaRB := by decide
  keyPH := by intro c hc; fin_cases hc <;> decide

/-- The consumable alphabet of the email pattern. -/
def emailAlpha (c : Char) : Bool := isLocalChar c || c = '@'

/-- The key character of the email pattern: the `@` sign. -/
def emailKey (c : Char) : Bool := c = '@'

theorem F_email : PatFacts EMAIL emailL emailAlpha emailKey where
  sound := fun h => email_sound h
  complete := fun hL hw1 hw2 => email_complete hL hw1 hw2
  lastWord := by
    intro m hL l
    rcases hL with ⟨loc, dom, t1c, t2c, tl, rfl, hne1, hall1, hne2, hall2, hp1, hp2, halltl⟩
    rw [lastOf_append_cons, lastOf_append_cons, lastOf_cons, lastOf_cons]
    rcases lastOf_all (P := fun c => isAlphaChar c = true) tl t2c halltl hp2 with
      ⟨c, heq, hal⟩
    exact ⟨c, heq, word_of_alpha hal⟩
  alphaOK := by
    intro m hL c hc
    rcases hL with ⟨loc, dom, t1c, t2c, tl, rfl, hne1, hall1, hne2, hall2, hp1, hp2, halltl⟩
    simp only [List.mem_append, List.mem_cons] at hc
    rcases hc with h | rfl | h | rfl | rfl | rfl | h
    · simp [emailAlpha, local_of_alpha, hall1 c h]
    · decide
    · simp [emailAlpha, local_of_domain (hall2 c h)]
    · decide
    · simp [emailAlpha, local_of_alpha hp1]
    · simp [emailAlpha, local_of_alpha hp2]
    · simp [emailAlpha, local_of_alpha (halltl c h)]
  keyIn := by
    intro m hL
    rcases hL with ⟨loc, dom, t1c, t2c, tl, rfl, hne1, hall1, hne2, hall2, hp1, hp2, halltl⟩
    refine ⟨'@', ?_, by decide⟩
    exact List.mem_append_right _ (List.mem_cons_self _ _)
  alphaLB := by decide
  alphaRB := by decide
  keyPH := by intro c hc; fin_cases hc <;> decide

/-- The consumable alphabet of the ssn pattern. -/
def ssnAlpha (c : Char) : Bool := isDigitChar c || c = '-'

theorem ssnAlpha_digit {c : Char} (h : isDigitChar c = true) : ssnAlpha c = true := by
  simp [ssnAlpha, h]

theorem F_ssn : PatFacts SSN_US ssnL ssnAlpha isDigitChar where
  sound := fun h => ssn_sound h
  complete := fun hL hw1 hw2 => ssn_complete hL hw1 hw2
  lastWord := by
    intro m hL l
    rcases hL with ⟨w1, z1, z2, z3, w2, y1, y2, w3, x1, x2, x3, x4, rfl,
      hd1, hd2, hd3, hp1, hp2, hp3, p1, p2, q1, q2, q3, q4, hA, hG, hS⟩
    exact ⟨x4, ssnL_lastOf, word_of_digit q4⟩
  alphaOK := by
    intro m hL c hc
    rcases hL with ⟨w1, z1, z2, z3, w2, y1, y2, w3, x1, x2, x3, x4, rfl,
      hd1, hd2, hd3, hp1, hp2, hp3, p1, p2, q1, q2, q3, q4, hA, hG, hS⟩
    simp only [List.mem_append, List.mem_cons, List.not_mem_nil, or_false] at hc
    rcases hc with h | rfl | rfl | rfl | rfl | h | rfl | rfl | rfl | h | rfl | rfl | rfl | rfl
    · simp [ssnAlpha, dashOpt_mem hd1 h]
    · exact ssnAlpha_digit hp1
    · exact ssnAlpha_digit hp2
    · exact ssnAlpha_digit hp3
    · decide
    · simp [ssnAlpha, dashOpt_mem hd2 h]
    · exact ssnAlpha_digit p1
    · exact ssnAlpha_digit p2
    · decide
    · simp [ssnAlpha, dashOpt_mem hd3 h]
    · exact ssnAlpha_digit q1
    · exact ssnAlpha_digit q2
    · exact ssnAlpha_digit q3
    · exact ssnAlpha_digit q4
  keyIn := by
    intro m hL
    rcases hL with ⟨w1, z1, z2, z3, w2, y1, y2, w3, x1, x2, x3, x4, rfl,
      hd1, hd2, hd3, hp1, hp2, hp3, p1, p2, q1, q2, q3, q4, hA, hG, hS⟩
    refine ⟨z1, ?_, hp1⟩
    exact List.mem_append_right _ (List.mem_cons_self _ _)
  alphaLB := by decide
  alphaRB := by decide
  keyPH := by intro c hc; fin_cases hc <;> decide

/-- The consumable alphabet of the phone pattern. -/
def phoneAlpha (c : Char) : Bool :=
  isDigitChar c || isPhoneSep c || c = '+' || c = '(' || c = ')'

theorem phoneAlpha_digit {c : Char} (h : isDigitChar c = true) : phoneAlpha c = true := by
  simp [phoneAlpha, h]

theorem phoneAlpha_sep {c : Char} (h : isPhoneSep c = true) : phoneAlpha c = true := by
  simp [phoneAlpha, h]

theorem countryOpt_mem {o : List Char} (h : countryOpt o) {c : Char} (hc : c ∈ o) :
    phoneAlpha c = true := by
  rcases h with rfl | rfl | rfl | ⟨s, hs, rfl | rfl⟩
  · exact absurd hc (List.not_mem_nil c)
  · rcases (by simpa using hc : c = '1') with rfl
    decide
  · rcases (by simpa using hc : c = '+' ∨ c = '1') with rfl | rfl <;> decide
  · rcases (by simpa using hc : c = '1' ∨ c = s) with rfl | rfl
    · decide
    · exact phoneAlpha_sep hs
  · rcases (by simpa using hc : c = '+' ∨ c = '1' ∨ c = s) with rfl | rfl | rfl
    · decide
    · decide
    · exact phoneAlpha_sep hs

theorem litOpt_mem {ch : Char} {o : List Char} (h : litOpt ch o) {c : Char}
    (hc : c ∈ o) : c = ch := by
  rcases h with rfl | rfl
  · exact absurd hc (List.not_mem_nil c)
  · simpa using hc

theorem sepOpt_mem {o : List Char} (h : sepOpt o) {c : Char} (hc : c ∈ o) :
    isPhoneSep c = true := by
  rcases h with rfl | ⟨s, hs, rfl⟩
  · exact absurd hc (List.not_mem_nil c)
  · rcases (by simpa using hc : c = s) with rfl
    exact hs

theorem F_phone : PatFacts PHONE_US phoneL phoneAlpha isDigitChar where
  sound := fun h => phone_sound h
  complete := fun hL hw1 hw2 => phone_complete hL hw1 hw2
  lastWord := by
    intro m hL l
    rcases hL with ⟨c1, o2, a1, a2, a3, o3, o4, b1, b2, b3, o5, d1, d2, d3, d4,
      rfl, hc1, ho2, ho3, ho4, ho5, ha1, ha2, ha3, hb1, hb2, hb3, hq1, hq2, hq3, hq4⟩
    exact ⟨d4, phone_shape_lastOf, word_of_digit hq4⟩
  alphaOK := by
    intro m hL c hc
    rcases hL with ⟨c1, o2, a1, a2, a3, o3, o4, b1, b2, b3, o5, d1, d2, d3, d4,
      rfl, hc1, ho2, ho3, ho4, ho5, ha1, ha2, ha3, hb1, hb2, hb3, hq1, hq2, hq3, hq4⟩
    simp only [List.mem_append, List.mem_cons, List.not_mem_nil, or_false] at hc
    rcases hc with h | h | rfl | rfl | rfl | h | h | rfl | rfl | rfl | h | rfl | rfl | rfl | rfl
    · exact countryOpt_mem hc1 h
    · rcases litOpt_mem ho2 h with rfl; decide
    · exact phoneAlpha_digit ha1
    · exact phoneAlpha_digit ha2
    · exact phoneAlpha_digit ha3
    · rcases litOpt_mem ho3 h with rfl; decide
    · exact phoneAlpha_sep (sepOpt_mem ho4 h)
    · exact phoneAlpha_digit hb1
    · exact phoneAlpha_digit hb2
    · exact phoneAlpha_digit hb3
    · exact phoneAlpha_sep (sepOpt_mem ho5 h)
    · exact phoneAlpha_digit hq1
    · exact phoneAlpha_digit hq2
    · exact phoneAlpha_digit hq3
    · exact phoneAlpha_digit hq4
  keyIn := by
    intro m hL
    rcases hL with ⟨c1, o2, a1, a2, a3, o3, o4, b1, b2, b3, o5, d1, d2, d3, d4,
      rfl, hc1, ho2, ho3, ho4, ho5, ha1, ha2, ha3, hb1, hb2, hb3, hq1, hq2, hq3, hq4⟩
    refine ⟨a1, ?_, ha1⟩
    exact List.mem_append_right _ (List.mem_append_right _ (List.mem_cons_self _ _))
  alphaLB := by decide
  alphaRB := by decide
  keyPH := by intro c hc; fin_cases hc <;> decide

/-- The consumable alphabet of the credit-card pattern. -/
def ccAlpha (c : Char) : Bool := isDigitChar c || isCardSep c

theorem F_cc : PatFacts CREDIT_CARD ccL ccAlpha isDigitChar where
  sound := fun h => cc_sound h
  complete := fun hL hw1 hw2 => cc_complete hL hw1 hw2
  lastWord := by
    intro m hL l
    rcases hL with ⟨n, h13, h19, hcc⟩
    rcases ccUnits_last n m hcc l with ⟨c, heq, hd⟩
    exact ⟨c, heq, word_of_digit hd⟩
  alphaOK := by
    intro m hL c hc
    rcases hL with ⟨n, h13, h19, hcc⟩
    rcases ccUnits_chars n m hcc c hc with h | h
    · simp [ccAlpha, h]
    · simp [ccAlpha, h]
  keyIn := by
    intro m hL
    rcases hL with ⟨n, h13, h19, hcc⟩
    rcases ccUnits_head hcc with ⟨d, t, rfl, hd⟩
    exact ⟨d, List.mem_cons_self _ _, hd⟩
  alphaLB := by decide
  alphaRB := by decide
  keyPH := by intro c hc; fin_cases hc <;> decide

end PII

namespace PII

theorem runPat_no_boundary {body : M} {prev : Option Char} {s : List Char}
    (h : wordBoundary prev s.head? = false) : runPat body prev s = none := by
  unfold runPat
  rw [if_neg (by rw [h]; exact Bool.false_ne_true)]

theorem fm_skip {body : M} :
    ∀ (w : List Char) (prevF : Option Char) (rest : List Char),
      (∀ u v, w = u ++ v → v ≠ [] → runPat body (lastOf prevF u) (v ++ rest) = none) →
      findMatch body prevF (w ++ rest) =
        (findMatch body (lastOf prevF w) rest).map
          (fun r => (w ++ r.1, r.2.1, r.2.2)) := by
  intro w
  induction w with
  | nil =>
    intro prevF rest hn
    cases hfm : findMatch body prevF rest with
    | none => simp [hfm, lastOf_nil]
    | some r =>
      obtain ⟨a, b, c⟩ := r
      simp [hfm, lastOf_nil]
  | cons c w2 ih =>
    intro prevF rest hn
    have h0 : runPat body prevF (c :: (w2 ++ rest)) = none :=
      hn [] (c :: w2) rfl (by simp)
    have hn2 : ∀ u v, w2 = u ++ v → v ≠ [] →
        runPat body (lastOf (some c) u) (v ++ rest) = none := by
      intro u v huv hv
      have h2 := hn (c :: u) v (by rw [huv]; rfl) hv
      rw [lastOf_cons] at h2
      exact h2
    rw [List.cons_append, findMatch_cons, h0]
    dsimp only
    rw [ih (some c) rest hn2]
    rw [show lastOf prevF (c :: w2) = lastOf (some c) w2 from lastOf_cons prevF c w2]
    cases findMatch body (lastOf (some c) w2) rest with
    | none => rfl
    | some r =>
      obtain ⟨a, b, d⟩ := r
      rfl

/-- The scan states of the first pass (`prevT`, before `t`) and the second
pass (`prevF`) are compatible: either the previous characters have the
same word status, or the second pass sits right after a placeholder (a
non-word character) and the first-pass text continues with a non-word
character. -/
def StatusOk (prevF prevT : Option Char) (t : List Char) : Prop :=
  isWordOpt prevF = isWordOpt prevT ∨
    (isWordOpt prevF = false ∧ isWordOpt t.head? = false)

theorem ccFM {v : List Char → Bool} :
    ∀ {prevT : Option Char} {t f : List Char},
      Rep CREDIT_CARD (some v) prevT t f →
      ∀ prevF, StatusOk prevF prevT t →
      findMatch CREDIT_CARD prevF f = none ∨
      ∃ pre mm tc fc P,
        f = pre ++ (mm ++ fc) ∧
        findMatch CREDIT_CARD prevF f = some (pre, mm, fc) ∧
        v mm = false ∧ mm ≠ [] ∧
        Rep CREDIT_CARD (some v) P tc fc ∧
        StatusOk (lastOf prevF mm) P tc := by
  intro prevT t f h
  induction h with
  | nil prev h0 =>
    intro prevF hstat
    left
    rw [findMatch_nil, lang_nil_none F_cc prevF]
  | step prev c t2 f2 hn hsub ih =>
    intro prevF hstat
    have h0 : runPat CREDIT_CARD prevF (c :: f2) = none := by
      rcases hstat with heq | ⟨hpF, hhead⟩
      · rw [runPat_cc_prev heq]
        exact transfer F_cc (rep_agree F_cc (Rep.step prev c t2 f2 hn hsub)) hn
      · apply runPat_no_boundary
        simp only [List.head?_cons] at hhead ⊢
        simp [wordBoundary, hpF, hhead]
    rcases ih (some c) (Or.inl rfl) with hnone |
      ⟨pre, mm, tc, fc, P, hfeq, hfm, hvm, hmne, hrep, hst⟩
    · left
      rw [findMatch_cons, h0]
      dsimp only
      rw [hnone]
      rfl
    · right
      refine ⟨c :: pre, mm, tc, fc, P, by rw [hfeq]; rfl, ?_, hvm, hmne, hrep, ?_⟩
      · rw [findMatch_cons, h0]
        dsimp only
        rw [hfm]
        rfl
      · rw [lastOf_ne_nil hmne prevF (some c)]
        exact hst
  | acc prev m t2 f2 hm hv hsub ih =>
    intro prevF hstat
    rcases F_cc.sound hm with ⟨rest3, hsplit, hL, hw1, hw2⟩
    have ht2 : t2 = rest3 := List.append_cancel_left hsplit
    rw [← ht2] at hw2
    rcases F_cc.lastWord hL prev with ⟨cl, hcl, hclw⟩
    have ht2head : isWordOpt t2.head? = false := by
      rw [hcl] at hw2
      simp only [wordBoundary] at hw2
      rw [show isWordOpt (some cl) = isWordChar cl from rfl, hclw] at hw2
      cases hx : isWordOpt t2.head? with
      | false => rfl
      | true =>
        rw [hx] at hw2
        simp at hw2
    have hall : ∀ u v2, PLACEHOLDER = u ++ v2 → v2 ≠ [] →
        runPat CREDIT_CARD (lastOf prevF u) (v2 ++ f2) = none := by
      intro u v2 huv hv
      have hdrop : PLACEHOLDER.drop u.length = v2 := by rw [huv, List.drop_left]
      have hlen : u.length ≤ 9 := by
        have h10 := congrArg List.length huv
        rw [List.length_append] at h10
        have hP : PLACEHOLDER.length = 10 := rfl
        rw [hP] at h10
        have hv1 : 1 ≤ v2.length := by
          cases v2 with
          | nil => exact absurd rfl hv
          | cons _ _ => simp
        omega
      rw [← hdrop]
      exact ph_none F_cc u.length hlen (lastOf prevF u) f2
    rw [fm_skip PLACEHOLDER prevF f2 hall, lastOf_placeholder]
    rcases ih (some (']')) (Or.inr ⟨by decide, ht2head⟩) with hnone |
      ⟨pre, mm, tc, fc, P, hfeq, hfm, hvm, hmne, hrep, hst⟩
    · left
      rw [hnone]
      rfl
    · right
      refine ⟨PLACEHOLDER ++ pre, mm, tc, fc, P, ?_, ?_, hvm, hmne, hrep, ?_⟩
      · rw [hfeq, List.append_assoc]
      · rw [hfm]
        rfl
      · rw [lastOf_ne_nil hmne prevF (some (']'))]
        exact hst
  | rej prev m t2 f2 v2 hm hval hvm hsub ih =>
    intro prevF hstat
    have hv2 : v = v2 := by
      injection hval
    rcases F_cc.sound hm with ⟨rest3, hsplit, hL, hw1, hw2⟩
    have ht2 : t2 = rest3 := List.append_cancel_left hsplit
    rw [← ht2] at hw2
    rcases hL with ⟨n, h13, h19, hcc⟩
    rcases ccUnits_head hcc with ⟨d, mt, hmeq, hd⟩
    have hmne : m ≠ [] := by rw [hmeq]; simp
    have hstat1 : isWordOpt prevF = isWordOpt prev := by
      rcases hstat with heq | ⟨hpF, hhead⟩
      · exact heq
      · exfalso
        rw [hmeq] at hhead
        simp only [List.cons_append, List.head?_cons] at hhead
        rw [show isWordOpt (some d) = isWordChar d from rfl, word_of_digit hd] at hhead
        cases hhead
    rcases F_cc.lastWord ⟨n, h13, h19, hcc⟩ prev with ⟨cl, hcl, hclw⟩
    have ht2head : isWordOpt t2.head? = false := by
      rw [hcl] at hw2
      simp only [wordBoundary] at hw2
      rw [show isWordOpt (some cl) = isWordChar cl from rfl, hclw] at hw2
      cases hx : isWordOpt t2.head? with
      | false => rfl
      | true =>
        rw [hx] at hw2
        simp at hw2
    have hword : isWordOpt (lastOf prev m) = true := by
      rw [hcl]
      exact hclw
    have hf2head : isWordOpt f2.head? = false := by
      rw [rep_headStatus F_cc hsub hword]
      exact ht2head
    have hm2 : runPat CREDIT_CARD prevF (m ++ f2) = some m := by
      rw [runPat_cc_prev hstat1]
      exact cc_some_congr ht2head hf2head hm
    have hfm : findMatch CREDIT_CARD prevF (m ++ f2) = some ([], m, f2) := by
      rw [hmeq] at hm2 ⊢
      rw [List.cons_append] at hm2 ⊢
      have hdrop : (d :: (mt ++ f2)).drop (d :: mt).length = f2 := by
        rw [← List.cons_append, List.drop_left]
      rw [findMatch_cons, hm2]
      dsimp only
      rw [hdrop]
    right
    refine ⟨[], m, t2, f2, lastOf prev m, rfl, hfm, ?_, hmne, hsub, ?_⟩
    · rw [hv2]
      exact hvm
    · left
      rw [lastOf_ne_nil hmne prevF prev]

theorem ccPass {v : List Char → Bool} :
    ∀ (fuel : Nat) (prevT prevF : Option Char) (t f : List Char),
      Rep CREDIT_CARD (some v) prevT t f → StatusOk prevF prevT t →
      f.length < fuel →
      replaceGo CREDIT_CARD (some v) PLACEHOLDER fuel prevF f = (f, 0) := by
  intro fuel
  induction fuel with
  | zero => intro _ _ _ _ _ _ hlen; exact absurd hlen (Nat.not_lt_zero _)
  | succ n ih =>
    intro prevT prevF t f h hstat hlen
    rcases ccFM h prevF hstat with hnone |
      ⟨pre, mm, tc, fc, P, hfeq, hfm, hvm, hmne, hrep, hst⟩
    · exact replaceGo_fm_none n hnone
    · rw [replaceGo_fm_some n hfm]
      dsimp only
      rw [if_neg (by rw [hvm]; exact Bool.false_ne_true)]
      have hfl : fc.length < n := by
        have hlen2 := congrArg List.length hfeq
        simp only [List.length_append] at hlen2
        have hml : 1 ≤ mm.length := by
          cases mm with
          | nil => exact absurd rfl hmne
          | cons _ _ => simp
        omega
      rw [ih P (lastOf prevF mm) tc fc hrep hst hfl]
      rw [hfeq, List.append_assoc]

end PII

namespace PII

theorem redact_fixed {F : List Char}
    (h1 : NoneFrom IPV4 none F) (h2 : NoneFrom EMAIL none F)
    (h3 : NoneFrom SSN_US none F) (h4 : NoneFrom PHONE_US none F)
    (h5 : replaceAll CREDIT_CARD (some isValidCreditCard) PLACEHOLDER F = (F, 0)) :
    redact F =
      { redactedText := F, totalRedactions := 0,
        redactionMap := [("ipv4", 0), ("email", 0), ("ssn_us", 0),
          ("phone_us", 0), ("credit_card", 0)] } := by
  have e1 : replaceAll IPV4 none PLACEHOLDER F = (F, 0) :=
    replaceGo_id F.length none F h1
  have e2 : replaceAll EMAIL none PLACEHOLDER F = (F, 0) :=
    replaceGo_id F.length none F h2
  have e3 : replaceAll SSN_US none PLACEHOLDER F = (F, 0) :=
    replaceGo_id F.length none F h3
  have e4 : replaceAll PHONE_US none PLACEHOLDER F = (F, 0) :=
    replaceGo_id F.length none F h4
  have s1 : applyRedaction IPV4 PLACEHOLDER ("ipv4") none
      { redactedText := F, totalRedactions := 0, redactionMap := [] } =
      { redactedText := F, totalRedactions := 0,
        redactionMap := [(("ipv4" : String), 0)] } := by
    unfold applyRedaction
    rw [e1]
    rfl
  have s2 : applyRedaction EMAIL PLACEHOLDER ("email") none
      { redactedText := F, totalRedactions := 0,
        redactionMap := [(("ipv4" : String), 0)] } =
      { redactedText := F, totalRedactions := 0,
        redactionMap := [(("ipv4" : String), 0), ("email", 0)] } := by
    unfold applyRedaction
    rw [e2]
    rfl
  have s3 : applyRedaction SSN_US PLACEHOLDER ("ssn_us") none
      { redactedText := F, totalRedactions := 0,
        redactionMap := [(("ipv4" : String), 0), ("email", 0)] } =
      { redactedText := F, totalRedactions := 0,
        redactionMap := [(("ipv4" : String), 0), ("email", 0), ("ssn_us", 0)] } := by
    unfold applyRedaction
    rw [e3]
    rfl
  have s4 : applyRedaction PHONE_US PLACEHOLDER ("phone_us") none
      { redactedText := F, totalRedactions := 0,
        redactionMap := [(("ipv4" : String), 0), ("email", 0), ("ssn_us", 0)] } =
      { redactedText := F, totalRedactions := 0,
        redactionMap := [(("ipv4" : String), 0), ("email", 0), ("ssn_us", 0),
          ("phone_us", 0)] } := by
    unfold applyRedaction
    rw [e4]
    rfl
  have s5 : applyRedaction CREDIT_CARD PLACEHOLDER ("credit_card")
      (some isValidCreditCard)
      { redactedText := F, totalRedactions := 0,
        redactionMap := [(("ipv4" : String), 0), ("email", 0), ("ssn_us", 0),
          ("phone_us", 0)] } =
      { redactedText := F, totalRedactions := 0,
        redactionMap := [(("ipv4" : String), 0), ("email", 0), ("ssn_us", 0),
          ("phone_us", 0), ("credit_card", 0)] } := by
    unfold applyRedaction
    rw [h5]
    rfl
  show applyRedaction CREDIT_CARD PLACEHOLDER ("credit_card") (some isValidCreditCard)
      (applyRedaction PHONE_US PLACEHOLDER ("phone_us") none
        (applyRedaction SSN_US PLACEHOLDER ("ssn_us") none
          (applyRedaction EMAIL PLACEHOLDER ("email") none
            (applyRedaction IPV4 PLACEHOLDER ("ipv4") none
              { redactedText := F, totalRedactions := 0, redactionMap := [] })))) = _
  rw [s1, s2, s3, s4, s5]

end PII

namespace PII

/-- C5: Redaction is idempotent: for every input `t`, running `redact` on
the masked output `(redact t).redactedText` returns that output unchanged,
with zero total redactions and a zero count for every one of the five
detector types — no placeholder token (or any other remaining span)
satisfies any detector's matching rule, and the spans a validator rejected
in the first run are rejected again in the second. -/
theorem c5_idempotent (t : List Char) :
    redact ((redact t).redactedText) =
      { redactedText := (redact t).redactedText
        totalRedactions := 0
        redactionMap := [("ipv4", 0), ("email", 0), ("ssn_us", 0),
          ("phone_us", 0), ("credit_card", 0)] } := by
  set s1 := (replaceAll IPV4 none PLACEHOLDER t).1 with hs1
  set s2 := (replaceAll EMAIL none PLACEHOLDER s1).1 with hs2
  set s3 := (replaceAll SSN_US none PLACEHOLDER s2).1 with hs3
  set s4 := (replaceAll PHONE_US none PLACEHOLDER s3).1 with hs4
  set s5 := (replaceAll CREDIT_CARD (some isValidCreditCard) PLACEHOLDER s4).1 with hs5
  have rep1 : Rep IPV4 (none : Option (List Char → Bool)) none t s1 :=
    rep_exists F_ipv4 (t.length + 1) t none (Nat.lt_succ_self _)
  have n1_1 : NoneFrom IPV4 none s1 := self_none F_ipv4 rep1
  have rep2 : Rep EMAIL (none : Option (List Char → Bool)) none s1 s2 :=
    rep_exists F_email (s1.length + 1) s1 none (Nat.lt_succ_self _)
  have n2_2 : NoneFrom EMAIL none s2 := self_none F_email rep2
  have n1_2 : NoneFrom IPV4 none s2 := cross_none F_email F_ipv4 rep2 n1_1
  have rep3 : Rep SSN_US (none : Option (List Char → Bool)) none s2 s3 :=
    rep_exists F_ssn (s2.length + 1) s2 none (Nat.lt_succ_self _)
  have n3_3 : NoneFrom SSN_US none s3 := self_none F_ssn rep3
  have n1_3 : NoneFrom IPV4 none s3 := cross_none F_ssn F_ipv4 rep3 n1_2
  have n2_3 : NoneFrom EMAIL none s3 := cross_none F_ssn F_email rep3 n2_2
  have rep4 : Rep PHONE_US (none : Option (List Char → Bool)) none s3 s4 :=
    rep_exists F_phone (s3.length + 1) s3 none (Nat.lt_succ_self _)
  have n4_4 : NoneFrom PHONE_US none s4 := self_none F_phone rep4
  have n1_4 : NoneFrom IPV4 none s4 := cross_none F_phone F_ipv4 rep4 n1_3
  have n2_4 : NoneFrom EMAIL none s4 := cross_none F_phone F_email rep4 n2_3
  have n3_4 : NoneFrom SSN_US none s4 := cross_none F_phone F_ssn rep4 n3_3
  have rep5 : Rep CREDIT_CARD (some isValidCreditCard) none s4 s5 :=
    rep_exists F_cc (s4.length + 1) s4 none (Nat.lt_succ_self _)
  have n1_5 : NoneFrom IPV4 none s5 := cross_none F_cc F_ipv4 rep5 n1_4
  have n2_5 : NoneFrom EMAIL none s5 := cross_none F_cc F_email rep5 n2_4
  have n3_5 : NoneFrom SSN_US none s5 := cross_none F_cc F_ssn rep5 n3_4
  have n4_5 : NoneFrom PHONE_US none s5 := cross_none F_cc F_phone rep5 n4_4
  have h5 : replaceAll CREDIT_CARD (some isValidCreditCard) PLACEHOLDER s5 = (s5, 0) :=
    ccPass (s5.length + 1) none none s4 s5 rep5 (Or.inl rfl) (Nat.lt_succ_self _)
  have hF : (redact t).redactedText = s5 := rfl
  rw [hF]
  exact redact_fixed n1_5 n2_5 n3_5 n4_5 h5

end PII
